import Mathlib

/-!
# dagra: task graph validation and scheduling

A shallow embedding of `dagra::core::Dag` (src/core/dag.cpp) and of
`dagra::execution::Runner::execute_all` (src/execution/runner.cpp).

* `std::unordered_map<std::string, Task>` is a list of tasks in iteration order whose
  ids are pairwise distinct (the key of an entry is always the `id` of the stored task,
  since `add_task` is the only writer).  Theorems quantify over every such list, hence
  over every iteration order.
* `std::unordered_set<std::string>` is a `Finset String`.
* A thrown `std::runtime_error` is an `Except.error`, tagged by the message it carries.
* Recursion and `while` loops take a fuel argument; running out of fuel is the separate
  outcome `Error.FuelExhausted`, which the theorems show never happens.
-/

namespace dagra

deriving instance DecidableEq for Except

/-- The struct `core::Task` (task.hpp). -/
structure Task where
  id : String
  command : String
  dependencies : List String
deriving DecidableEq, Repr

/-- The messages of the `std::runtime_error`s thrown by `Dag` and `Runner`. -/
inductive Error where
  /-- Thrown by get_task: "Task with ID '<id>' not found in the DAG." -/
  | TaskNotFound (id : String)
  /-- Thrown by validate: "Validation failed: Task '<task>' has an unknown dependency '<dep>'." -/
  | UnknownDependency (task dep : String)
  /-- Thrown by detect_cycle_util: "Cycle detected in dependency graph involving task '<id>'." -/
  | CycleDetected (id : String)
  /-- Thrown by execute_all: "Execution halted due to task failure or deadlock." -/
  | ExecutionHalted
  /-- Not a C++ error: the fuel of the model ran out. -/
  | FuelExhausted
deriving DecidableEq, Repr

/-- The class `core::Dag`: the member `tasks_`, its entries in iteration order. -/
structure Dag where
  tasks_ : List Task
  nodup_ids : (tasks_.map Task.id).Nodup

namespace Dag

/-- The keys of `tasks_`, in iteration order. -/
def keys (g : Dag) : List String := g.tasks_.map Task.id

/-- The test `tasks_.find(id) != tasks_.end()`. -/
def contains (g : Dag) (id : String) : Bool := g.tasks_.any (fun t => t.id == id)

/-- `Dag::get_task` (dag.cpp:32-38). -/
def get_task (g : Dag) (id : String) : Except Error Task :=
  match g.tasks_.find? (fun t => t.id == id) with
  | some t => .ok t
  | none => .error (.TaskNotFound id)

/-- `Dag::get_all_tasks` (dag.cpp:44-46). -/
def get_all_tasks (g : Dag) : List Task := g.tasks_

/-- The `for` loop of `detect_cycle_util` (dag.cpp:83-90) over the dependencies still to
be looked at; `visit` is the recursive call. -/
def detect_cycle_deps
    (visit : String → Finset String → Finset String → Except Error (Finset String × Finset String)) :
    List String → Finset String → Finset String → Except Error (Finset String × Finset String)
  | [], visited, recursion_stack => .ok (visited, recursion_stack)
  | dep_id :: rest, visited, recursion_stack =>
    if dep_id ∈ recursion_stack then .error (.CycleDetected dep_id)
    else if dep_id ∉ visited then
      match visit dep_id visited recursion_stack with
      | .error e => .error e
      | .ok (v, s) => detect_cycle_deps visit rest v s
    else detect_cycle_deps visit rest visited recursion_stack

/-- `Dag::detect_cycle_util` (dag.cpp:78-93).  The two sets are passed by reference in the
source; here they are threaded through and returned. -/
def detect_cycle_util (g : Dag) :
    Nat → String → Finset String → Finset String → Except Error (Finset String × Finset String)
  | 0, _, _, _ => .error .FuelExhausted
  | fuel + 1, task_id, visited, recursion_stack =>
    let visited := insert task_id visited
    let recursion_stack := insert task_id recursion_stack
    match g.get_task task_id with
    | .error e => .error e
    | .ok task =>
      match detect_cycle_deps (g.detect_cycle_util fuel) task.dependencies
          visited recursion_stack with
      | .error e => .error e
      | .ok (v, s) => .ok (v, s.erase task_id)

/-- The outer `for` loop of `Dag::validate` (dag.cpp:57-66) over the entries still to be
iterated. -/
def validate_loop (g : Dag) :
    List Task → Finset String → Finset String → Except Error Unit
  | [], _, _ => .ok ()
  | task :: rest, visited, recursion_stack =>
    match task.dependencies.find? (fun dep => !g.contains dep) with
    | some dep => .error (.UnknownDependency task.id dep)
    | none =>
      if task.id ∈ visited then validate_loop g rest visited recursion_stack
      else
        match g.detect_cycle_util (g.tasks_.length + 1) task.id visited recursion_stack with
        | .error e => .error e
        | .ok (v, s) => validate_loop g rest v s

/-- `Dag::validate` (dag.cpp:52-69); `.ok ()` stands for the normal return after the
"DAG validated successfully" line was logged. -/
def validate (g : Dag) : Except Error Unit := g.validate_loop g.tasks_ ∅ ∅

end Dag

/-! ## The runner, dry-run branch (runner.cpp:63-106) -/

/-- The inner loop computing `dependencies_met` / `can_run` (runner.cpp:74-80, 124-130):
every dependency is in the given set. -/
def dependencies_met (completed : Finset String) (task : Task) : Bool :=
  task.dependencies.all (fun dep => decide (dep ∈ completed))

/-- The scan of one dry-run round (runner.cpp:68-84): `ready_tasks`, in iteration order. -/
def dry_run_scan (all_tasks : List Task) (completed_dry : Finset String) : List Task :=
  all_tasks.filter (fun task => decide (task.id ∉ completed_dry) && dependencies_met completed_dry task)

/-- The loop that marks the ready tasks done (runner.cpp:99-102). -/
def mark_done (ready_tasks : List Task) (completed_dry : Finset String) : Finset String :=
  ready_tasks.foldl (fun c task => insert task.id c) completed_dry

/-- What a dry run reports: the tasks of each round, every one logged as an
"Execute Task '<id>' (Command: <command>)" line, and the ids named by the deadlock
report when there was one. -/
structure DryRun where
  batches : List (List Task)
  deadlock : Option (List String)
deriving DecidableEq, Repr

/-- The "Execute Task" lines of a dry run, in the order they are logged. -/
def DryRun.steps (r : DryRun) : List (String × String) :=
  r.batches.flatten.map (fun task => (task.id, task.command))

/-- The `while` loop of the dry run (runner.cpp:67-103). -/
def dry_run_loop (all_tasks : List Task) : Nat → Finset String → Except Error DryRun
  | fuel, completed_dry =>
    if completed_dry.card < all_tasks.length then
      match fuel with
      | 0 => .error .FuelExhausted
      | fuel + 1 =>
        let ready_tasks := dry_run_scan all_tasks completed_dry
        if ready_tasks.isEmpty then
          if completed_dry.card < all_tasks.length then
            .ok ⟨[], some ((all_tasks.filter (fun task => decide (task.id ∉ completed_dry))).map Task.id)⟩
          else .ok ⟨[], none⟩
        else
          match dry_run_loop all_tasks fuel (mark_done ready_tasks completed_dry) with
          | .error e => .error e
          | .ok r => .ok ⟨ready_tasks :: r.batches, r.deadlock⟩
    else .ok ⟨[], none⟩

/-- The dry-run branch of `Runner::execute_all` (runner.cpp:54-106): it always returns
normally; the result is what it logged. -/
def execute_all_dry (all_tasks : List Task) : Except Error DryRun :=
  if all_tasks.length = 0 then .ok ⟨[], none⟩
  else dry_run_loop all_tasks all_tasks.length ∅

/-! ## The runner, execute branch (runner.cpp:108-175)

The control loop and the detached task threads are interleaved by a schedule.  Every
access to `completed`, `running` and `has_error` made by a thread happens in one
critical section at its end, so a thread is one atomic step; the control loop is cut at
each point where it takes or releases the lock.  A run is followed until `execute_all`
returns or throws: the shared objects are its locals and end with it. -/

/-- Where the control loop of `execute_all` stands. -/
inductive Pc where
  /-- About to evaluate the `while` condition (runner.cpp:114). -/
  | loop_test
  /-- Inside the loop body, about to take the lock and scan (runner.cpp:117-143). -/
  | scan
  /-- Lock released; the threads of these tasks are still to be launched (runner.cpp:145). -/
  | spawn (ready_to_start : List Task)
  /-- In `cv.wait` (runner.cpp:165-169). -/
  | wait
  /-- Past the loop, about to test `has_error` (runner.cpp:172). -/
  | loop_exit
  /-- Function `execute_all` returned normally. -/
  | returned
  /-- Function `execute_all` threw "Execution halted due to task failure or deadlock." -/
  | thrown
deriving DecidableEq, Repr

/-- The tasks selected by the last scan whose thread is not launched yet. -/
def Pc.pending : Pc → List Task
  | .spawn ready_to_start => ready_to_start
  | _ => []

/-- The locals of `execute_all` shared with the threads, the position of the control
loop, the launched threads that have not reached their critical section yet, and two
history lists: the `ready_to_start` of every scan and the tasks whose thread was launched
(each launched thread calls `std::system` on the command of its task). -/
structure ExecState where
  completed : Finset String
  running : Finset String
  has_error : Bool
  pc : Pc
  threads : List Task
  dispatched : List (List Task)
  invoked : List Task
deriving DecidableEq

/-- The scan `for` loop of execute mode (runner.cpp:119-136) over the entries still to be
iterated: returns `ready_to_start` and the updated `running`. -/
def exec_scan (completed : Finset String) :
    List Task → Finset String → List Task → List Task × Finset String
  | [], running, ready_to_start => (ready_to_start, running)
  | task :: rest, running, ready_to_start =>
    if task.id ∈ completed ∨ task.id ∈ running then
      exec_scan completed rest running ready_to_start
    else if dependencies_met completed task then
      exec_scan completed rest (insert task.id running) (ready_to_start ++ [task])
    else exec_scan completed rest running ready_to_start

/-- The predicate of `cv.wait` (runner.cpp:167-168). -/
def wait_pred (total_tasks : Nat) (s : ExecState) : Bool :=
  s.has_error || (decide (s.running = ∅) && decide (s.completed.card < total_tasks)) ||
    decide (s.completed.card = total_tasks)

/-- One step of the control loop; `none` when it is blocked in `cv.wait` or has ended. -/
def control_step (all_tasks : List Task) (s : ExecState) : Option ExecState :=
  match s.pc with
  | .loop_test =>
    if s.completed.card < all_tasks.length ∧ s.has_error = false then some { s with pc := .scan }
    else some { s with pc := .loop_exit }
  | .scan =>
    let r := exec_scan s.completed all_tasks s.running []
    if r.1.isEmpty ∧ r.2 = ∅ ∧ s.completed.card < all_tasks.length then
      some { s with running := r.2, has_error := true, pc := .loop_exit,
                    dispatched := s.dispatched ++ [r.1] }
    else
      some { s with running := r.2, pc := .spawn r.1, dispatched := s.dispatched ++ [r.1] }
  | .spawn [] => some { s with pc := .wait }
  | .spawn (task :: rest) =>
    some { s with threads := s.threads ++ [task], invoked := s.invoked ++ [task],
                  pc := .spawn rest }
  | .wait => if wait_pred all_tasks.length s then some { s with pc := .loop_test } else none
  | .loop_exit => some { s with pc := if s.has_error then .thrown else .returned }
  | .returned => none
  | .thrown => none

/-- The critical section at the end of the thread of `task` (runner.cpp:150-161);
`system task` is the status `std::system` returned for its command.  `none` when no such
thread is live, and when `execute_all` has ended: `mtx`, `cv`, `completed`, `running` and
`has_error` are locals of `execute_all` (runner.cpp:108-112) that the thread holds by
reference (runner.cpp:146), so they are there to be locked and updated only until
`execute_all` returns or throws, and no step of a thread is defined after that. -/
def thread_step (system : Task → Int) (task : Task) (s : ExecState) : Option ExecState :=
  if s.pc = .returned ∨ s.pc = .thrown then none
  else if task ∈ s.threads then
    if system task = 0 then
      some { s with threads := s.threads.erase task, running := s.running.erase task.id,
                    completed := insert task.id s.completed }
    else
      some { s with threads := s.threads.erase task, running := s.running.erase task.id,
                    has_error := true }
  else none

/-- Who moves next. -/
inductive Action where
  | control
  | finish (task : Task)
deriving DecidableEq, Repr

def step (all_tasks : List Task) (system : Task → Int) : Action → ExecState → Option ExecState
  | .control, s => control_step all_tasks s
  | .finish task, s => thread_step system task s

/-- The state in which the execute branch starts: with no task `execute_all` has already
returned (runner.cpp:57-60). -/
def exec_init (all_tasks : List Task) : ExecState :=
  { completed := ∅, running := ∅, has_error := false,
    pc := if all_tasks.length = 0 then .returned else .loop_test,
    threads := [], dispatched := [], invoked := [] }

/-- Runs a schedule from a state; `none` when the schedule asks for a move that is not
possible. -/
def run_from (all_tasks : List Task) (system : Task → Int) : List Action → ExecState → Option ExecState
  | [], s => some s
  | a :: rest, s =>
    match step all_tasks system a s with
    | none => none
    | some s' => run_from all_tasks system rest s'

/-- The execute branch of `Runner::execute_all` under a schedule. -/
def execute_all_run (all_tasks : List Task) (system : Task → Int) (schedule : List Action) :
    Option ExecState :=
  run_from all_tasks system schedule (exec_init all_tasks)

namespace Dag

/-! ## Specification vocabulary for the graph -/

/-- The dependency relation: `dep g a b` when the task stored under `a` lists `b`. -/
def dep (g : Dag) (a b : String) : Prop :=
  ∃ t ∈ g.tasks_, t.id = a ∧ b ∈ t.dependencies

/-- Every dependency id listed by any task is a key of the graph. -/
def DepsExist (g : Dag) : Prop :=
  ∀ t ∈ g.tasks_, ∀ d ∈ t.dependencies, d ∈ g.keys

/-- No task reaches itself by following one or more dependency edges. -/
def Acyclic (g : Dag) : Prop :=
  ∀ a, ¬ Relation.TransGen g.dep a a

/-- State invariant of the depth-first search: the stack is part of the visited set, and
the finished ids (visited, not on the stack) are closed under `dep` and lie on no cycle. -/
structure DfsInv (g : Dag) (V S : Finset String) : Prop where
  sub : S ⊆ V
  closed : ∀ a ∈ V, a ∉ S → ∀ b, g.dep a b → b ∈ V ∧ b ∉ S
  acyc : ∀ a ∈ V, a ∉ S → ¬ Relation.TransGen g.dep a a

/-- Number of keys not yet visited: the measure that bounds the recursion depth. -/
def unvisited (g : Dag) (V : Finset String) : Nat := (g.keys.toFinset \ V).card

/-- What a (partial) search started in state `(V, S)` may end with: on normal return the
stack is restored, the visited set grew, the invariant holds and `P` holds of the new
visited set; a cycle error names an id on a real cycle; a task-not-found error only
occurs under `NF`; no other error occurs. -/
def DfsPost (g : Dag) (V S : Finset String) (P : Finset String → Prop) (NF : Prop) :
    Except Error (Finset String × Finset String) → Prop
  | .ok (V', S') => S' = S ∧ V ⊆ V' ∧ g.DfsInv V' S ∧ P V'
  | .error (.CycleDetected d) => Relation.TransGen g.dep d d
  | .error (.TaskNotFound _) => NF
  | .error _ => False

/-- What `validate_loop` may end with, as a predicate on its result. -/
def ValidatePost (g : Dag) (ts : List Task) (V : Finset String) : Except Error Unit → Prop
  | .ok _ => (∀ t ∈ ts, ∀ d ∈ t.dependencies, d ∈ g.keys) ∧
      ∃ V', V ⊆ V' ∧ g.DfsInv V' ∅ ∧ ∀ t ∈ ts, t.id ∈ V'
  | .error (.CycleDetected d) => Relation.TransGen g.dep d d
  | .error (.UnknownDependency a d) =>
      ∃ t ∈ g.tasks_, t.id = a ∧ d ∈ t.dependencies ∧ d ∉ g.keys
  | .error (.TaskNotFound _) => ¬ g.DepsExist
  | .error _ => False

end Dag

/-! ## Execute mode: invariant of the reachable states -/

/-- The test a task passes in the scan of execute mode. -/
def selectable (completed running : Finset String) (task : Task) : Bool :=
  decide (task.id ∉ completed) && decide (task.id ∉ running) && dependencies_met completed task

namespace Dag

/-- The launched threads together with the tasks selected but not launched yet. -/
def live (s : ExecState) : List Task := s.threads ++ s.pc.pending

/-- Invariant of every reachable state of execute mode, for every graph and whatever the
commands return. -/
structure ExecInv (g : Dag) (s : ExecState) : Prop where
  completed_sub : s.completed ⊆ g.keys.toFinset
  disjoint : ∀ x ∈ s.running, x ∉ s.completed
  live_mem : ∀ t ∈ live s, t ∈ g.tasks_
  live_nodup : (live s).Nodup
  running_eq : ∀ x, x ∈ s.running ↔ ∃ t ∈ live s, t.id = x
  deps_closed : ∀ t ∈ g.tasks_, (t.id ∈ s.completed ∨ t.id ∈ s.running) →
    ∀ d ∈ t.dependencies, d ∈ s.completed
  at_scan : s.pc = .scan → s.threads = [] ∧ s.has_error = false ∧
    s.completed.card < g.tasks_.length
  at_test : s.pc = .loop_test → s.has_error = true ∨ s.threads = []
  at_exit : s.pc = .loop_exit → s.has_error = true ∨ g.tasks_.length ≤ s.completed.card
  at_returned : s.pc = .returned → s.has_error = false ∧ g.tasks_.length ≤ s.completed.card
  at_thrown : s.pc = .thrown → s.has_error = true

/-! ## Execute mode on a valid graph whose commands all succeed -/

/-- Number of steps the control loop still needs from a position, not counting the work
on tasks. -/
def pc_weight : Pc → Nat
  | .returned => 0
  | .thrown => 0
  | .loop_exit => 1
  | .scan => 2
  | .loop_test => 3
  | .wait => 4
  | .spawn _ => 5

/-- A bound on the number of steps that are left: six for every task not selected yet,
two for every task selected but not launched, one for every live thread. -/
def potential (all_tasks : List Task) (s : ExecState) : Nat :=
  6 * (all_tasks.filter
      (fun t => decide (t.id ∉ s.completed) && decide (t.id ∉ s.running))).length +
    2 * s.pc.pending.length + s.threads.length + pc_weight s.pc

end Dag

/-! ## Example graphs -/

def task_1 : Task := ⟨"task-1", "cmd", []⟩
def task_2 : Task := ⟨"task-2", "cmd", ["task-1"]⟩

/-- The graph of the test `DagTest.ValidationSuccess`. -/
def dag_valid : Dag := ⟨[task_1, task_2], by decide⟩

/-- The graph of the test `DagTest.ValidationFailsWithSimpleCycle`. -/
def dag_cycle : Dag :=
  ⟨[⟨"task-1", "cmd", ["task-2"]⟩, ⟨"task-2", "cmd", ["task-1"]⟩], by decide⟩

/-- A missing dependency behind an existing one: `t1 → t2 → ghost`, `t1` iterated first. -/
def dag_ghost_behind : Dag :=
  ⟨[⟨"t1", "cmd", ["t2"]⟩, ⟨"t2", "cmd", ["ghost"]⟩], by decide⟩

/-- A self-dependency iterated before a task with a missing dependency. -/
def dag_cycle_before_ghost : Dag :=
  ⟨[⟨"t1", "cmd", ["t1"]⟩, ⟨"t2", "cmd", ["ghost"]⟩], by decide⟩

def task_a : Task := ⟨"task-a", "echo A", []⟩
def task_b : Task := ⟨"task-b", "echo B", ["task-a"]⟩
def task_c : Task := ⟨"task-c", "echo C", ["task-b"]⟩

/-- The chain of the fixture `RunnerTest`. -/
def dag_chain : Dag := ⟨[task_a, task_b, task_c], by decide⟩

/-- The six orders in which the chain can be iterated. -/
def chain_orders : List (List Task) :=
  [[task_a, task_b, task_c], [task_a, task_c, task_b], [task_b, task_a, task_c],
   [task_b, task_c, task_a], [task_c, task_a, task_b], [task_c, task_b, task_a]]

def rank_chain (id : String) : Nat :=
  if id = "task-a" then 0 else if id = "task-b" then 1 else 2

def task_x : Task := ⟨"x", "false", []⟩
def task_y : Task := ⟨"y", "sleep 1", []⟩

/-- Two independent tasks; the command of `x` fails. -/
def dag_xy : Dag := ⟨[task_x, task_y], by decide⟩

def system_xy (task : Task) : Int := if task.id = "x" then 1 else 0

/-- Both tasks are launched, then `x` fails while `y` is still running. -/
def schedule_x_fails : List Action :=
  [.control, .control, .control, .control, .control, .finish task_x]

/-- Both tasks are launched and none has finished. -/
def schedule_xy_launched : List Action :=
  [.control, .control, .control, .control, .control]

def state_xy_launched : ExecState :=
  { completed := ∅, running := {"y", "x"}, has_error := false, pc := .wait,
    threads := [task_x, task_y], dispatched := [[task_x, task_y]],
    invoked := [task_x, task_y] }

def state_x_failed : ExecState :=
  { completed := ∅, running := {"y"}, has_error := true, pc := .wait,
    threads := [task_y], dispatched := [[task_x, task_y]], invoked := [task_x, task_y] }

/-- After the failure of `x` the control loop wakes up, leaves the loop and throws. -/
def schedule_x_fails_throw : List Action :=
  schedule_x_fails ++ [.control, .control, .control]

def state_thrown : ExecState := { state_x_failed with pc := .thrown }

/-- Every command of the chain succeeds. -/
def system_ok (_ : Task) : Int := 0

/-- The chain up to the second scan: `task-a` ran and completed. -/
def schedule_chain_a : List Action :=
  [.control, .control, .control, .control, .finish task_a, .control, .control]

def state_chain_a : ExecState :=
  { completed := {"task-a"}, running := ∅, has_error := false, pc := .scan,
    threads := [], dispatched := [[task_a]], invoked := [task_a] }

def state_chain_b : ExecState :=
  { completed := {"task-a"}, running := {"task-b"}, has_error := false, pc := .spawn [task_b],
    threads := [], dispatched := [[task_a], [task_b]], invoked := [task_a] }

/-- A complete run of the chain. -/
def schedule_chain : List Action :=
  [.control, .control, .control, .control, .finish task_a, .control,
   .control, .control, .control, .control, .finish task_b, .control,
   .control, .control, .control, .control, .finish task_c, .control,
   .control, .control]

def state_chain_done : ExecState :=
  { completed := {"task-c", "task-b", "task-a"}, running := ∅, has_error := false,
    pc := .returned, threads := [],
    dispatched := [[task_a], [task_b], [task_c]], invoked := [task_a, task_b, task_c] }

/-! ## Calls on the objects: `add_task`, `validate`, `execute_all` -/

namespace Dag

/-- A default-constructed `Dag`: no task. -/
def empty : Dag := ⟨[], List.nodup_nil⟩

/-- `Dag::add_task` (dag.cpp:23-25), the assignment `tasks_[task.id] = task`: an entry
with this key is overwritten where it stands; otherwise a new entry is inserted (where a
new entry shows up in the iteration is unspecified; here it comes last). -/
def add_task (g : Dag) (task : Task) : Dag :=
  if h : g.contains task.id = true then
    ⟨g.tasks_.map (fun t => if t.id = task.id then task else t), by
      have hf : (Task.id ∘ fun t : Task => if t.id = task.id then task else t) = Task.id := by
        funext t
        by_cases ht : t.id = task.id <;> simp [ht]
      rw [List.map_map, hf]
      exact g.nodup_ids⟩
  else
    ⟨g.tasks_ ++ [task], by
      rw [List.map_append, List.nodup_append]
      refine ⟨g.nodup_ids, by simp, ?_⟩
      intro a ha hb
      simp only [List.map_cons, List.map_nil, List.mem_singleton] at hb
      subst hb
      apply h
      simp only [contains, List.any_eq_true, beq_iff_eq]
      obtain ⟨t, ht, hid⟩ := List.mem_map.1 ha
      exact ⟨t, ht, hid⟩⟩

/-- A call of `validate()` on the object: the graph after the call and the outcome.  The
method is `const` and writes neither `tasks_` nor any other member; `visited` and
`recursion_stack` are locals, created empty at every call. -/
def validate_call (g : Dag) : Dag × Except Error Unit := (g, g.validate)

end Dag

/-- The class `execution::Runner`: a reference to the graph and the mode. -/
structure Runner where
  dag_ : Dag
  dry_run_ : Bool

/-- How a call of `execute_all` stands once the schedule is used up: `result` is
`some (.ok ())` after a normal return, `some (.error e)` after a throw and `none` while
the control loop has not ended; `plan` is what the dry run logged; `invoked` lists the
tasks whose command was handed to `std::system`; `dag_` is the graph after the call. -/
structure Report where
  result : Option (Except Error Unit)
  plan : DryRun
  invoked : List Task
  dag_ : Dag

/-- How `execute_all` ended, read off the position of the control loop. -/
def exec_result : Pc → Option (Except Error Unit)
  | .returned => some (.ok ())
  | .thrown => some (.error .ExecutionHalted)
  | _ => none

/-- `Runner::execute_all` (runner.cpp:54-175).  The dry-run branch calls no command and
consults no schedule; the graph is held through a `const` reference and never written.
Both branches start with the test `total_tasks == 0`. -/
def Runner.execute_all (r : Runner) (system : Task → Int) (schedule : List Action) :
    Option Report :=
  if r.dry_run_ then
    match execute_all_dry r.dag_.get_all_tasks with
    | .ok plan => some ⟨some (.ok ()), plan, [], r.dag_⟩
    | .error e => some ⟨some (.error e), ⟨[], none⟩, [], r.dag_⟩
  else
    match execute_all_run r.dag_.get_all_tasks system schedule with
    | none => none
    | some s => some ⟨exec_result s.pc, ⟨[], none⟩, s.invoked, r.dag_⟩

/-! ## Execute mode: the history of dispatches -/

namespace Dag

/-- Invariant of the two history lists: the tasks selected so far are those launched
followed by those still to be launched, no task was selected twice, and a selected task
is in `completed` or in `running` unless a failure was recorded. -/
structure DispatchInv (g : Dag) (s : ExecState) : Prop where
  hist : s.dispatched.flatten = s.invoked ++ s.pc.pending
  seen : ∀ t ∈ s.dispatched.flatten,
    t.id ∈ s.completed ∨ t.id ∈ s.running ∨ s.has_error = true
  nodup : s.dispatched.flatten.Nodup
  mem : ∀ t ∈ s.dispatched.flatten, t ∈ g.tasks_

end Dag

/-! ## More example graphs -/

/-- The graph of the test `RunnerTest.DryRunDetectsDeadlock`. -/
def dag_t1_t2 : Dag := ⟨[⟨"t1", "cmd1", ["t2"]⟩, ⟨"t2", "cmd2", ["t1"]⟩], by decide⟩

def task_p : Task := ⟨"p", "make p", []⟩
def task_q : Task := ⟨"q", "sleep 5", []⟩
def task_r : Task := ⟨"r", "make r", ["p"]⟩

/-- Two independent tasks `p` and `q`, and `r` that depends on `p` only. -/
def dag_pqr : Dag := ⟨[task_p, task_q, task_r], by decide⟩

/-- Both `p` and `q` are launched; `p` completes while `q` is still running. -/
def schedule_p_done : List Action :=
  [.control, .control, .control, .control, .control, .finish task_p]

def state_p_done : ExecState :=
  { completed := {"p"}, running := {"q"}, has_error := false, pc := .wait,
    threads := [task_q], dispatched := [[task_p, task_q]], invoked := [task_p, task_q] }

/-- Then `q` completes too. -/
def schedule_pq_done : List Action := schedule_p_done ++ [.finish task_q]

def state_pq_done : ExecState :=
  { completed := {"q", "p"}, running := ∅, has_error := false, pc := .wait,
    threads := [], dispatched := [[task_p, task_q]], invoked := [task_p, task_q] }

def state_r_selected : ExecState :=
  { completed := {"q", "p"}, running := {"r"}, has_error := false, pc := .spawn [task_r],
    threads := [], dispatched := [[task_p, task_q], [task_r]], invoked := [task_p, task_q] }

/-- The control loop at the scan of the cyclic graph, where it finds the deadlock. -/
def state_t1_t2_scan : ExecState :=
  { completed := ∅, running := ∅, has_error := false, pc := .scan,
    threads := [], dispatched := [], invoked := [] }

/-! ## The command line and `main` (parser.cpp:28-52, main.cpp:24-59) -/

/-- The struct `cli::AppOptions` (parser.hpp:26-29). -/
structure AppOptions where
  config_filepath : String
  dry_run : Bool
deriving DecidableEq, Repr

/-- The messages of the two `std::runtime_error`s thrown by `parse_args`. -/
inductive ParseError where
  /-- Thrown when `argc < 2`: "Usage: dagra <config.yaml> [--dry-run]". -/
  | Usage
  /-- Thrown after the loop: "Configuration file path is missing. Usage: ...". -/
  | ConfigPathMissing
deriving DecidableEq, Repr

/-- The test `arg.rfind("--", 0) == 0`: the argument starts with two dashes. -/
def starts_with_dashes (arg : String) : Bool :=
  match arg.toList with
  | '-' :: '-' :: _ => true
  | _ => false

/-- The `for` loop of `parse_args` (parser.cpp:37-45) over the arguments still to be
read: returns `options` and `config_found`. -/
def parse_args_loop : List String → AppOptions → Bool → AppOptions × Bool
  | [], options, config_found => (options, config_found)
  | arg :: rest, options, config_found =>
    if arg = "--dry-run" then
      parse_args_loop rest { options with dry_run := true } config_found
    else if config_found = false ∧ arg ≠ "" ∧ starts_with_dashes arg = false then
      parse_args_loop rest { options with config_filepath := arg } true
    else parse_args_loop rest options config_found

/-- `Parser::parse_args` (parser.cpp:28-52); `argv` lists `argv[0]` to `argv[argc - 1]`. -/
def parse_args (argv : List String) : Except ParseError AppOptions :=
  if argv.length < 2 then .error .Usage
  else
    let options := (parse_args_loop (argv.drop 1) ⟨"", false⟩ false).1
    if options.config_filepath = "" then .error .ConfigPathMissing
    else .ok options

/-- What the claims call a configuration path: a non-empty argument that does not start
with two dashes. -/
def is_config_path (arg : String) : Bool :=
  decide (arg ≠ "") && !starts_with_dashes arg

/-- How `main` stands once the schedule is used up: the exit status (`none` while
`execute_all` has not ended), whether `execute_all` was called, and the tasks whose
command was handed to `std::system`. -/
structure MainOutcome where
  exit_status : Option Int
  runner_called : Bool
  invoked : List Task
deriving DecidableEq

/-- The exit status `main` returns for an ended call of `execute_all`: 0 after a normal
return, 1 when the exception was caught. -/
def exit_status_of : Option (Except Error Unit) → Option Int
  | none => none
  | some (.ok _) => some 0
  | some (.error _) => some 1

/-- The function `main` (main.cpp:24-59).  Reading the configuration file is left to
`parse_yaml`, which stands for `Parser::parse_yaml` on the file system at hand; every
exception is caught by the one `catch` and turned into the exit status 1. -/
def main (parse_yaml : String → Except String (List Task)) (system : Task → Int)
    (schedule : List Action) (argv : List String) : Option MainOutcome :=
  match parse_args argv with
  | .error _ => some ⟨some 1, false, []⟩
  | .ok options =>
    match parse_yaml options.config_filepath with
    | .error _ => some ⟨some 1, false, []⟩
    | .ok tasks =>
      let dag := tasks.foldl Dag.add_task Dag.empty
      match dag.validate with
      | .error _ => some ⟨some 1, false, []⟩
      | .ok _ =>
        match (Runner.mk dag options.dry_run).execute_all system schedule with
        | none => none
        | some rep => some ⟨exit_status_of rep.result, true, rep.invoked⟩

/-! ## The depth-first search with the list of its entries -/

namespace Dag

/-- The loop `detect_cycle_deps`, carrying the list of the ids on which
`detect_cycle_util` was entered so far. -/
def detect_cycle_deps_trace
    (visit : String → Finset String → Finset String → List String →
      List String × Except Error (Finset String × Finset String)) :
    List String → Finset String → Finset String → List String →
      List String × Except Error (Finset String × Finset String)
  | [], visited, recursion_stack, entered => (entered, .ok (visited, recursion_stack))
  | dep_id :: rest, visited, recursion_stack, entered =>
    if dep_id ∈ recursion_stack then (entered, .error (.CycleDetected dep_id))
    else if dep_id ∉ visited then
      match visit dep_id visited recursion_stack entered with
      | (entered', .error e) => (entered', .error e)
      | (entered', .ok (v, s)) => detect_cycle_deps_trace visit rest v s entered'
    else detect_cycle_deps_trace visit rest visited recursion_stack entered

/-- The function `detect_cycle_util`, recording each entry: the id is appended to
`entered` when the function is entered. -/
def detect_cycle_util_trace (g : Dag) :
    Nat → String → Finset String → Finset String → List String →
      List String × Except Error (Finset String × Finset String)
  | 0, _, _, _, entered => (entered, .error .FuelExhausted)
  | fuel + 1, task_id, visited, recursion_stack, entered =>
    let entered := entered ++ [task_id]
    let visited := insert task_id visited
    let recursion_stack := insert task_id recursion_stack
    match g.get_task task_id with
    | .error e => (entered, .error e)
    | .ok task =>
      match detect_cycle_deps_trace (g.detect_cycle_util_trace fuel) task.dependencies
          visited recursion_stack entered with
      | (entered', .error e) => (entered', .error e)
      | (entered', .ok (v, s)) => (entered', .ok (v, s.erase task_id))

/-- The loop `validate_loop`, carrying the list of entries. -/
def validate_loop_trace (g : Dag) :
    List Task → Finset String → Finset String → List String →
      List String × Except Error Unit
  | [], _, _, entered => (entered, .ok ())
  | task :: rest, visited, recursion_stack, entered =>
    match task.dependencies.find? (fun dep => !g.contains dep) with
    | some dep => (entered, .error (.UnknownDependency task.id dep))
    | none =>
      if task.id ∈ visited then validate_loop_trace g rest visited recursion_stack entered
      else
        match g.detect_cycle_util_trace (g.tasks_.length + 1) task.id visited
            recursion_stack entered with
        | (entered', .error e) => (entered', .error e)
        | (entered', .ok (v, s)) => validate_loop_trace g rest v s entered'

/-- The method `validate` together with the ids on which the search was entered, in the
order of the entries. -/
def validate_trace (g : Dag) : List String × Except Error Unit :=
  g.validate_loop_trace g.tasks_ ∅ ∅ []

/-! ## Chains of dependencies -/

/-- `DepPath g a k`: from the task `a` one can follow `k` dependency edges. -/
inductive DepPath (g : Dag) : String → Nat → Prop where
  | here {a : String} (h : a ∈ g.keys) : DepPath g a 0
  | next {a b : String} {k : Nat} (h : g.dep a b) (p : DepPath g b k) : DepPath g a (k + 1)

/-- The longest chain of dependencies below `a` has `k` edges. -/
def LongestChain (g : Dag) (a : String) (k : Nat) : Prop :=
  g.DepPath a k ∧ ∀ j, g.DepPath a j → j ≤ k

/-- The task `t` is emitted in batch `k` of the plan `r`. -/
def InBatch (r : DryRun) (t : Task) (k : Nat) : Prop :=
  ∃ batch, r.batches[k]? = some batch ∧ t ∈ batch

end Dag

/-! ## Execute mode against the plan -/

/-- The non-empty entries of the list of dispatches: the waves. -/
def waves (s : ExecState) : List (List Task) :=
  s.dispatched.filter (fun ready => !ready.isEmpty)

namespace Dag

/-- Invariant that ties a run whose commands all succeed to the plan `r` of the dry run:
the waves are the first batches of the plan, the error flag is only set when the scan
after the last wave finds nothing, every live thread was launched and every completed
id is the id of a launched task. -/
structure WaveInv (g : Dag) (r : DryRun) (s : ExecState) : Prop where
  plan : ∃ rest, r.batches = waves s ++ rest
  stuck : s.has_error = true →
    dry_run_scan g.tasks_ (mark_done (waves s).flatten ∅) = []
  threads_invoked : ∀ t ∈ s.threads, t ∈ s.invoked
  completed_invoked : ∀ x ∈ s.completed, ∃ t ∈ s.invoked, t.id = x

end Dag

/-! ## Example command lines and runs -/

def argv_basic : List String := ["dagra", "config.yaml"]
def argv_dry_run : List String := ["dagra", "config.yaml", "--dry-run"]
def argv_flag_first : List String := ["dagra", "--dry-run", "config.yaml"]
def argv_missing : List String := ["dagra"]
def argv_only_flags : List String := ["dagra", "--dry-run", "--verbose"]

/-- A configuration whose graph has a cycle. -/
def parse_yaml_cycle (_ : String) : Except String (List Task) :=
  .ok [⟨"t1", "cmd1", ["t2"]⟩, ⟨"t2", "cmd2", ["t1"]⟩]

/-- A diamond: `d` depends on `b` and `c`, which both depend on `a`; `e` stands alone. -/
def dag_diamond : Dag :=
  ⟨[⟨"d", "cmd", ["b", "c"]⟩, ⟨"a", "cmd", []⟩, ⟨"b", "cmd", ["a"]⟩, ⟨"c", "cmd", ["a"]⟩,
    ⟨"e", "cmd", []⟩], by decide⟩

/-- The chain after its first wave was scanned, launched and completed. -/
def state_chain_wave1 : ExecState :=
  { completed := {"task-a"}, running := ∅, has_error := false, pc := .loop_test,
    threads := [], dispatched := [[task_a]], invoked := [task_a] }

/-! ## Lemmas on the graph and on `validate` -/

namespace Dag

theorem mem_keys {g : Dag} {a : String} : a ∈ g.keys ↔ ∃ t ∈ g.tasks_, t.id = a := by
  simp [keys]

theorem contains_iff {g : Dag} {a : String} : g.contains a = true ↔ a ∈ g.keys := by
  simp [contains, keys]

theorem task_unique {g : Dag} {t u : Task} (ht : t ∈ g.tasks_) (hu : u ∈ g.tasks_)
    (h : t.id = u.id) : t = u :=
  List.inj_on_of_nodup_map g.nodup_ids ht hu h

theorem get_task_ok {g : Dag} {a : String} {t : Task} (h : g.get_task a = .ok t) :
    t ∈ g.tasks_ ∧ t.id = a := by
  unfold get_task at h
  split at h
  · rename_i u hu
    cases h
    exact ⟨List.mem_of_find?_eq_some hu, by simpa using List.find?_some hu⟩
  · cases h

theorem get_task_error {g : Dag} {a : String} {e : Error} (h : g.get_task a = .error e) :
    e = .TaskNotFound a ∧ a ∉ g.keys := by
  unfold get_task at h
  split at h
  · cases h
  · rename_i hn
    cases h
    refine ⟨rfl, ?_⟩
    rw [List.find?_eq_none] at hn
    intro hk
    obtain ⟨t, ht, rfl⟩ := mem_keys.1 hk
    simpa using hn t ht

theorem get_task_of_mem {g : Dag} {t : Task} (ht : t ∈ g.tasks_) : g.get_task t.id = .ok t := by
  cases h : g.get_task t.id with
  | error e => exact absurd (mem_keys.2 ⟨t, ht, rfl⟩) (get_task_error h).2
  | ok u =>
    obtain ⟨hu, hid⟩ := get_task_ok h
    rw [task_unique hu ht hid]

theorem dep_key {g : Dag} {a b : String} (h : g.dep a b) : a ∈ g.keys := by
  obtain ⟨t, ht, rfl, _⟩ := h
  exact mem_keys.2 ⟨t, ht, rfl⟩

theorem transGen_key {g : Dag} {a b : String} (h : Relation.TransGen g.dep a b) : a ∈ g.keys := by
  induction h using Relation.TransGen.head_induction_on with
  | base h => exact dep_key h
  | ih h _ _ => exact dep_key h

theorem unvisited_mono {g : Dag} {V V' : Finset String} (h : V ⊆ V') :
    g.unvisited V' ≤ g.unvisited V :=
  Finset.card_le_card (Finset.sdiff_subset_sdiff (Finset.Subset.refl _) h)

theorem unvisited_insert {g : Dag} {V : Finset String} {a : String}
    (hk : a ∈ g.keys) (hv : a ∉ V) : g.unvisited (insert a V) < g.unvisited V := by
  apply Finset.card_lt_card
  rw [Finset.ssubset_iff_of_subset
    (Finset.sdiff_subset_sdiff (Finset.Subset.refl _) (Finset.subset_insert a V))]
  exact ⟨a, by simp [hk, hv], by simp⟩

theorem unvisited_le {g : Dag} (V : Finset String) : g.unvisited V ≤ g.tasks_.length := by
  calc g.unvisited V ≤ g.keys.toFinset.card := Finset.card_le_card Finset.sdiff_subset
    _ ≤ g.keys.length := List.toFinset_card_le _
    _ = g.tasks_.length := by simp [keys]

/-- Finished ids only reach finished ids. -/
theorem DfsInv.reach {g : Dag} {V S : Finset String} (inv : g.DfsInv V S) {a b : String}
    (hab : Relation.ReflTransGen g.dep a b) (ha : a ∈ V) (has : a ∉ S) : b ∈ V ∧ b ∉ S := by
  induction hab with
  | refl => exact ⟨ha, has⟩
  | tail _ hcb ih => exact inv.closed _ ih.1 ih.2 _ hcb

theorem DfsInv.push {g : Dag} {V S : Finset String} (inv : g.DfsInv V S) {a : String}
    (hv : a ∉ V) : g.DfsInv (insert a V) (insert a S) where
  sub := Finset.insert_subset_insert a inv.sub
  closed := by
    intro x hx hxs b hb
    simp only [Finset.mem_insert, not_or] at hx hxs ⊢
    have hxV : x ∈ V := hx.resolve_left hxs.1
    have := inv.closed x hxV hxs.2 b hb
    exact ⟨Or.inr this.1, fun h => hv (h ▸ this.1), this.2⟩
  acyc := by
    intro x hx hxs
    simp only [Finset.mem_insert, not_or] at hx hxs
    exact inv.acyc x (hx.resolve_left hxs.1) hxs.2

/-- Popping `a` once all the dependencies of its task are finished. -/
theorem DfsInv.pop {g : Dag} {V S : Finset String} {a : String}
    (inv : g.DfsInv V (insert a S)) (haS : a ∉ S)
    (hdeps : ∀ b, g.dep a b → b ∈ V ∧ b ∉ insert a S) : g.DfsInv V S where
  sub := (Finset.subset_insert a S).trans inv.sub
  closed := by
    intro x hx hxs b hb
    by_cases hxa : x = a
    · subst hxa
      have := hdeps b hb
      exact ⟨this.1, fun h => this.2 (Finset.mem_insert_of_mem h)⟩
    · have := inv.closed x hx (by simp [hxa, hxs]) b hb
      exact ⟨this.1, fun h => this.2 (Finset.mem_insert_of_mem h)⟩
  acyc := by
    intro x hx hxs hcyc
    by_cases hxa : x = a
    · subst hxa
      obtain ⟨b, hb, hbx⟩ := Relation.TransGen.head'_iff.1 hcyc
      have hb' := hdeps b hb
      exact (inv.reach hbx hb'.1 hb'.2).2 (Finset.mem_insert_self _ _)
    · exact inv.acyc x hx (by simp [hxa, hxs]) hcyc

/-- The `for` loop of `detect_cycle_util` over the dependencies `ds` of the task `a`,
given that the recursive call meets its specification. -/
theorem detect_cycle_deps_spec {g : Dag} {a : String} {bound : Nat}
    (visit : String → Finset String → Finset String → Except Error (Finset String × Finset String))
    (hvisit : ∀ d V S, g.DfsInv V S → d ∉ V → (∀ s ∈ S, Relation.TransGen g.dep s d) →
      g.unvisited V < bound →
      g.DfsPost V S (fun V' => d ∈ V') (d ∈ g.keys → ¬ g.DepsExist) (visit d V S))
    (ds : List String) (V S : Finset String) (inv : g.DfsInv V S)
    (hds : ∀ d ∈ ds, g.dep a d) (hpath : ∀ s ∈ S, Relation.ReflTransGen g.dep s a)
    (hfuel : g.unvisited V < bound) :
    g.DfsPost V S (fun V' => ∀ d ∈ ds, d ∈ V' ∧ d ∉ S) (¬ g.DepsExist)
      (detect_cycle_deps visit ds V S) := by
  induction ds generalizing V with
  | nil => simp [detect_cycle_deps, DfsPost, inv]
  | cons d rest ih =>
    have hd : g.dep a d := hds d (List.mem_cons_self _ _)
    have hrest : ∀ x ∈ rest, g.dep a x := fun x hx => hds x (List.mem_cons_of_mem _ hx)
    unfold detect_cycle_deps
    by_cases hdS : d ∈ S
    · simp only [hdS, if_true, DfsPost]
      exact Relation.TransGen.tail' (hpath d hdS) hd
    · simp only [hdS, if_false]
      by_cases hdV : d ∈ V
      · simp only [hdV, not_true_eq_false, if_false]
        have := ih V inv hrest hfuel
        revert this
        cases detect_cycle_deps visit rest V S with
        | error e => cases e <;> simp [DfsPost]
        | ok r =>
          obtain ⟨V', S'⟩ := r
          simp only [DfsPost]
          rintro ⟨rfl, hsub, inv', hall⟩
          refine ⟨rfl, hsub, inv', ?_⟩
          intro x hx
          rcases List.mem_cons.1 hx with rfl | hx
          · exact ⟨hsub hdV, hdS⟩
          · exact hall x hx
      · simp only [hdV, not_false_eq_true, if_true]
        have hcall := hvisit d V S inv hdV
          (fun s hs => Relation.TransGen.tail' (hpath s hs) hd) hfuel
        revert hcall
        cases visit d V S with
        | error e =>
          cases e <;> simp only [DfsPost, imp_self, false_imp_iff]
          intro h
          by_cases hk : d ∈ g.keys
          · exact h hk
          · obtain ⟨t, ht, _, hdt⟩ := hd
            exact fun hall => hk (hall t ht d hdt)
        | ok r =>
          obtain ⟨V1, S1⟩ := r
          simp only [DfsPost]
          rintro ⟨rfl, hsub1, inv1, hd1⟩
          have := ih V1 inv1 hrest (lt_of_le_of_lt (unvisited_mono hsub1) hfuel)
          revert this
          cases detect_cycle_deps visit rest V1 S1 with
          | error e => cases e <;> simp [DfsPost]
          | ok r =>
            obtain ⟨V', S'⟩ := r
            simp only [DfsPost]
            rintro ⟨rfl, hsub, inv', hall⟩
            refine ⟨rfl, hsub1.trans hsub, inv', ?_⟩
            intro x hx
            rcases List.mem_cons.1 hx with rfl | hx
            · exact ⟨hsub hd1, hdS⟩
            · exact hall x hx

/-- Specification of `detect_cycle_util`, for every fuel above the number of unvisited
keys: it never runs out of fuel, restores the stack, and finishes `a`. -/
theorem detect_cycle_util_spec (g : Dag) (fuel : Nat) :
    ∀ (a : String) (V S : Finset String), g.DfsInv V S → a ∉ V →
      (∀ s ∈ S, Relation.TransGen g.dep s a) → g.unvisited V < fuel →
      g.DfsPost V S (fun V' => a ∈ V') (a ∈ g.keys → ¬ g.DepsExist)
        (g.detect_cycle_util fuel a V S) := by
  induction fuel with
  | zero => intro a V S _ _ _ h; exact absurd h (Nat.not_lt_zero _)
  | succ fuel ih =>
    intro a V S inv haV hpath hfuel
    have haS : a ∉ S := fun h => haV (inv.sub h)
    unfold detect_cycle_util
    simp only
    cases hget : g.get_task a with
    | error e =>
      obtain ⟨rfl, hk⟩ := get_task_error hget
      simp only [DfsPost]
      exact fun h => absurd h hk
    | ok task =>
      obtain ⟨htask, rfl⟩ := get_task_ok hget
      have hk : task.id ∈ g.keys := mem_keys.2 ⟨task, htask, rfl⟩
      have hdep : ∀ b, g.dep task.id b ↔ b ∈ task.dependencies := by
        intro b
        constructor
        · rintro ⟨u, hu, hid, hb⟩
          rwa [← task_unique hu htask hid]
        · exact fun hb => ⟨task, htask, rfl, hb⟩
      have hloop := @detect_cycle_deps_spec g task.id fuel (g.detect_cycle_util fuel) ih
        task.dependencies (insert task.id V) (insert task.id S) (inv.push haV)
        (fun d hd => (hdep d).2 hd)
        (by
          intro s hs
          rcases Finset.mem_insert.1 hs with rfl | hs
          · exact Relation.ReflTransGen.refl
          · exact (hpath s hs).to_reflTransGen)
        (by have := unvisited_insert hk haV; omega)
      revert hloop
      simp only
      cases detect_cycle_deps (g.detect_cycle_util fuel) task.dependencies
          (insert task.id V) (insert task.id S) with
      | error e =>
        cases e <;> simp only [DfsPost, imp_self]
        exact fun h _ => h
      | ok r =>
        obtain ⟨V', S'⟩ := r
        simp only [DfsPost]
        rintro ⟨rfl, hsub, inv', hall⟩
        refine ⟨Finset.erase_insert haS, (Finset.subset_insert _ _).trans hsub, ?_,
          hsub (Finset.mem_insert_self _ _)⟩
        exact inv'.pop haS (fun b hb => hall b ((hdep b).1 hb))

theorem validate_loop_spec (g : Dag) (ts : List Task) :
    ∀ V : Finset String, (∀ t ∈ ts, t ∈ g.tasks_) → g.DfsInv V ∅ →
      g.ValidatePost ts V (g.validate_loop ts V ∅) := by
  induction ts with
  | nil =>
    intro V _ inv
    simp only [validate_loop, ValidatePost]
    exact ⟨by simp, V, Finset.Subset.refl _, inv, by simp⟩
  | cons t rest ih =>
    intro V hts inv
    have ht : t ∈ g.tasks_ := hts t (List.mem_cons_self _ _)
    have hrest : ∀ u ∈ rest, u ∈ g.tasks_ := fun u hu => hts u (List.mem_cons_of_mem _ hu)
    unfold validate_loop
    cases hfind : t.dependencies.find? (fun dep => !g.contains dep) with
    | some d =>
      simp only [ValidatePost]
      refine ⟨t, ht, rfl, List.mem_of_find?_eq_some hfind, ?_⟩
      have := List.find?_some hfind
      intro hk
      simp [contains_iff.2 hk] at this
    | none =>
      have hdeps : ∀ d ∈ t.dependencies, d ∈ g.keys := by
        intro d hd
        have := List.find?_eq_none.1 hfind d hd
        exact contains_iff.1 (by simpa using this)
      simp only
      have finish : ∀ V1, V ⊆ V1 → t.id ∈ V1 →
          g.ValidatePost rest V1 (g.validate_loop rest V1 ∅) →
          g.ValidatePost (t :: rest) V (g.validate_loop rest V1 ∅) := by
        intro V1 hsub htV1
        cases g.validate_loop rest V1 ∅ with
        | error e => cases e <;> simp [ValidatePost]
        | ok u =>
          simp only [ValidatePost]
          rintro ⟨hde, V', hsub', inv', hall⟩
          refine ⟨?_, V', hsub.trans hsub', inv', ?_⟩
          · intro x hx
            rcases List.mem_cons.1 hx with rfl | hx
            · exact hdeps
            · exact hde x hx
          · intro x hx
            rcases List.mem_cons.1 hx with rfl | hx
            · exact hsub' htV1
            · exact hall x hx
      by_cases htV : t.id ∈ V
      · simp only [htV, if_true]
        exact finish V (Finset.Subset.refl _) htV (ih V hrest inv)
      · simp only [htV, if_false]
        have hcall := g.detect_cycle_util_spec (g.tasks_.length + 1) t.id V ∅ inv htV
          (by simp) (Nat.lt_succ_of_le (unvisited_le V))
        revert hcall
        cases g.detect_cycle_util (g.tasks_.length + 1) t.id V ∅ with
        | error e =>
          cases e <;> simp only [DfsPost, ValidatePost, imp_self, false_imp_iff]
          exact fun h => h (mem_keys.2 ⟨t, ht, rfl⟩)
        | ok r =>
          obtain ⟨V1, S1⟩ := r
          simp only [DfsPost]
          rintro ⟨rfl, hsub, inv1, htV1⟩
          exact finish V1 hsub htV1 (ih V1 hrest inv1)

theorem validate_spec (g : Dag) : g.ValidatePost g.tasks_ ∅ g.validate :=
  g.validate_loop_spec g.tasks_ ∅ (fun _ h => h)
    ⟨Finset.Subset.refl _, by simp, by simp⟩

/-- Characterisation of the graphs that `validate` accepts. -/
theorem validate_ok_iff (g : Dag) : g.validate = .ok () ↔ g.DepsExist ∧ g.Acyclic := by
  have h := g.validate_spec
  constructor
  · intro hok
    rw [hok] at h
    obtain ⟨hde, V', _, inv, hall⟩ := h
    refine ⟨hde, ?_⟩
    intro a hcyc
    obtain ⟨t, ht, rfl⟩ := mem_keys.1 (transGen_key hcyc)
    exact inv.acyc t.id (hall t ht) (by simp) hcyc
  · rintro ⟨hde, hac⟩
    revert h
    cases g.validate with
    | ok u => intro _; rfl
    | error e =>
      cases e <;> simp only [ValidatePost] <;> intro h
      · exact absurd hde h
      · obtain ⟨t, ht, _, hd, hk⟩ := h
        exact absurd (hde t ht _ hd) hk
      · exact absurd h (hac _)
      · exact h.elim
      · exact h.elim

end Dag

/-! ## Dry run: lemmas -/

theorem dependencies_met_iff {c : Finset String} {t : Task} :
    dependencies_met c t = true ↔ ∀ d ∈ t.dependencies, d ∈ c := by
  simp [dependencies_met]

theorem mem_dry_run_scan {all_tasks : List Task} {c : Finset String} {t : Task} :
    t ∈ dry_run_scan all_tasks c ↔
      t ∈ all_tasks ∧ t.id ∉ c ∧ ∀ d ∈ t.dependencies, d ∈ c := by
  simp [dry_run_scan, dependencies_met]

theorem mem_mark_done {ready : List Task} {c : Finset String} {x : String} :
    x ∈ mark_done ready c ↔ x ∈ c ∨ ∃ t ∈ ready, t.id = x := by
  unfold mark_done
  induction ready generalizing c with
  | nil => simp
  | cons t rest ih =>
    rw [List.foldl_cons, ih]
    simp only [Finset.mem_insert, List.mem_cons, exists_eq_or_imp]
    constructor
    · rintro ((rfl | h) | h)
      · exact Or.inr (Or.inl rfl)
      · exact Or.inl h
      · exact Or.inr (Or.inr h)
    · rintro (h | h | h)
      · exact Or.inl (Or.inr h)
      · exact Or.inl (Or.inl h.symm)
      · exact Or.inr h

theorem subset_mark_done (ready : List Task) (c : Finset String) : c ⊆ mark_done ready c :=
  fun _ hx => mem_mark_done.2 (Or.inl hx)

/-- One round of the dry-run loop, with tasks undone and fuel left. -/
theorem dry_run_loop_succ (all_tasks : List Task) (fuel : Nat) (c : Finset String)
    (h : c.card < all_tasks.length) :
    dry_run_loop all_tasks (fuel + 1) c =
      if (dry_run_scan all_tasks c).isEmpty then
        .ok ⟨[], some ((all_tasks.filter (fun task => decide (task.id ∉ c))).map Task.id)⟩
      else
        match dry_run_loop all_tasks fuel (mark_done (dry_run_scan all_tasks c) c) with
        | .error e => .error e
        | .ok r => .ok ⟨dry_run_scan all_tasks c :: r.batches, r.deadlock⟩ := by
  rw [dry_run_loop]
  simp only [h, if_true]

theorem dry_run_loop_done (all_tasks : List Task) (fuel : Nat) (c : Finset String)
    (h : ¬ c.card < all_tasks.length) :
    dry_run_loop all_tasks fuel c = .ok ⟨[], none⟩ := by
  cases fuel <;> simp [dry_run_loop, h]

/-- A non-empty scan strictly enlarges the set of done ids. -/
theorem card_mark_done_lt {all_tasks : List Task} {c : Finset String}
    (h : dry_run_scan all_tasks c ≠ []) :
    c.card < (mark_done (dry_run_scan all_tasks c) c).card := by
  obtain ⟨t, ht⟩ := List.exists_mem_of_ne_nil _ h
  apply Finset.card_lt_card
  rw [Finset.ssubset_iff_of_subset (subset_mark_done _ _)]
  exact ⟨t.id, mem_mark_done.2 (Or.inr ⟨t, ht, rfl⟩), (mem_dry_run_scan.1 ht).2.1⟩

namespace Dag

theorem card_keys (g : Dag) : g.keys.toFinset.card = g.tasks_.length := by
  have := List.toFinset_card_of_nodup g.nodup_ids
  simpa [keys] using this

theorem mark_done_subset_keys {g : Dag} {c : Finset String} (hc : c ⊆ g.keys.toFinset) :
    mark_done (dry_run_scan g.tasks_ c) c ⊆ g.keys.toFinset := by
  intro x hx
  rcases mem_mark_done.1 hx with h | ⟨t, ht, rfl⟩
  · exact hc h
  · exact List.mem_toFinset.2 (mem_keys.2 ⟨t, (mem_dry_run_scan.1 ht).1, rfl⟩)

/-- The dry-run loop returns a report on every graph: `all_tasks.size()` rounds of fuel
are enough from the empty set. -/
theorem dry_run_loop_total (g : Dag) (fuel : Nat) :
    ∀ c : Finset String, c ⊆ g.keys.toFinset → g.tasks_.length ≤ fuel + c.card →
      ∃ r, dry_run_loop g.tasks_ fuel c = .ok r := by
  induction fuel with
  | zero =>
    intro c _ hf
    exact ⟨_, dry_run_loop_done _ _ _ (by omega)⟩
  | succ fuel ih =>
    intro c hc hf
    by_cases hlt : c.card < g.tasks_.length
    · rw [dry_run_loop_succ _ _ _ hlt]
      by_cases hr : dry_run_scan g.tasks_ c = []
      · simp [hr]
      · obtain ⟨r, hr'⟩ := ih _ (mark_done_subset_keys hc)
          (by have := card_mark_done_lt hr; omega)
        simp [hr, hr']
    · exact ⟨_, dry_run_loop_done _ _ _ hlt⟩

theorem execute_all_dry_total (g : Dag) : ∃ r, execute_all_dry g.tasks_ = .ok r := by
  unfold execute_all_dry
  split
  · exact ⟨_, rfl⟩
  · exact g.dry_run_loop_total _ ∅ (by simp) (by simp)

/-- Every task of a round has all its dependencies either done before the loop started
or emitted in an earlier round. -/
theorem dry_run_loop_order (all_tasks : List Task) (fuel : Nat) :
    ∀ (c : Finset String) (r : DryRun), dry_run_loop all_tasks fuel c = .ok r →
      ∀ (k : Nat) (batch : List Task), r.batches[k]? = some batch →
        ∀ t ∈ batch, ∀ d ∈ t.dependencies,
          d ∈ c ∨ ∃ u ∈ (r.batches.take k).flatten, u.id = d := by
  induction fuel with
  | zero =>
    intro c r h k batch hb
    rw [dry_run_loop] at h
    split at h
    · cases h
    · cases h; simp at hb
  | succ fuel ih =>
    intro c r h k batch hb t ht d hd
    by_cases hlt : c.card < all_tasks.length
    · rw [dry_run_loop_succ _ _ _ hlt] at h
      split at h
      · cases h; simp at hb
      · cases hrec : dry_run_loop all_tasks fuel (mark_done (dry_run_scan all_tasks c) c) with
        | error e => rw [hrec] at h; cases h
        | ok r' =>
          rw [hrec] at h
          cases h
          cases k with
          | zero =>
            simp only [List.getElem?_cons_zero, Option.some.injEq] at hb
            subst hb
            exact Or.inl ((mem_dry_run_scan.1 ht).2.2 d hd)
          | succ k =>
            simp only [List.getElem?_cons_succ] at hb
            rcases ih _ r' hrec k batch hb t ht d hd with h | ⟨u, hu, rfl⟩
            · rcases mem_mark_done.1 h with h | ⟨u, hu, rfl⟩
              · exact Or.inl h
              · exact Or.inr ⟨u, by simp [List.take_succ_cons, hu], rfl⟩
            · exact Or.inr ⟨u, by simp [List.take_succ_cons, hu], rfl⟩
    · rw [dry_run_loop_done _ _ _ hlt] at h
      cases h; simp at hb

/-- In a graph whose dependencies all exist and that has no cycle, whenever some task is
not in `c` there is a task not in `c` all of whose dependencies are in `c`. -/
theorem exists_ready {g : Dag} (hde : g.DepsExist) (hac : g.Acyclic) (c : Finset String)
    (h : ∃ t ∈ g.tasks_, t.id ∉ c) :
    ∃ t ∈ g.tasks_, t.id ∉ c ∧ ∀ d ∈ t.dependencies, d ∈ c := by
  let K := {a : String // a ∈ g.keys.toFinset}
  let r : K → K → Prop := fun x y => Relation.TransGen g.dep y.1 x.1
  haveI : IsTrans K r := ⟨fun _ _ _ hab hbc => Relation.TransGen.trans hbc hab⟩
  haveI : IsIrrefl K r := ⟨fun a => hac a.1⟩
  have wf : WellFounded r := Finite.wellFounded_of_trans_of_irrefl r
  obtain ⟨t0, ht0, ht0c⟩ := h
  have hk0 : t0.id ∈ g.keys.toFinset := List.mem_toFinset.2 (mem_keys.2 ⟨t0, ht0, rfl⟩)
  obtain ⟨m, hm, hmin⟩ := wf.has_min {x : K | x.1 ∉ c} ⟨⟨t0.id, hk0⟩, ht0c⟩
  obtain ⟨t, ht, htid⟩ := mem_keys.1 (List.mem_toFinset.1 m.2)
  refine ⟨t, ht, by rw [htid]; exact hm, ?_⟩
  intro d hd
  by_contra hdc
  have hdk : d ∈ g.keys.toFinset := List.mem_toFinset.2 (hde t ht d hd)
  exact hmin ⟨d, hdk⟩ hdc (Relation.TransGen.single ⟨t, ht, htid, hd⟩)

/-- A scan splits the tasks not done into the ready ones and those still not done
afterwards. -/
theorem scan_split (g : Dag) (c : Finset String) :
    (dry_run_scan g.tasks_ c ++
      g.tasks_.filter (fun t => decide (t.id ∉ mark_done (dry_run_scan g.tasks_ c) c))).Perm
      (g.tasks_.filter (fun t => decide (t.id ∉ c))) := by
  have hrest : g.tasks_.filter (fun t => decide (t.id ∉ mark_done (dry_run_scan g.tasks_ c) c))
      = (g.tasks_.filter (fun t => decide (t.id ∉ c))).filter
          (fun t => !dependencies_met c t) := by
    rw [List.filter_filter]
    apply List.filter_congr
    intro u hu
    have hmem : u.id ∈ mark_done (dry_run_scan g.tasks_ c) c ↔
        (u.id ∈ c ∨ ∀ d ∈ u.dependencies, d ∈ c) := by
      rw [mem_mark_done]
      constructor
      · rintro (h | ⟨v, hv, hid⟩)
        · exact Or.inl h
        · have hv' := mem_dry_run_scan.1 hv
          rw [← task_unique hv'.1 hu hid]
          exact Or.inr hv'.2.2
      · rintro (h | h)
        · exact Or.inl h
        · by_cases huc : u.id ∈ c
          · exact Or.inl huc
          · exact Or.inr ⟨u, mem_dry_run_scan.2 ⟨hu, huc, h⟩, rfl⟩
    by_cases h1 : u.id ∈ c <;> by_cases h2 : dependencies_met c u = true
    · simp [hmem, h1, h2]
    · simp [hmem, h1, h2]
    · simp [hmem, h1, h2]
      exact dependencies_met_iff.1 h2
    · have h2' : ¬ ∀ d ∈ u.dependencies, d ∈ c := fun h => h2 (dependencies_met_iff.2 h)
      simp [hmem, h1, h2, h2']
  have hready : dry_run_scan g.tasks_ c =
      (g.tasks_.filter (fun t => decide (t.id ∉ c))).filter (fun t => dependencies_met c t) := by
    rw [List.filter_filter]
    unfold dry_run_scan
    apply List.filter_congr
    intro u _
    exact Bool.and_comm _ _
  rw [hrest, hready]
  exact List.filter_append_perm _ _

/-- On a graph whose dependencies all exist and that has no cycle, the dry-run loop
started with `c` done emits exactly the tasks not in `c` and reports no deadlock. -/
theorem dry_run_loop_valid {g : Dag} (hde : g.DepsExist) (hac : g.Acyclic) (fuel : Nat) :
    ∀ c : Finset String, c ⊆ g.keys.toFinset → g.tasks_.length ≤ fuel + c.card →
      ∃ r, dry_run_loop g.tasks_ fuel c = .ok r ∧ r.deadlock = none ∧
        r.batches.flatten.Perm (g.tasks_.filter (fun t => decide (t.id ∉ c))) ∧
        ∀ b ∈ r.batches, b ≠ [] := by
  induction fuel with
  | zero =>
    intro c hc hf
    refine ⟨_, dry_run_loop_done _ _ _ (by omega), rfl, ?_, by simp⟩
    have hceq : c = g.keys.toFinset :=
      Finset.eq_of_subset_of_card_le hc (by rw [g.card_keys]; omega)
    have : g.tasks_.filter (fun t => decide (t.id ∉ c)) = [] := by
      rw [List.filter_eq_nil_iff]
      intro t ht
      simp [hceq, mem_keys.2 ⟨t, ht, rfl⟩]
    rw [this]
    exact List.Perm.refl _
  | succ fuel ih =>
    intro c hc hf
    by_cases hlt : c.card < g.tasks_.length
    · have hex : ∃ t ∈ g.tasks_, t.id ∉ c := by
        by_contra hno
        push_neg at hno
        have : g.keys.toFinset ⊆ c := by
          intro x hx
          obtain ⟨t, ht, rfl⟩ := mem_keys.1 (List.mem_toFinset.1 hx)
          exact hno t ht
        have := Finset.card_le_card this
        rw [g.card_keys] at this
        omega
      obtain ⟨t, ht, htc, htd⟩ := exists_ready hde hac c hex
      have hr : dry_run_scan g.tasks_ c ≠ [] :=
        List.ne_nil_of_mem (mem_dry_run_scan.2 ⟨ht, htc, htd⟩)
      obtain ⟨r, hr', hdl, hperm, hne⟩ := ih _ (mark_done_subset_keys hc)
        (by have := card_mark_done_lt hr; omega)
      rw [dry_run_loop_succ _ _ _ hlt]
      refine ⟨⟨dry_run_scan g.tasks_ c :: r.batches, r.deadlock⟩, by simp [hr, hr'], hdl, ?_, ?_⟩
      · simp only [List.flatten_cons]
        exact (List.Perm.append_left _ hperm).trans (g.scan_split c)
      · intro b hb
        rcases List.mem_cons.1 hb with rfl | hb
        · exact hr
        · exact hne b hb
    · refine ⟨_, dry_run_loop_done _ _ _ hlt, rfl, ?_, by simp⟩
      have hceq : c = g.keys.toFinset :=
        Finset.eq_of_subset_of_card_le hc (by rw [g.card_keys]; omega)
      have : g.tasks_.filter (fun t => decide (t.id ∉ c)) = [] := by
        rw [List.filter_eq_nil_iff]
        intro t ht
        simp [hceq, mem_keys.2 ⟨t, ht, rfl⟩]
      rw [this]
      exact List.Perm.refl _

end Dag

theorem exec_scan_eq (c : Finset String) (l : List Task) :
    ∀ (R : Finset String) (ready : List Task), (l.map Task.id).Nodup →
      exec_scan c l R ready =
        (ready ++ l.filter (selectable c R), mark_done (l.filter (selectable c R)) R) := by
  induction l with
  | nil => intro R ready _; simp [exec_scan, mark_done]
  | cons t rest ih =>
    intro R ready hnd
    rw [List.map_cons, List.nodup_cons] at hnd
    obtain ⟨htn, hnd⟩ := hnd
    unfold exec_scan
    by_cases h1 : t.id ∈ c ∨ t.id ∈ R
    · have hsel : selectable c R t = false := by
        rcases h1 with h | h <;> simp [selectable, h]
      simp only [h1, if_true, List.filter_cons, hsel]
      exact ih R ready hnd
    · simp only [h1, if_false]
      push_neg at h1
      by_cases h2 : dependencies_met c t = true
      · have hsel : selectable c R t = true := by simp [selectable, h1.1, h1.2, h2]
        have hcongr : rest.filter (selectable c (insert t.id R)) = rest.filter (selectable c R) := by
          apply List.filter_congr
          intro u hu
          have hne : u.id ≠ t.id := fun h => htn (h ▸ List.mem_map_of_mem Task.id hu)
          simp [selectable, hne]
        simp only [h2, if_true, List.filter_cons, hsel]
        rw [ih (insert t.id R) (ready ++ [t]) hnd, hcongr]
        simp [mark_done]
      · have hsel : selectable c R t = false := by simp [selectable, h2]
        simp only [h2, List.filter_cons, hsel]
        exact ih R ready hnd

/-- With nothing running, the scan of execute mode selects what the dry-run scan does. -/
theorem selectable_empty (c : Finset String) (l : List Task) :
    l.filter (selectable c ∅) = dry_run_scan l c := by
  unfold dry_run_scan
  apply List.filter_congr
  intro t _
  simp [selectable]

namespace Dag

theorem nodup_tasks (g : Dag) : g.tasks_.Nodup := List.Nodup.of_map _ g.nodup_ids

theorem ExecInv.init (g : Dag) : g.ExecInv (exec_init g.tasks_) := by
  constructor <;> simp only [exec_init, live]
  · simp
  · simp
  · intro t ht
    split at ht <;> simp [Pc.pending] at ht
  · split <;> simp [Pc.pending]
  · intro x
    split <;> simp [Pc.pending]
  · simp
  · split <;> simp
  · simp
  · split <;> simp
  · split <;> simp_all
  · split <;> simp

theorem ExecInv.running_sub {g : Dag} {s : ExecState} (inv : g.ExecInv s) :
    s.running ⊆ g.keys.toFinset := by
  intro x hx
  obtain ⟨t, ht, rfl⟩ := (inv.running_eq x).1 hx
  exact List.mem_toFinset.2 (mem_keys.2 ⟨t, inv.live_mem t ht, rfl⟩)

/-- Once `completed` has `total_tasks` elements it holds every key, and nothing is
running or live. -/
theorem ExecInv.all_done {g : Dag} {s : ExecState} (inv : g.ExecInv s)
    (h : g.tasks_.length ≤ s.completed.card) :
    s.completed = g.keys.toFinset ∧ s.running = ∅ ∧ live s = [] := by
  have hc : s.completed = g.keys.toFinset :=
    Finset.eq_of_subset_of_card_le inv.completed_sub (by rw [g.card_keys]; exact h)
  have hr : s.running = ∅ := by
    apply Finset.eq_empty_of_forall_not_mem
    intro x hx
    exact inv.disjoint x hx (hc ▸ inv.running_sub hx)
  refine ⟨hc, hr, ?_⟩
  apply List.eq_nil_iff_forall_not_mem.2
  intro t ht
  have := (inv.running_eq t.id).2 ⟨t, ht, rfl⟩
  simp [hr] at this

theorem ExecInv.running_empty {g : Dag} {s : ExecState} (inv : g.ExecInv s)
    (h : s.running = ∅) : live s = [] := by
  apply List.eq_nil_iff_forall_not_mem.2
  intro t ht
  have := (inv.running_eq t.id).2 ⟨t, ht, rfl⟩
  simp [h] at this

/-- The control loop keeps the invariant. -/
theorem ExecInv.control {g : Dag} {s s' : ExecState} (inv : g.ExecInv s)
    (h : control_step g.tasks_ s = some s') : g.ExecInv s' := by
  obtain ⟨c, R, e, pc, th, disp, invk⟩ := s
  cases pc with
  | loop_test =>
    simp only [control_step] at h
    split at h
    · rename_i hc
      cases h
      have := inv.at_test rfl
      exact { inv with
        at_scan := fun _ => ⟨by simpa [hc.2] using this, hc.2, hc.1⟩
        at_test := by simp
        at_exit := by simp
        at_returned := by simp
        at_thrown := by simp }
    · rename_i hc
      cases h
      exact { inv with
        at_scan := by simp
        at_test := by simp
        at_exit := fun _ => by
          by_cases he : e = true
          · exact Or.inl he
          · right
            simp only [Bool.not_eq_true] at he
            simp only [he, and_true, not_lt] at hc
            exact hc
        at_returned := by simp
        at_thrown := by simp }
  | scan =>
    obtain ⟨hth, he, hlt⟩ := inv.at_scan rfl
    simp only at hth he hlt
    subst hth he
    have hR : R = ∅ := by
      apply Finset.eq_empty_of_forall_not_mem
      intro x hx
      obtain ⟨t, ht, _⟩ := (inv.running_eq x).1 hx
      simp [live, Pc.pending] at ht
    subst hR
    simp only [control_step, exec_scan_eq c g.tasks_ ∅ [] g.nodup_ids, List.nil_append] at h
    have hsub : (g.tasks_.filter (selectable c ∅)).Sublist g.tasks_ := List.filter_sublist _
    have hmem : ∀ t, t ∈ g.tasks_.filter (selectable c ∅) ↔
        t ∈ g.tasks_ ∧ t.id ∉ c ∧ ∀ d ∈ t.dependencies, d ∈ c := by
      intro t
      rw [selectable_empty, mem_dry_run_scan]
    split at h
    · rename_i hdead
      cases h
      have hnil : g.tasks_.filter (selectable c ∅) = [] := by simpa using hdead.1
      constructor <;> simp only [live, Pc.pending, hnil, mark_done, List.foldl_nil]
      · exact inv.completed_sub
      · simp
      · simp
      · simp
      · simp
      · intro t ht h
        exact inv.deps_closed t ht (by simpa using h)
      · simp
      · simp
      · simp
      · simp
      · simp
    · cases h
      constructor <;> simp only [live, Pc.pending, List.nil_append]
      · exact inv.completed_sub
      · intro x hx
        rcases mem_mark_done.1 hx with h | ⟨t, ht, rfl⟩
        · simp at h
        · exact ((hmem t).1 ht).2.1
      · exact fun t ht => ((hmem t).1 ht).1
      · exact hsub.nodup g.nodup_tasks
      · intro x
        rw [mem_mark_done]
        simp
      · intro t ht h d hd
        rcases h with h | h
        · exact inv.deps_closed t ht (Or.inl h) d hd
        · rcases mem_mark_done.1 h with h | ⟨u, hu, hid⟩
          · simp at h
          · have hu' := (hmem u).1 hu
            have htu : u = t := task_unique hu'.1 ht hid
            subst htu
            exact hu'.2.2 d hd
      · simp
      · simp
      · simp
      · simp
      · simp
  | spawn ready =>
    cases ready with
    | nil =>
      simp only [control_step] at h
      cases h
      exact { inv with
        live_mem := by simpa [live, Pc.pending] using inv.live_mem
        live_nodup := by simpa [live, Pc.pending] using inv.live_nodup
        running_eq := by simpa [live, Pc.pending] using inv.running_eq
        at_scan := by simp
        at_test := by simp
        at_exit := by simp
        at_returned := by simp
        at_thrown := by simp }
    | cons t rest =>
      simp only [control_step] at h
      cases h
      exact { inv with
        live_mem := by simpa [live, Pc.pending] using inv.live_mem
        live_nodup := by simpa [live, Pc.pending] using inv.live_nodup
        running_eq := by simpa [live, Pc.pending] using inv.running_eq
        at_scan := by simp
        at_test := by simp
        at_exit := by simp
        at_returned := by simp
        at_thrown := by simp }
  | wait =>
    simp only [control_step] at h
    split at h
    · rename_i hp
      cases h
      exact { inv with
        live_mem := by simpa [live, Pc.pending] using inv.live_mem
        live_nodup := by simpa [live, Pc.pending] using inv.live_nodup
        running_eq := by simpa [live, Pc.pending] using inv.running_eq
        at_scan := by simp
        at_test := fun _ => by
          simp only [wait_pred, Bool.or_eq_true, Bool.and_eq_true, decide_eq_true_eq] at hp
          rcases hp with (he | ⟨hr, _⟩) | hc
          · exact Or.inl he
          · right
            have := inv.running_empty hr
            simpa [live, Pc.pending] using this
          · right
            have := (inv.all_done (le_of_eq hc.symm)).2.2
            simpa [live, Pc.pending] using this
        at_exit := by simp
        at_returned := by simp
        at_thrown := by simp }
    · cases h
  | loop_exit =>
    simp only [control_step] at h
    cases h
    have hx := inv.at_exit rfl
    simp only at hx
    cases e with
    | true =>
      exact { inv with
        live_mem := by simpa [live, Pc.pending] using inv.live_mem
        live_nodup := by simpa [live, Pc.pending] using inv.live_nodup
        running_eq := by simpa [live, Pc.pending] using inv.running_eq
        at_scan := by simp
        at_test := by simp
        at_exit := by simp
        at_returned := by simp
        at_thrown := by simp }
    | false =>
      exact { inv with
        live_mem := by simpa [live, Pc.pending] using inv.live_mem
        live_nodup := by simpa [live, Pc.pending] using inv.live_nodup
        running_eq := by simpa [live, Pc.pending] using inv.running_eq
        at_scan := by simp
        at_test := by simp
        at_exit := by simp
        at_returned := fun _ => ⟨rfl, by simpa using hx⟩
        at_thrown := by simp }
  | returned => simp [control_step] at h
  | thrown => simp [control_step] at h

/-- A thread that takes its step does so before `execute_all` has ended, and the step
is the update of its critical section. -/
theorem thread_step_some {system : Task → Int} {t : Task} {s s' : ExecState}
    (h : thread_step system t s = some s') :
    s.pc ≠ .returned ∧ s.pc ≠ .thrown ∧
    (if t ∈ s.threads then
      if system t = 0 then
        some { s with threads := s.threads.erase t, running := s.running.erase t.id,
                      completed := insert t.id s.completed }
      else
        some { s with threads := s.threads.erase t, running := s.running.erase t.id,
                      has_error := true }
    else none) = some s' := by
  unfold thread_step at h
  split at h
  · cases h
  · rename_i hpc
    exact ⟨fun h1 => hpc (Or.inl h1), fun h2 => hpc (Or.inr h2), h⟩

/-- While `execute_all` has not ended, the thread of every launched task can take its
step: it leaves `running`, and it sets `has_error` when its command failed and enters
`completed` when it succeeded. -/
theorem thread_step_live {system : Task → Int} {t : Task} {s : ExecState}
    (h1 : s.pc ≠ .returned) (h2 : s.pc ≠ .thrown) (hth : t ∈ s.threads) :
    ∃ s', thread_step system t s = some s' ∧ s'.pc = s.pc ∧
      s'.running = s.running.erase t.id ∧ s'.threads = s.threads.erase t ∧
      (system t ≠ 0 → s'.has_error = true ∧ s'.completed = s.completed) ∧
      (system t = 0 → s'.has_error = s.has_error ∧ s'.completed = insert t.id s.completed) := by
  have hpc : ¬ (s.pc = .returned ∨ s.pc = .thrown) := fun h => h.elim h1 h2
  unfold thread_step
  rw [if_neg hpc, if_pos hth]
  by_cases h0 : system t = 0
  · rw [if_pos h0]
    exact ⟨_, rfl, rfl, rfl, rfl, fun h => absurd h0 h, fun _ => ⟨rfl, rfl⟩⟩
  · rw [if_neg h0]
    exact ⟨_, rfl, rfl, rfl, rfl, fun _ => ⟨rfl, rfl⟩, fun h => absurd h h0⟩

/-- The critical section of a thread keeps the invariant. -/
theorem ExecInv.thread {g : Dag} {system : Task → Int} {t : Task} {s s' : ExecState}
    (inv : g.ExecInv s) (h : thread_step system t s = some s') : g.ExecInv s' := by
  obtain ⟨c, R, e, pc, th, disp, invk⟩ := s
  replace h := (thread_step_some h).2.2
  simp only at h
  by_cases hth : t ∈ th
  swap
  · simp [hth] at h
  simp only [hth, if_true] at h
  have hlive : live ⟨c, R, e, pc, th, disp, invk⟩ = th ++ pc.pending := rfl
  have htl : t ∈ th ++ pc.pending := List.mem_append_left _ hth
  have htg : t ∈ g.tasks_ := inv.live_mem t htl
  have hnd : (th ++ pc.pending).Nodup := inv.live_nodup
  have herase : th.erase t ++ pc.pending = (th ++ pc.pending).erase t :=
    (List.erase_append_left _ hth).symm
  have hmem' : ∀ u, u ∈ th.erase t ++ pc.pending ↔ u ≠ t ∧ u ∈ th ++ pc.pending := by
    intro u
    rw [herase, hnd.mem_erase_iff]
  have hrun : ∀ x, x ∈ R.erase t.id ↔ ∃ u ∈ th.erase t ++ pc.pending, u.id = x := by
    intro x
    rw [Finset.mem_erase]
    constructor
    · rintro ⟨hne, hx⟩
      obtain ⟨u, hu, rfl⟩ := (inv.running_eq x).1 hx
      exact ⟨u, (hmem' u).2 ⟨fun h => hne (h ▸ rfl), hu⟩, rfl⟩
    · rintro ⟨u, hu, rfl⟩
      obtain ⟨hne, hu⟩ := (hmem' u).1 hu
      exact ⟨fun h => hne (task_unique (inv.live_mem u hu) htg h),
        (inv.running_eq u.id).2 ⟨u, hu, rfl⟩⟩
  have htR : t.id ∈ R := (inv.running_eq t.id).2 ⟨t, htl, rfl⟩
  have hpc_scan : pc ≠ .scan := by
    intro hpc
    have := (inv.at_scan hpc).1
    simp only at this
    simp [this] at hth
  have hnotdone : ¬ g.tasks_.length ≤ c.card := by
    intro hle
    have := (inv.all_done hle).2.2
    rw [hlive] at this
    simp [this] at htl
  have herr : pc = .loop_test ∨ pc = .loop_exit → e = true := by
    rintro (hpc | hpc)
    · rcases inv.at_test hpc with he | he
      · exact he
      · simp only at he
        simp [he] at hth
    · rcases inv.at_exit hpc with he | he
      · exact he
      · exact absurd he hnotdone
  have hret : pc ≠ .returned := fun hpc => hnotdone (inv.at_returned hpc).2
  split at h
  · cases h
    constructor <;> simp only [live]
    · intro x hx
      rcases Finset.mem_insert.1 hx with rfl | hx
      · exact List.mem_toFinset.2 (mem_keys.2 ⟨t, htg, rfl⟩)
      · exact inv.completed_sub hx
    · intro x hx
      rw [Finset.mem_erase] at hx
      simp only [Finset.mem_insert, not_or]
      exact ⟨hx.1, inv.disjoint x hx.2⟩
    · exact fun u hu => inv.live_mem u ((hmem' u).1 hu).2
    · rw [herase]; exact hnd.erase t
    · exact hrun
    · intro u hu h d hd
      apply Finset.mem_insert_of_mem
      rcases h with h | h
      · rcases Finset.mem_insert.1 h with h | h
        · exact inv.deps_closed u hu (Or.inr (h ▸ htR)) d hd
        · exact inv.deps_closed u hu (Or.inl h) d hd
      · exact inv.deps_closed u hu (Or.inr (Finset.mem_of_mem_erase h)) d hd
    · exact fun hpc => absurd hpc hpc_scan
    · exact fun hpc => Or.inl (herr (Or.inl hpc))
    · exact fun hpc => Or.inl (herr (Or.inr hpc))
    · exact fun hpc => absurd hpc hret
    · exact inv.at_thrown
  · cases h
    constructor <;> simp only [live]
    · exact inv.completed_sub
    · intro x hx
      exact inv.disjoint x (Finset.mem_of_mem_erase hx)
    · exact fun u hu => inv.live_mem u ((hmem' u).1 hu).2
    · rw [herase]; exact hnd.erase t
    · exact hrun
    · intro u hu h d hd
      rcases h with h | h
      · exact inv.deps_closed u hu (Or.inl h) d hd
      · exact inv.deps_closed u hu (Or.inr (Finset.mem_of_mem_erase h)) d hd
    · exact fun hpc => absurd hpc hpc_scan
    · simp
    · simp
    · exact fun hpc => absurd hpc hret
    · simp

theorem ExecInv.step {g : Dag} {system : Task → Int} {a : Action} {s s' : ExecState}
    (inv : g.ExecInv s) (h : step g.tasks_ system a s = some s') : g.ExecInv s' := by
  cases a with
  | control => exact inv.control h
  | finish t => exact inv.thread h

theorem ExecInv.run_from {g : Dag} {system : Task → Int} (schedule : List Action) :
    ∀ {s s' : ExecState}, g.ExecInv s → run_from g.tasks_ system schedule s = some s' →
      g.ExecInv s' := by
  induction schedule with
  | nil => intro s s' inv h; cases h; exact inv
  | cons a rest ih =>
    intro s s' inv h
    unfold dagra.run_from at h
    cases hs : dagra.step g.tasks_ system a s with
    | none => rw [hs] at h; cases h
    | some s1 =>
      rw [hs] at h
      exact ih (inv.step hs) h

/-- Every state execute mode can reach satisfies the invariant. -/
theorem execInv_of_run {g : Dag} {system : Task → Int} {schedule : List Action}
    {s : ExecState} (h : execute_all_run g.tasks_ system schedule = some s) : g.ExecInv s :=
  ExecInv.run_from schedule (ExecInv.init g) h

theorem exists_undone {g : Dag} {c : Finset String} (hc : c.card < g.tasks_.length) :
    ∃ t ∈ g.tasks_, t.id ∉ c := by
  by_contra hno
  push_neg at hno
  have : g.keys.toFinset ⊆ c := by
    intro x hx
    obtain ⟨t, ht, rfl⟩ := mem_keys.1 (List.mem_toFinset.1 hx)
    exact hno t ht
  have := Finset.card_le_card this
  rw [g.card_keys] at this
  omega

/-- On a valid graph with succeeding commands every step keeps `has_error` false and
lowers the potential. -/
theorem potential_step {g : Dag} (hde : g.DepsExist) (hac : g.Acyclic)
    {system : Task → Int} (h0 : ∀ t ∈ g.tasks_, system t = 0)
    {a : Action} {s s' : ExecState} (inv : g.ExecInv s) (he : s.has_error = false)
    (h : step g.tasks_ system a s = some s') :
    s'.has_error = false ∧ potential g.tasks_ s' < potential g.tasks_ s := by
  obtain ⟨c, R, e, pc, th, disp, invk⟩ := s
  simp only at he
  subst he
  cases a with
  | control =>
    simp only [step] at h
    cases pc with
    | loop_test =>
      simp only [control_step] at h
      split at h <;> cases h <;> simp [potential, pc_weight, Pc.pending]
    | scan =>
      obtain ⟨hth, _, hlt⟩ := inv.at_scan rfl
      simp only at hth hlt
      subst hth
      have hR : R = ∅ := by
        apply Finset.eq_empty_of_forall_not_mem
        intro x hx
        obtain ⟨t, ht, _⟩ := (inv.running_eq x).1 hx
        simp [live, Pc.pending] at ht
      subst hR
      simp only [control_step, exec_scan_eq c g.tasks_ ∅ [] g.nodup_ids, List.nil_append,
        selectable_empty] at h
      obtain ⟨t, ht, htc, htd⟩ := exists_ready hde hac c (exists_undone hlt)
      have hr : dry_run_scan g.tasks_ c ≠ [] :=
        List.ne_nil_of_mem (mem_dry_run_scan.2 ⟨ht, htc, htd⟩)
      have hlen : 0 < (dry_run_scan g.tasks_ c).length := List.length_pos.2 hr
      have hsplit := (g.scan_split c).length_eq
      rw [List.length_append] at hsplit
      have hcongr : g.tasks_.filter (fun t => decide (t.id ∉ c) &&
            decide (t.id ∉ mark_done (dry_run_scan g.tasks_ c) ∅)) =
          g.tasks_.filter (fun t => decide (t.id ∉ mark_done (dry_run_scan g.tasks_ c) c)) := by
        apply List.filter_congr
        intro u _
        simp only [mem_mark_done, Finset.not_mem_empty, false_or, not_or, Bool.decide_and,
          decide_not]
      split at h
      · rename_i hdead
        exact absurd (by simpa using hdead.1) hr
      · cases h
        refine ⟨rfl, ?_⟩
        simp only [potential, pc_weight, Pc.pending, hcongr, Finset.not_mem_empty,
          not_false_eq_true, decide_True, Bool.and_true, List.length_nil]
        omega
    | spawn ready =>
      cases ready with
      | nil =>
        simp only [control_step] at h
        cases h
        simp [potential, pc_weight, Pc.pending]
      | cons t rest =>
        simp only [control_step] at h
        cases h
        refine ⟨rfl, ?_⟩
        simp only [potential, pc_weight, Pc.pending, List.length_cons, List.length_append,
          List.length_nil]
        omega
    | wait =>
      simp only [control_step] at h
      split at h
      · cases h
        simp [potential, pc_weight, Pc.pending]
      · cases h
    | loop_exit =>
      simp only [control_step] at h
      cases h
      simp [potential, pc_weight, Pc.pending]
    | returned => simp [control_step] at h
    | thrown => simp [control_step] at h
  | finish t =>
    simp only [step] at h
    replace h := (thread_step_some h).2.2
    simp only at h
    by_cases hth : t ∈ th
    swap
    · simp [hth] at h
    have htg : t ∈ g.tasks_ := inv.live_mem t (List.mem_append_left _ hth)
    have htR : t.id ∈ R := (inv.running_eq t.id).2 ⟨t, List.mem_append_left _ hth, rfl⟩
    simp only [hth, if_true, h0 t htg] at h
    cases h
    refine ⟨rfl, ?_⟩
    have hcongr : g.tasks_.filter (fun u => decide (u.id ∉ insert t.id c) &&
          decide (u.id ∉ R.erase t.id)) =
        g.tasks_.filter (fun u => decide (u.id ∉ c) && decide (u.id ∉ R)) := by
      apply List.filter_congr
      intro u _
      by_cases hut : u.id = t.id
      · simp [hut, htR]
      · simp [hut]
    have hpos : 0 < th.length := List.length_pos_of_mem hth
    simp only [potential, hcongr, List.length_erase_of_mem hth]
    omega

theorem potential_run {g : Dag} (hde : g.DepsExist) (hac : g.Acyclic)
    {system : Task → Int} (h0 : ∀ t ∈ g.tasks_, system t = 0) (schedule : List Action) :
    ∀ {s s' : ExecState}, g.ExecInv s → s.has_error = false →
      run_from g.tasks_ system schedule s = some s' →
      s'.has_error = false ∧ schedule.length + potential g.tasks_ s' ≤ potential g.tasks_ s := by
  induction schedule with
  | nil => intro s s' _ he h; cases h; exact ⟨he, by simp⟩
  | cons a rest ih =>
    intro s s' inv he h
    unfold run_from at h
    cases hs : step g.tasks_ system a s with
    | none => rw [hs] at h; cases h
    | some s1 =>
      rw [hs] at h
      obtain ⟨he1, hlt⟩ := potential_step hde hac h0 inv he hs
      obtain ⟨he', hle⟩ := ih (inv.step hs) he1 h
      refine ⟨he', ?_⟩
      simp only [List.length_cons]
      omega

theorem potential_init_le (all_tasks : List Task) :
    potential all_tasks (exec_init all_tasks) ≤ 6 * all_tasks.length + 3 := by
  have h1 : (all_tasks.filter (fun t => decide (t.id ∉ (exec_init all_tasks).completed) &&
      decide (t.id ∉ (exec_init all_tasks).running))).length ≤ all_tasks.length :=
    List.length_filter_le _ _
  have h2 : (exec_init all_tasks).pc.pending = [] := by
    simp only [exec_init]; split <;> rfl
  have h3 : pc_weight (exec_init all_tasks).pc ≤ 3 := by
    simp only [exec_init]; split <;> simp [pc_weight]
  have h4 : (exec_init all_tasks).threads = [] := rfl
  simp only [potential, h2, h4, List.length_nil]
  omega

/-- In a state that satisfies the invariant and is not final, some move is possible:
the control loop is only ever blocked while a thread is live. -/
theorem ExecInv.not_stuck {g : Dag} (system : Task → Int) {s : ExecState} (inv : g.ExecInv s)
    (hr : s.pc ≠ .returned) (ht : s.pc ≠ .thrown) :
    ∃ a s', dagra.step g.tasks_ system a s = some s' := by
  obtain ⟨c, R, e, pc, th, disp, invk⟩ := s
  cases pc with
  | loop_test =>
    refine ⟨.control, ?_⟩
    simp only [dagra.step, control_step]
    split <;> exact ⟨_, rfl⟩
  | scan =>
    refine ⟨.control, ?_⟩
    simp only [dagra.step, control_step]
    split <;> exact ⟨_, rfl⟩
  | spawn ready =>
    cases ready with
    | nil => exact ⟨.control, _, rfl⟩
    | cons t rest => exact ⟨.control, _, rfl⟩
  | wait =>
    by_cases hp : wait_pred g.tasks_.length ⟨c, R, e, .wait, th, disp, invk⟩ = true
    · refine ⟨.control, ⟨c, R, e, .loop_test, th, disp, invk⟩, ?_⟩
      simp only [dagra.step, control_step, hp, if_true]
    · simp only [wait_pred, Bool.or_eq_true, Bool.and_eq_true, decide_eq_true_eq, not_or,
        not_and, not_lt] at hp
      obtain ⟨⟨_, hR⟩, hc⟩ := hp
      have hcard : c.card ≤ g.tasks_.length := by
        have := Finset.card_le_card inv.completed_sub
        rwa [g.card_keys] at this
      have hRne : R ≠ ∅ := fun h => hc (le_antisymm hcard (hR h))
      obtain ⟨x, hx⟩ := Finset.nonempty_iff_ne_empty.2 hRne
      obtain ⟨t, htl, _⟩ := (inv.running_eq x).1 hx
      have hth : t ∈ th := by simpa [live, Pc.pending] using htl
      refine ⟨.finish t, ?_⟩
      obtain ⟨s', hs', _⟩ :=
        @thread_step_live system t ⟨c, R, e, .wait, th, disp, invk⟩ (by simp) (by simp) hth
      exact ⟨s', hs'⟩
  | loop_exit => exact ⟨.control, _, rfl⟩
  | returned => exact absurd rfl hr
  | thrown => exact absurd rfl ht

/-- A rank that strictly drops along every dependency edge rules out cycles. -/
theorem acyclic_of_rank {g : Dag} (rank : String → Nat)
    (h : ∀ t ∈ g.tasks_, ∀ d ∈ t.dependencies, rank d < rank t.id) : g.Acyclic := by
  have hlt : ∀ a b, Relation.TransGen g.dep a b → rank b < rank a := by
    intro a b hab
    induction hab with
    | single hd =>
      obtain ⟨t, ht, rfl, hb⟩ := hd
      exact h t ht _ hb
    | tail _ hd ih =>
      obtain ⟨t, ht, rfl, hb⟩ := hd
      exact lt_trans (h t ht _ hb) ih
  exact fun a hcyc => lt_irrefl _ (hlt a a hcyc)

/-- Only the scan adds ids to `running`, and only ids of tasks that passed its test. -/
theorem running_new {g : Dag} {system : Task → Int} {a : Action} {s s' : ExecState}
    (h : step g.tasks_ system a s = some s') {t : Task} (ht : t ∈ g.tasks_)
    (hnew : t.id ∈ s'.running) (hold : t.id ∉ s.running) :
    a = .control ∧ s.pc = .scan ∧ t.id ∉ s.completed ∧ ∀ d ∈ t.dependencies, d ∈ s.completed := by
  obtain ⟨c, R, e, pc, th, disp, invk⟩ := s
  simp only at hold
  cases a with
  | control =>
    simp only [step] at h
    cases pc with
    | loop_test =>
      simp only [control_step] at h
      split at h <;> cases h <;> exact absurd hnew hold
    | scan =>
      simp only [control_step, exec_scan_eq c g.tasks_ R [] g.nodup_ids, List.nil_append] at h
      have hrun : s'.running = mark_done (g.tasks_.filter (selectable c R)) R := by
        split at h <;> cases h <;> rfl
      rw [hrun] at hnew
      rcases mem_mark_done.1 hnew with h1 | ⟨u, hu, hid⟩
      · exact absurd h1 hold
      · obtain ⟨hug, hsel⟩ := List.mem_filter.1 hu
        have hut : u = t := task_unique hug ht hid
        subst hut
        simp only [selectable, Bool.and_eq_true, decide_eq_true_eq] at hsel
        exact ⟨rfl, rfl, hsel.1.1, dependencies_met_iff.1 hsel.2⟩
    | spawn ready =>
      cases ready with
      | nil => simp only [control_step] at h; cases h; exact absurd hnew hold
      | cons v rest => simp only [control_step] at h; cases h; exact absurd hnew hold
    | wait =>
      simp only [control_step] at h
      split at h
      · cases h; exact absurd hnew hold
      · cases h
    | loop_exit => simp only [control_step] at h; cases h; exact absurd hnew hold
    | returned => simp [control_step] at h
    | thrown => simp [control_step] at h
  | finish v =>
    simp only [step] at h
    replace h := (thread_step_some h).2.2
    simp only at h
    split at h
    · split at h <;> cases h <;> exact absurd (Finset.mem_of_mem_erase hnew) hold
    · cases h

/-- Once `has_error` is set it stays set, and no step adds to `running`. -/
theorem error_sticky {g : Dag} {system : Task → Int} {a : Action} {s s' : ExecState}
    (inv : g.ExecInv s) (he : s.has_error = true)
    (h : step g.tasks_ system a s = some s') :
    s'.has_error = true ∧ s'.running ⊆ s.running := by
  have hscan : s.pc ≠ .scan := by
    intro hpc
    have := (inv.at_scan hpc).2.1
    rw [he] at this
    cases this
  obtain ⟨c, R, e, pc, th, disp, invk⟩ := s
  simp only at he hscan
  subst he
  cases a with
  | control =>
    simp only [step] at h
    cases pc with
    | loop_test =>
      simp only [control_step] at h
      split at h <;> cases h <;> exact ⟨rfl, Finset.Subset.refl _⟩
    | scan => exact absurd rfl hscan
    | spawn ready =>
      cases ready with
      | nil => simp only [control_step] at h; cases h; exact ⟨rfl, Finset.Subset.refl _⟩
      | cons v rest => simp only [control_step] at h; cases h; exact ⟨rfl, Finset.Subset.refl _⟩
    | wait =>
      simp only [control_step] at h
      split at h
      · cases h; exact ⟨rfl, Finset.Subset.refl _⟩
      · cases h
    | loop_exit => simp only [control_step] at h; cases h; exact ⟨rfl, Finset.Subset.refl _⟩
    | returned => simp [control_step] at h
    | thrown => simp [control_step] at h
  | finish v =>
    simp only [step] at h
    replace h := (thread_step_some h).2.2
    simp only at h
    split at h
    · split at h <;> cases h <;> exact ⟨rfl, Finset.erase_subset _ _⟩
    · cases h

/-- With `has_error` set the control loop is never blocked: on its own it reaches the
`throw` within `pending + 4` of its steps. -/
theorem control_to_thrown (all_tasks : List Task) (system : Task → Int) :
    ∀ s : ExecState, s.has_error = true → s.pc ≠ .scan → s.pc ≠ .returned →
      ∃ n, n ≤ s.pc.pending.length + 4 ∧ ∃ s',
        run_from all_tasks system (List.replicate n .control) s = some s' ∧ s'.pc = .thrown := by
  have hexit : ∀ c R th disp invk,
      run_from all_tasks system (List.replicate 1 .control)
        ⟨c, R, true, .loop_exit, th, disp, invk⟩ = some ⟨c, R, true, .thrown, th, disp, invk⟩ := by
    intro c R th disp invk
    simp [List.replicate, run_from, step, control_step]
  have htest : ∀ c R th disp invk,
      run_from all_tasks system (List.replicate 2 .control)
        ⟨c, R, true, .loop_test, th, disp, invk⟩ = some ⟨c, R, true, .thrown, th, disp, invk⟩ := by
    intro c R th disp invk
    simp [List.replicate, run_from, step, control_step]
  have hwait : ∀ c R th disp invk,
      run_from all_tasks system (List.replicate 3 .control)
        ⟨c, R, true, .wait, th, disp, invk⟩ = some ⟨c, R, true, .thrown, th, disp, invk⟩ := by
    intro c R th disp invk
    simp [List.replicate, run_from, step, control_step, wait_pred]
  have hspawn : ∀ (ready : List Task) c R th disp invk,
      ∃ s', run_from all_tasks system (List.replicate (ready.length + 4) .control)
        ⟨c, R, true, .spawn ready, th, disp, invk⟩ = some s' ∧ s'.pc = .thrown := by
    intro ready
    induction ready with
    | nil =>
      intro c R th disp invk
      refine ⟨⟨c, R, true, .thrown, th, disp, invk⟩, ?_, rfl⟩
      simp [List.replicate, run_from, step, control_step, wait_pred]
    | cons t rest ih =>
      intro c R th disp invk
      obtain ⟨s', hs', hpc⟩ := ih c R (th ++ [t]) disp (invk ++ [t])
      refine ⟨s', ?_, hpc⟩
      rw [List.length_cons, show rest.length + 1 + 4 = (rest.length + 4) + 1 by omega,
        List.replicate_succ]
      simpa [run_from, step, control_step] using hs'
  intro s he hscan hret
  obtain ⟨c, R, e, pc, th, disp, invk⟩ := s
  simp only at he hscan hret
  subst he
  cases pc with
  | loop_test => exact ⟨2, by omega, _, htest c R th disp invk, rfl⟩
  | scan => exact absurd rfl hscan
  | spawn ready =>
    obtain ⟨s', hs', hpc⟩ := hspawn ready c R th disp invk
    exact ⟨ready.length + 4, le_refl _, s', hs', hpc⟩
  | wait => exact ⟨3, by omega, _, hwait c R th disp invk, rfl⟩
  | loop_exit => exact ⟨1, by omega, _, hexit c R th disp invk, rfl⟩
  | returned => exact absurd rfl hret
  | thrown => exact ⟨0, by omega, _, rfl, rfl⟩

/-- With `has_error` set the steps of the control loop change neither `running` nor
`completed` and end no thread: the loop waits for no thread and scans no more. -/
theorem control_error_run (all_tasks : List Task) (system : Task → Int) :
    ∀ (n : Nat) (s s' : ExecState), s.has_error = true → s.pc ≠ .scan →
      run_from all_tasks system (List.replicate n .control) s = some s' →
      s'.has_error = true ∧ s'.running = s.running ∧ s'.completed = s.completed ∧
        ∀ t ∈ s.threads, t ∈ s'.threads := by
  intro n
  induction n with
  | zero =>
    intro s s' he _ h
    simp only [List.replicate, run_from] at h
    cases h
    exact ⟨he, rfl, rfl, fun _ h => h⟩
  | succ n ih =>
    intro s s' he hscan h
    obtain ⟨c, R, e, pc, th, disp, invk⟩ := s
    simp only at he hscan
    subst he
    rw [List.replicate_succ] at h
    unfold run_from at h
    cases pc with
    | loop_test =>
      have h' : run_from all_tasks system (List.replicate n .control)
          ⟨c, R, true, .loop_exit, th, disp, invk⟩ = some s' := by
        simpa [step, control_step] using h
      have key := ih _ s' rfl (by simp) h'
      exact key
    | scan => exact absurd rfl hscan
    | spawn ready =>
      cases ready with
      | nil =>
        have h' : run_from all_tasks system (List.replicate n .control)
            ⟨c, R, true, .wait, th, disp, invk⟩ = some s' := by
          simpa [step, control_step] using h
        have key := ih _ s' rfl (by simp) h'
        exact key
      | cons t rest =>
        have h' : run_from all_tasks system (List.replicate n .control)
            ⟨c, R, true, .spawn rest, th ++ [t], disp, invk ++ [t]⟩ = some s' := by
          simpa [step, control_step] using h
        obtain ⟨h1, h2, h3, h4⟩ := ih _ s' rfl (by simp) h'
        exact ⟨h1, h2, h3, fun u hu => h4 u (List.mem_append_left _ hu)⟩
    | wait =>
      have h' : run_from all_tasks system (List.replicate n .control)
          ⟨c, R, true, .loop_test, th, disp, invk⟩ = some s' := by
        simpa [step, control_step, wait_pred] using h
      have key := ih _ s' rfl (by simp) h'
      exact key
    | loop_exit =>
      have h' : run_from all_tasks system (List.replicate n .control)
          ⟨c, R, true, .thrown, th, disp, invk⟩ = some s' := by
        simpa [step, control_step] using h
      have key := ih _ s' rfl (by simp) h'
      exact key
    | returned => simp [step, control_step] at h
    | thrown => simp [step, control_step] at h

/-- After `has_error` is set, every later state still has it set, has no larger
`running`, and is not a normal return. -/
theorem error_sticky_run {g : Dag} {system : Task → Int} (schedule : List Action) :
    ∀ {s s' : ExecState}, g.ExecInv s → s.has_error = true →
      run_from g.tasks_ system schedule s = some s' →
      s'.has_error = true ∧ s'.running ⊆ s.running ∧ s'.pc ≠ .returned := by
  induction schedule with
  | nil =>
    intro s s' inv he h
    cases h
    refine ⟨he, Finset.Subset.refl _, ?_⟩
    intro hpc
    have := (inv.at_returned hpc).1
    rw [he] at this
    cases this
  | cons a rest ih =>
    intro s s' inv he h
    unfold run_from at h
    cases hs : step g.tasks_ system a s with
    | none => rw [hs] at h; cases h
    | some s1 =>
      rw [hs] at h
      obtain ⟨he1, hsub1⟩ := error_sticky inv he hs
      obtain ⟨he', hsub', hpc⟩ := ih (inv.step hs) he1 h
      exact ⟨he', hsub'.trans hsub1, hpc⟩

end Dag

/-! ## The claims -/

/-- C1. Soundness of `validate`: on every graph on which `validate()` succeeds, every
dependency id listed by any task is a key of the graph, and no task reaches itself by
following one or more dependency edges. -/
theorem validate_sound (g : Dag) (h : g.validate = .ok ()) :
    (∀ t ∈ g.tasks_, ∀ d ∈ t.dependencies, d ∈ g.keys) ∧
      ∀ a, ¬ Relation.TransGen g.dep a a :=
  (Dag.validate_ok_iff g).1 h

theorem validate_sound_witness :
    dag_valid.validate = .ok () ∧
      ((∀ t ∈ dag_valid.tasks_, ∀ d ∈ t.dependencies, d ∈ dag_valid.keys) ∧
        ∀ a, ¬ Relation.TransGen dag_valid.dep a a) :=
  ⟨by decide, validate_sound dag_valid (by decide)⟩

/-- C2. Completeness of `validate`: on every graph in which every listed dependency is a
key and the dependency relation is acyclic, `validate()` returns normally, raising no
error. -/
theorem validate_complete (g : Dag)
    (hde : ∀ t ∈ g.tasks_, ∀ d ∈ t.dependencies, d ∈ g.keys)
    (hac : ∀ a, ¬ Relation.TransGen g.dep a a) :
    g.validate = .ok () :=
  (Dag.validate_ok_iff g).2 ⟨hde, hac⟩

theorem validate_complete_witness : dag_chain.validate = .ok () :=
  validate_complete dag_chain (by decide)
    (Dag.acyclic_of_rank rank_chain (by decide))

/-- C3. On every graph in which all listed dependencies exist and some task reaches
itself through one or more dependency edges (a self-dependency, a mutual pair, a longer
cycle), `validate()` fails with the cycle-detected error. -/
theorem validate_rejects_cycle (g : Dag)
    (hde : ∀ t ∈ g.tasks_, ∀ d ∈ t.dependencies, d ∈ g.keys)
    (a : String) (hcyc : Relation.TransGen g.dep a a) :
    ∃ n, g.validate = .error (.CycleDetected n) := by
  have h := g.validate_spec
  revert h
  cases hv : g.validate with
  | ok u =>
    intro _
    cases u
    exact absurd hcyc (((Dag.validate_ok_iff g).1 hv).2 a)
  | error e =>
    cases e <;> simp only [Dag.ValidatePost] <;> intro h
    · exact absurd hde h
    · obtain ⟨t, ht, _, hd, hk⟩ := h
      exact absurd (hde t ht _ hd) hk
    · exact ⟨_, rfl⟩
    · exact h.elim
    · exact h.elim

theorem validate_rejects_cycle_witness :
    ∃ n, dag_cycle.validate = .error (.CycleDetected n) :=
  validate_rejects_cycle dag_cycle (by decide) "task-1"
    (Relation.TransGen.tail
      (Relation.TransGen.single
        ⟨⟨"task-1", "cmd", ["task-2"]⟩, by decide, rfl, by decide⟩)
      ⟨⟨"task-2", "cmd", ["task-1"]⟩, by decide, rfl, by decide⟩)

/-- C4 (the code at the failing input). With `t1 → t2 → ghost` and `t1` iterated first,
the search started from `t1` walks into `ghost` before the dependencies of `t2` were
checked, and `validate()` fails with the task-not-found error of `get_task`; with a
self-dependency iterated before the task that has the missing dependency it fails with
the cycle-detected error.  Neither is the unknown-dependency error. -/
theorem validate_missing_dependency_other_error :
    dag_ghost_behind.validate = .error (.TaskNotFound "ghost") ∧
      dag_cycle_before_ghost.validate = .error (.CycleDetected "t1") := by
  decide

/-- C5. Plan mode respects the dependency order: on every graph the dry run returns a
plan in which every dependency of every task of a batch was emitted in an earlier batch;
for the chain `task-a`, `task-b` (dep `task-a`), `task-c` (dep `task-b`), in whatever
order the map is iterated, the lines logged are those of `task-a`, `task-b`, `task-c` in
this order. -/
theorem plan_respects_dependencies (g : Dag) :
    (∃ r, execute_all_dry g.get_all_tasks = .ok r ∧
      ∀ (k : Nat) (batch : List Task), r.batches[k]? = some batch →
        ∀ t ∈ batch, ∀ d ∈ t.dependencies,
          ∃ j, j < k ∧ ∃ earlier, r.batches[j]? = some earlier ∧ d ∈ earlier.map Task.id) ∧
    ∀ order ∈ chain_orders,
      execute_all_dry order = .ok ⟨[[task_a], [task_b], [task_c]], none⟩ ∧
      (execute_all_dry order).map DryRun.steps =
        .ok [("task-a", "echo A"), ("task-b", "echo B"), ("task-c", "echo C")] := by
  refine ⟨?_, by decide⟩
  obtain ⟨r, hr⟩ := g.execute_all_dry_total
  refine ⟨r, hr, ?_⟩
  intro k batch hb t ht d hd
  have hloop : ∃ fuel, dry_run_loop g.tasks_ fuel ∅ = .ok r := by
    unfold execute_all_dry at hr
    split at hr
    · rename_i h0
      refine ⟨0, ?_⟩
      change g.tasks_.length = 0 at h0
      rw [dry_run_loop_done _ _ _ (by simp [h0])]
      exact hr
    · exact ⟨_, hr⟩
  obtain ⟨fuel, hloop⟩ := hloop
  rcases Dag.dry_run_loop_order g.tasks_ fuel ∅ r hloop k batch hb t ht d hd with h | ⟨u, hu, rfl⟩
  · simp at h
  · obtain ⟨earlier, he, hue⟩ := List.mem_flatten.1 hu
    obtain ⟨j, hj, hje⟩ := List.getElem_of_mem he
    rw [List.length_take] at hj
    refine ⟨j, (lt_min_iff.1 hj).1, earlier, ?_, List.mem_map_of_mem _ hue⟩
    rw [← hje, List.getElem_take, List.getElem?_eq_getElem]

theorem plan_respects_dependencies_witness :
    ∃ j, j < 1 ∧ ∃ earlier,
      ([[task_a], [task_b], [task_c]] : List (List Task))[j]? = some earlier ∧
        "task-a" ∈ earlier.map Task.id := by
  obtain ⟨⟨r, hr, h⟩, _⟩ := plan_respects_dependencies dag_chain
  have he : execute_all_dry dag_chain.get_all_tasks =
      .ok ⟨[[task_a], [task_b], [task_c]], none⟩ := by decide
  rw [he] at hr
  cases hr
  exact h 1 [task_b] rfl task_b (by decide) "task-a" (by decide)

/-- C6. On every graph that passes `validate()`, plan mode emits every task exactly once,
with its own id and command, and never reaches the deadlock branch: whatever set of ids
is marked done, while a task remains undone the scan finds a ready task. -/
theorem plan_complete (g : Dag) (hv : g.validate = .ok ()) :
    ∃ r, execute_all_dry g.get_all_tasks = .ok r ∧ r.deadlock = none ∧
      r.batches.flatten.Perm g.tasks_ ∧ (r.batches.flatten.map Task.id).Nodup ∧
      r.steps.Perm (g.tasks_.map (fun t => (t.id, t.command))) ∧
      ∀ completed_dry : Finset String, (∃ t ∈ g.tasks_, t.id ∉ completed_dry) →
        dry_run_scan g.get_all_tasks completed_dry ≠ [] := by
  obtain ⟨hde, hac⟩ := (Dag.validate_ok_iff g).1 hv
  obtain ⟨r, hr, hdl, hperm, _⟩ :=
    Dag.dry_run_loop_valid hde hac g.tasks_.length ∅ (by simp) (by simp)
  have hperm' : r.batches.flatten.Perm g.tasks_ := by simpa using hperm
  have hscan : ∀ c : Finset String, (∃ t ∈ g.tasks_, t.id ∉ c) →
      dry_run_scan g.get_all_tasks c ≠ [] := by
    intro c hc
    obtain ⟨t, ht, htc, htd⟩ := Dag.exists_ready hde hac c hc
    exact List.ne_nil_of_mem (mem_dry_run_scan.2 ⟨ht, htc, htd⟩)
  by_cases h0 : g.tasks_.length = 0
  · have hnil : g.tasks_ = [] := List.length_eq_zero.1 h0
    refine ⟨⟨[], none⟩, by simp [execute_all_dry, Dag.get_all_tasks, h0], rfl, ?_, ?_, ?_, hscan⟩
    · simp [hnil]
    · simp
    · simp [DryRun.steps, hnil]
  · refine ⟨r, by simpa [execute_all_dry, Dag.get_all_tasks, h0] using hr, hdl, hperm', ?_, ?_,
      hscan⟩
    · exact ((hperm'.map Task.id).nodup_iff).2 g.nodup_ids
    · exact hperm'.map _

theorem plan_complete_witness :
    dag_chain.validate = .ok () ∧
      ∃ r, execute_all_dry dag_chain.get_all_tasks = .ok r ∧ r.deadlock = none ∧
        r.batches.flatten.Perm dag_chain.tasks_ ∧ (r.batches.flatten.map Task.id).Nodup ∧
        r.steps.Perm (dag_chain.tasks_.map (fun t => (t.id, t.command))) ∧
        ∀ completed_dry : Finset String, (∃ t ∈ dag_chain.tasks_, t.id ∉ completed_dry) →
          dry_run_scan dag_chain.get_all_tasks completed_dry ≠ [] :=
  ⟨by decide, plan_complete dag_chain (by decide)⟩

/-- C7. In execute mode a task never starts before all its dependencies are in
`completed`: in every run, every task whose id is in `running` has all its dependencies
in `completed`, and at the step that adds a task to `running` (the scan) every id of its
dependency list is already in `completed`. -/
theorem start_after_dependencies (g : Dag) (system : Task → Int) (schedule : List Action)
    (s : ExecState) (hs : execute_all_run g.get_all_tasks system schedule = some s) :
    (∀ t ∈ g.tasks_, t.id ∈ s.running → ∀ d ∈ t.dependencies, d ∈ s.completed) ∧
    ∀ (a : Action) (s' : ExecState), step g.get_all_tasks system a s = some s' →
      ∀ t ∈ g.tasks_, t.id ∈ s'.running → t.id ∉ s.running →
        ∀ d ∈ t.dependencies, d ∈ s.completed := by
  have inv := Dag.execInv_of_run hs
  refine ⟨fun t ht hr => inv.deps_closed t ht (Or.inr hr), ?_⟩
  intro a s' hstep t ht hnew hold
  exact (Dag.running_new hstep ht hnew hold).2.2.2

theorem start_after_dependencies_witness :
    "task-a" ∈ task_b.dependencies ∧ "task-a" ∈ state_chain_a.completed :=
  ⟨by decide,
    (start_after_dependencies dag_chain system_ok schedule_chain_a state_chain_a (by decide)).2
      .control state_chain_b (by decide) task_b (by decide) (by decide) (by decide)
      "task-a" (by decide)⟩

/-- C8. On every graph that passes `validate()`, if every command exits with status 0
then execute mode ends normally with `completed` equal to the set of all task ids: in
every run no error is recorded and nothing is thrown, a state that has not returned
always has a next step, no run is longer than `6 * total_tasks + 3` steps, and at the
return `completed` holds exactly the keys of the graph. -/
theorem execute_all_succeeds (g : Dag) (hv : g.validate = .ok ()) (system : Task → Int)
    (h0 : ∀ t ∈ g.tasks_, system t = 0) (schedule : List Action) (s : ExecState)
    (hs : execute_all_run g.get_all_tasks system schedule = some s) :
    s.has_error = false ∧ s.pc ≠ .thrown ∧
      (s.pc = .returned → s.completed = g.keys.toFinset ∧ s.running = ∅) ∧
      (s.pc ≠ .returned → ∃ a s', step g.get_all_tasks system a s = some s') ∧
      schedule.length ≤ 6 * g.tasks_.length + 3 := by
  obtain ⟨hde, hac⟩ := (Dag.validate_ok_iff g).1 hv
  have inv := Dag.execInv_of_run hs
  obtain ⟨he, hpot⟩ := Dag.potential_run hde hac h0 schedule (Dag.ExecInv.init g) rfl hs
  have hthrown : s.pc ≠ .thrown := by
    intro hpc
    have := inv.at_thrown hpc
    rw [he] at this
    cases this
  refine ⟨he, hthrown, ?_, ?_, ?_⟩
  · intro hpc
    have := inv.all_done (inv.at_returned hpc).2
    exact ⟨this.1, this.2.1⟩
  · intro hpc
    exact inv.not_stuck system hpc hthrown
  · have := Dag.potential_init_le g.tasks_
    omega

theorem execute_all_succeeds_witness :
    state_chain_done.has_error = false ∧ state_chain_done.pc ≠ .thrown ∧
      (state_chain_done.pc = .returned →
        state_chain_done.completed = dag_chain.keys.toFinset ∧ state_chain_done.running = ∅) ∧
      (state_chain_done.pc ≠ .returned →
        ∃ a s', step dag_chain.get_all_tasks system_ok a state_chain_done = some s') ∧
      schedule_chain.length ≤ 6 * dag_chain.tasks_.length + 3 :=
  execute_all_succeeds dag_chain (by decide) system_ok (fun _ _ => rfl) schedule_chain
    state_chain_done (by decide)

/-- C9. Fail-fast in execute mode: in every run, as long as `execute_all` has not thrown
the thread of every launched task can take its final step, and when its command exits
non-zero that step sets `has_error`, after which the control loop reaches the `throw`
by steps of its own; once `has_error` is set it is never cleared, no later state has an
id in `running` that was not there when the failure was recorded, no later state is a
normal return, and the control loop, never blocked, reaches the `throw` within
`pending + 4` steps of its own. -/
theorem fail_fast (g : Dag) (system : Task → Int) (schedule : List Action) (s : ExecState)
    (hs : execute_all_run g.get_all_tasks system schedule = some s) :
    (∀ t ∈ s.threads, s.pc ≠ .thrown →
      ∃ s', step g.get_all_tasks system (.finish t) s = some s' ∧
        (system t ≠ 0 → s'.has_error = true ∧
          ∃ n, n ≤ s.pc.pending.length + 4 ∧ ∃ s'',
            run_from g.get_all_tasks system (List.replicate n .control) s' = some s'' ∧
              s''.pc = .thrown)) ∧
    (∀ (t : Task) (s' : ExecState), step g.get_all_tasks system (.finish t) s = some s' →
      system t ≠ 0 → s'.has_error = true) ∧
    (s.has_error = true →
      (∀ (later : List Action) (s' : ExecState),
        run_from g.get_all_tasks system later s = some s' →
          s'.has_error = true ∧ s'.running ⊆ s.running ∧ s'.pc ≠ .returned) ∧
      ∃ n, n ≤ s.pc.pending.length + 4 ∧ ∃ s',
        run_from g.get_all_tasks system (List.replicate n .control) s = some s' ∧
          s'.pc = .thrown) := by
  have inv := Dag.execInv_of_run hs
  refine ⟨?_, ?_, ?_⟩
  · intro t ht hthrown
    have hret : s.pc ≠ .returned := by
      intro hpc
      have hl := (inv.all_done (inv.at_returned hpc).2).2.2
      simp only [Dag.live, List.append_eq_nil] at hl
      rw [hl.1] at ht
      cases ht
    have hscan : s.pc ≠ .scan := by
      intro hpc
      rw [(inv.at_scan hpc).1] at ht
      cases ht
    obtain ⟨s', hs', hpc', _, _, hfail, _⟩ := @Dag.thread_step_live system t s hret hthrown ht
    refine ⟨s', hs', fun hne => ⟨(hfail hne).1, ?_⟩⟩
    rw [← hpc']
    exact Dag.control_to_thrown g.tasks_ system s' (hfail hne).1 (by rw [hpc']; exact hscan)
      (by rw [hpc']; exact hret)
  · intro t s' hstep hne
    simp only [step] at hstep
    replace hstep := (Dag.thread_step_some hstep).2.2
    rw [if_neg hne] at hstep
    split at hstep
    · cases hstep
      rfl
    · cases hstep
  · intro he
    refine ⟨fun later s' hrun => Dag.error_sticky_run later inv he hrun, ?_⟩
    apply Dag.control_to_thrown
    · exact he
    · intro hpc
      have := (inv.at_scan hpc).2.1
      rw [he] at this
      cases this
    · intro hpc
      have := (inv.at_returned hpc).1
      rw [he] at this
      cases this

theorem fail_fast_witness :
    ∃ s', step dag_xy.get_all_tasks system_xy (.finish task_x) state_xy_launched = some s' ∧
      (system_xy task_x ≠ 0 → s'.has_error = true ∧
        ∃ n, n ≤ state_xy_launched.pc.pending.length + 4 ∧ ∃ s'',
          run_from dag_xy.get_all_tasks system_xy (List.replicate n .control) s' = some s'' ∧
            s''.pc = .thrown) :=
  (fail_fast dag_xy system_xy schedule_xy_launched state_xy_launched (by decide)).1
    task_x (by decide) (by decide)

/-- C10 (counterexample). With two independent tasks `x` and `y`, when `x` fails while
`y` is still running, `execute_all` throws with `y` still in `running`. -/
theorem running_not_empty_at_throw :
    execute_all_run dag_xy.get_all_tasks system_xy schedule_x_fails_throw = some state_thrown ∧
      state_thrown.pc = .thrown ∧ state_thrown.running = {"y"} ∧ state_thrown.running ≠ ∅ := by
  decide

/-- C10 (amended). In every run, when `execute_all` returns normally nothing is running
and no thread is live; once `has_error` is set the control loop waits for no running
task: by steps of its own, which leave `running`, `completed` and the live threads as
they are, it reaches the `throw`; and when it has thrown, `has_error` is set and every id
still in `running` is the id of a launched task whose thread has not finished. -/
theorem running_at_end (g : Dag) (system : Task → Int) (schedule : List Action)
    (s : ExecState) (hs : execute_all_run g.get_all_tasks system schedule = some s) :
    (s.pc = .returned → s.running = ∅ ∧ s.threads = []) ∧
    (s.has_error = true → ∃ n, n ≤ s.pc.pending.length + 4 ∧ ∃ s',
      run_from g.get_all_tasks system (List.replicate n .control) s = some s' ∧
        s'.pc = .thrown ∧ s'.running = s.running ∧ s'.completed = s.completed ∧
        ∀ t ∈ s.threads, t ∈ s'.threads) ∧
    (s.pc = .thrown → s.has_error = true ∧ ∀ x ∈ s.running, ∃ t ∈ s.threads, t.id = x) := by
  have inv := Dag.execInv_of_run hs
  refine ⟨?_, ?_, ?_⟩
  · intro hpc
    have := inv.all_done (inv.at_returned hpc).2
    refine ⟨this.2.1, ?_⟩
    have hl := this.2.2
    simp only [Dag.live, List.append_eq_nil] at hl
    exact hl.1
  · intro he
    have hscan : s.pc ≠ .scan := by
      intro hpc
      have := (inv.at_scan hpc).2.1
      rw [he] at this
      cases this
    have hret : s.pc ≠ .returned := by
      intro hpc
      have := (inv.at_returned hpc).1
      rw [he] at this
      cases this
    obtain ⟨n, hn, s', hrun, hpc⟩ := Dag.control_to_thrown g.tasks_ system s he hscan hret
    obtain ⟨_, hR, hc, hth⟩ := Dag.control_error_run g.tasks_ system n s s' he hscan hrun
    exact ⟨n, hn, s', hrun, hpc, hR, hc, hth⟩
  · intro hpc
    refine ⟨inv.at_thrown hpc, ?_⟩
    intro x hx
    obtain ⟨t, ht, rfl⟩ := (inv.running_eq x).1 hx
    have hth : t ∈ s.threads := by
      simpa [Dag.live, hpc, Pc.pending] using ht
    exact ⟨t, hth, rfl⟩

theorem running_at_end_witness :
    ∃ n, n ≤ state_x_failed.pc.pending.length + 4 ∧ ∃ s',
      run_from dag_xy.get_all_tasks system_xy (List.replicate n .control) state_x_failed
        = some s' ∧
        s'.pc = .thrown ∧ s'.running = state_x_failed.running ∧
        s'.completed = state_x_failed.completed ∧
        ∀ t ∈ state_x_failed.threads, t ∈ s'.threads :=
  (running_at_end dag_xy system_xy schedule_x_fails state_x_failed (by decide)).2.1 rfl

/-! ## Dry run: the batches and the deadlock report -/

theorem mark_done_append (a b : List Task) (c : Finset String) :
    mark_done (a ++ b) c = mark_done b (mark_done a c) := by
  simp [mark_done, List.foldl_append]

theorem execute_all_dry_loop {all_tasks : List Task} {r : DryRun}
    (h : execute_all_dry all_tasks = .ok r) :
    ∃ fuel, dry_run_loop all_tasks fuel ∅ = .ok r := by
  unfold execute_all_dry at h
  split at h
  · rename_i h0
    refine ⟨0, ?_⟩
    rw [dry_run_loop_done _ _ _ (by simp [h0])]
    exact h
  · exact ⟨_, h⟩

/-- Every batch is the scan made with the ids of the earlier batches done. -/
theorem dry_run_loop_batches (all_tasks : List Task) (fuel : Nat) :
    ∀ (c : Finset String) (r : DryRun), dry_run_loop all_tasks fuel c = .ok r →
      ∀ (k : Nat) (batch : List Task), r.batches[k]? = some batch →
        batch = dry_run_scan all_tasks (mark_done (r.batches.take k).flatten c) ∧
          batch ≠ [] := by
  induction fuel with
  | zero =>
    intro c r h k batch hb
    rw [dry_run_loop] at h
    split at h
    · cases h
    · cases h; simp at hb
  | succ fuel ih =>
    intro c r h k batch hb
    by_cases hlt : c.card < all_tasks.length
    · rw [dry_run_loop_succ _ _ _ hlt] at h
      split at h
      · cases h; simp at hb
      · rename_i hne
        cases hrec : dry_run_loop all_tasks fuel (mark_done (dry_run_scan all_tasks c) c) with
        | error e => rw [hrec] at h; cases h
        | ok r' =>
          rw [hrec] at h
          cases h
          cases k with
          | zero =>
            simp only [List.getElem?_cons_zero, Option.some.injEq] at hb
            subst hb
            refine ⟨by simp [mark_done], ?_⟩
            intro hnil
            exact hne (by simp [hnil])
          | succ k =>
            simp only [List.getElem?_cons_succ] at hb
            have := ih _ r' hrec k batch hb
            simpa [List.take_succ_cons, mark_done_append] using this
    · rw [dry_run_loop_done _ _ _ hlt] at h
      cases h; simp at hb

namespace Dag

theorem scan_nil_of_all_done {g : Dag} {c : Finset String} (hc : c ⊆ g.keys.toFinset)
    (h : ¬ c.card < g.tasks_.length) : dry_run_scan g.tasks_ c = [] := by
  have hceq : c = g.keys.toFinset :=
    Finset.eq_of_subset_of_card_le hc (by rw [g.card_keys]; omega)
  apply List.eq_nil_iff_forall_not_mem.2
  intro t ht
  have := mem_dry_run_scan.1 ht
  exact this.2.1 (hceq ▸ List.mem_toFinset.2 (mem_keys.2 ⟨t, this.1, rfl⟩))

theorem mark_done_subset_keys' {g : Dag} {l : List Task} {c : Finset String}
    (hl : ∀ t ∈ l, t ∈ g.tasks_) (hc : c ⊆ g.keys.toFinset) :
    mark_done l c ⊆ g.keys.toFinset := by
  intro x hx
  rcases mem_mark_done.1 hx with h | ⟨t, ht, rfl⟩
  · exact hc h
  · exact List.mem_toFinset.2 (mem_keys.2 ⟨t, hl t ht, rfl⟩)

/-- Where the dry-run loop stops: the scan with every emitted id done finds nothing, and
a deadlock is reported exactly when ids are still missing then, naming the tasks not
done in iteration order. -/
theorem dry_run_loop_end (g : Dag) (fuel : Nat) :
    ∀ (c : Finset String) (r : DryRun), c ⊆ g.keys.toFinset →
      dry_run_loop g.tasks_ fuel c = .ok r →
      mark_done r.batches.flatten c ⊆ g.keys.toFinset ∧
      dry_run_scan g.tasks_ (mark_done r.batches.flatten c) = [] ∧
      r.deadlock =
        if (mark_done r.batches.flatten c).card < g.tasks_.length then
          some ((g.tasks_.filter
            (fun t => decide (t.id ∉ mark_done r.batches.flatten c))).map Task.id)
        else none := by
  induction fuel with
  | zero =>
    intro c r hc h
    rw [dry_run_loop] at h
    split at h
    · cases h
    · rename_i hlt
      cases h
      simp only [List.flatten_nil, mark_done, List.foldl_nil, hlt, if_false, and_true]
      exact ⟨hc, scan_nil_of_all_done hc hlt⟩
  | succ fuel ih =>
    intro c r hc h
    by_cases hlt : c.card < g.tasks_.length
    · rw [dry_run_loop_succ _ _ _ hlt] at h
      split at h
      · rename_i hemp
        cases h
        simp only [List.flatten_nil, mark_done, List.foldl_nil, hlt, if_true, and_true]
        exact ⟨hc, by simpa using hemp⟩
      · cases hrec : dry_run_loop g.tasks_ fuel (mark_done (dry_run_scan g.tasks_ c) c) with
        | error e => rw [hrec] at h; cases h
        | ok r' =>
          rw [hrec] at h
          cases h
          have := ih _ r' (mark_done_subset_keys hc) hrec
          simpa [mark_done_append] using this
    · rw [dry_run_loop_done _ _ _ hlt] at h
      cases h
      simp only [List.flatten_nil, mark_done, List.foldl_nil, hlt, if_false, and_true]
      exact ⟨hc, scan_nil_of_all_done hc hlt⟩

/-- The tasks of the batches are tasks of the graph. -/
theorem batches_mem {g : Dag} {fuel : Nat} {c : Finset String} {r : DryRun}
    (h : dry_run_loop g.tasks_ fuel c = .ok r) : ∀ t ∈ r.batches.flatten, t ∈ g.tasks_ := by
  intro t ht
  obtain ⟨batch, hb, htb⟩ := List.mem_flatten.1 ht
  obtain ⟨k, hk, hkb⟩ := List.getElem_of_mem hb
  have := (dry_run_loop_batches g.tasks_ fuel c r h k batch
    (by rw [← hkb, List.getElem?_eq_getElem])).1
  rw [this] at htb
  exact (mem_dry_run_scan.1 htb).1

/-- A task of the graph is among the given tasks of the graph exactly when its id is
marked by them. -/
theorem mem_iff_id_marked {g : Dag} {l : List Task} (hl : ∀ t ∈ l, t ∈ g.tasks_)
    {t : Task} (ht : t ∈ g.tasks_) : t ∈ l ↔ t.id ∈ mark_done l ∅ := by
  rw [mem_mark_done]
  constructor
  · exact fun h => Or.inr ⟨t, h, rfl⟩
  · rintro (h | ⟨u, hu, hid⟩)
    · simp at h
    · rwa [← task_unique (hl u hu) ht hid]

/-- A task on a cycle is never ready while no id on a cycle is done. -/
theorem cycle_not_ready {g : Dag} {c : Finset String}
    (hc : ∀ a ∈ c, ¬ Relation.TransGen g.dep a a) {t : Task} (ht : t ∈ g.tasks_)
    (hcyc : Relation.TransGen g.dep t.id t.id) : ¬ ∀ d ∈ t.dependencies, d ∈ c := by
  intro hall
  obtain ⟨b, hb, hbt⟩ := Relation.TransGen.head'_iff.1 hcyc
  have hbb : Relation.TransGen g.dep b b := Relation.TransGen.tail' hbt hb
  obtain ⟨u, hu, hid, hbu⟩ := hb
  have hut : u = t := task_unique hu ht hid
  subst hut
  exact hc b (hall b hbu) hbb

/-- No id on a cycle is ever marked done by the dry run. -/
theorem dry_run_loop_cycle_free (g : Dag) (fuel : Nat) :
    ∀ (c : Finset String) (r : DryRun), (∀ a ∈ c, ¬ Relation.TransGen g.dep a a) →
      dry_run_loop g.tasks_ fuel c = .ok r →
      ∀ a ∈ mark_done r.batches.flatten c, ¬ Relation.TransGen g.dep a a := by
  induction fuel with
  | zero =>
    intro c r hc h
    rw [dry_run_loop] at h
    split at h
    · cases h
    · cases h; simpa [mark_done] using hc
  | succ fuel ih =>
    intro c r hc h
    by_cases hlt : c.card < g.tasks_.length
    · rw [dry_run_loop_succ _ _ _ hlt] at h
      split at h
      · cases h; simpa [mark_done] using hc
      · cases hrec : dry_run_loop g.tasks_ fuel (mark_done (dry_run_scan g.tasks_ c) c) with
        | error e => rw [hrec] at h; cases h
        | ok r' =>
          rw [hrec] at h
          cases h
          have hc' : ∀ a ∈ mark_done (dry_run_scan g.tasks_ c) c,
              ¬ Relation.TransGen g.dep a a := by
            intro a ha
            rcases mem_mark_done.1 ha with h1 | ⟨t, ht, rfl⟩
            · exact hc a h1
            · have ht' := mem_dry_run_scan.1 ht
              exact fun hcyc => cycle_not_ready hc ht'.1 hcyc ht'.2.2
          have := ih _ r' hc' hrec
          simpa [mark_done_append] using this
    · rw [dry_run_loop_done _ _ _ hlt] at h
      cases h; simpa [mark_done] using hc

end Dag

/-! ## Lemmas on `get_task` and `add_task` -/

namespace Dag

theorem get_task_of_not_mem {g : Dag} {a : String} (h : a ∉ g.keys) :
    g.get_task a = .error (.TaskNotFound a) := by
  cases hg : g.get_task a with
  | ok t =>
    obtain ⟨ht, hid⟩ := get_task_ok hg
    exact absurd (mem_keys.2 ⟨t, ht, hid⟩) h
  | error e => rw [(get_task_error hg).1]

theorem mem_add_task {g : Dag} {task u : Task} :
    u ∈ (g.add_task task).tasks_ ↔ u = task ∨ (u ∈ g.tasks_ ∧ u.id ≠ task.id) := by
  unfold add_task
  split
  · rename_i h
    simp only [List.mem_map]
    constructor
    · rintro ⟨t, ht, rfl⟩
      by_cases hid : t.id = task.id
      · simp [hid]
      · simp only [hid, if_false]
        exact Or.inr ⟨ht, hid⟩
    · rintro (rfl | ⟨hu, hid⟩)
      · obtain ⟨t, ht, hid⟩ := mem_keys.1 (contains_iff.1 h)
        exact ⟨t, ht, by simp [hid]⟩
      · exact ⟨u, hu, by simp [hid]⟩
  · rename_i h
    simp only [List.mem_append, List.mem_singleton]
    constructor
    · rintro (hu | rfl)
      · refine Or.inr ⟨hu, fun hid => h (contains_iff.2 (mem_keys.2 ⟨u, hu, hid⟩))⟩
      · exact Or.inl rfl
    · rintro (rfl | ⟨hu, _⟩)
      · exact Or.inr rfl
      · exact Or.inl hu

theorem length_add_task (g : Dag) (task : Task) :
    (g.add_task task).tasks_.length =
      if task.id ∈ g.keys then g.tasks_.length else g.tasks_.length + 1 := by
  unfold add_task
  split
  · rename_i h
    simp [contains_iff.1 h]
  · rename_i h
    have : task.id ∉ g.keys := fun hk => h (contains_iff.2 hk)
    simp [this]

end Dag

/-! ## Execute mode: lemmas on the history of dispatches -/

theorem run_from_append (all_tasks : List Task) (system : Task → Int) (a b : List Action) :
    ∀ s : ExecState, run_from all_tasks system (a ++ b) s =
      (run_from all_tasks system a s).bind (run_from all_tasks system b) := by
  induction a with
  | nil => intro s; rfl
  | cons x rest ih =>
    intro s
    simp only [List.cons_append, run_from]
    cases step all_tasks system x s with
    | none => rfl
    | some s1 => exact ih s1

namespace Dag

theorem DispatchInv.at_start (g : Dag) : g.DispatchInv (exec_init g.tasks_) := by
  constructor <;> simp only [exec_init]
  · split <;> simp [Pc.pending]
  · simp
  · simp
  · simp

/-- What a step does to the list of dispatches: nothing, or the scan appends the tasks it
selected, which it puts in `running` and which were neither running nor completed. -/
theorem dispatched_step {g : Dag} {system : Task → Int} {a : Action} {s s' : ExecState}
    (h : step g.tasks_ system a s = some s') :
    s'.dispatched = s.dispatched ∨
      ∃ ready, s.pc = .scan ∧ s'.dispatched = s.dispatched ++ [ready] ∧
        ∀ t ∈ ready, t ∈ g.tasks_ ∧ t.id ∈ s'.running ∧ t.id ∉ s.running ∧
          t.id ∉ s.completed := by
  obtain ⟨c, R, e, pc, th, disp, invk⟩ := s
  cases a with
  | control =>
    simp only [step] at h
    cases pc with
    | loop_test =>
      simp only [control_step] at h
      split at h <;> cases h <;> exact Or.inl rfl
    | scan =>
      simp only [control_step, exec_scan_eq c g.tasks_ R [] g.nodup_ids, List.nil_append] at h
      right
      refine ⟨g.tasks_.filter (selectable c R), rfl, ?_, ?_⟩
      · split at h <;> cases h <;> rfl
      · intro t ht
        obtain ⟨htg, hsel⟩ := List.mem_filter.1 ht
        simp only [selectable, Bool.and_eq_true, decide_eq_true_eq] at hsel
        have hrun : s'.running = mark_done (g.tasks_.filter (selectable c R)) R := by
          split at h <;> cases h <;> rfl
        exact ⟨htg, by rw [hrun]; exact mem_mark_done.2 (Or.inr ⟨t, ht, rfl⟩),
          hsel.1.2, hsel.1.1⟩
    | spawn ready =>
      cases ready with
      | nil => simp only [control_step] at h; cases h; exact Or.inl rfl
      | cons v rest => simp only [control_step] at h; cases h; exact Or.inl rfl
    | wait =>
      simp only [control_step] at h
      split at h
      · cases h; exact Or.inl rfl
      · cases h
    | loop_exit => simp only [control_step] at h; cases h; exact Or.inl rfl
    | returned => simp [control_step] at h
    | thrown => simp [control_step] at h
  | finish v =>
    simp only [step] at h
    replace h := (thread_step_some h).2.2
    simp only at h
    split at h
    · split at h <;> cases h <;> exact Or.inl rfl
    · cases h

/-- Every step keeps the invariant of the history lists. -/
theorem DispatchInv.preserved {g : Dag} {system : Task → Int} {a : Action} {s s' : ExecState}
    (inv : g.ExecInv s) (d : g.DispatchInv s)
    (h : dagra.step g.tasks_ system a s = some s') : g.DispatchInv s' := by
  obtain ⟨c, R, e, pc, th, disp, invk⟩ := s
  have hhist := d.hist
  have hseen := d.seen
  have hnodup := d.nodup
  have hmem := d.mem
  simp only at hhist hseen hnodup hmem
  cases a with
  | control =>
    simp only [dagra.step] at h
    cases pc with
    | loop_test =>
      simp only [control_step] at h
      split at h <;> cases h <;> exact ⟨by simpa [Pc.pending] using hhist, hseen, hnodup, hmem⟩
    | scan =>
      obtain ⟨hth, he, _⟩ := inv.at_scan rfl
      simp only at hth he
      subst hth he
      have hR : R = ∅ := by
        apply Finset.eq_empty_of_forall_not_mem
        intro x hx
        obtain ⟨t, ht, _⟩ := (inv.running_eq x).1 hx
        simp [live, Pc.pending] at ht
      subst hR
      simp only [control_step, exec_scan_eq c g.tasks_ ∅ [] g.nodup_ids, List.nil_append,
        selectable_empty] at h
      simp only [Pc.pending, List.append_nil] at hhist
      have hold : ∀ t ∈ disp.flatten, t.id ∈ c := by
        intro t ht
        rcases hseen t ht with h1 | h1 | h1
        · exact h1
        · simp at h1
        · cases h1
      have hflat : (disp ++ [dry_run_scan g.tasks_ c]).flatten =
          disp.flatten ++ dry_run_scan g.tasks_ c := by simp
      have hnd : (disp.flatten ++ dry_run_scan g.tasks_ c).Nodup := by
        rw [List.nodup_append]
        refine ⟨hnodup, (List.filter_sublist _).nodup g.nodup_tasks, ?_⟩
        intro t ht ht'
        exact (mem_dry_run_scan.1 ht').2.1 (hold t ht)
      have hm : ∀ t ∈ disp.flatten ++ dry_run_scan g.tasks_ c, t ∈ g.tasks_ := by
        intro t ht
        rcases List.mem_append.1 ht with h1 | h1
        · exact hmem t h1
        · exact (mem_dry_run_scan.1 h1).1
      split at h
      · rename_i hdead
        cases h
        have hnil : dry_run_scan g.tasks_ c = [] := by simpa using hdead.1
        refine ⟨?_, ?_, ?_, ?_⟩
        · simpa [hnil, Pc.pending] using hhist
        · intro t _
          exact Or.inr (Or.inr rfl)
        · simp only [hflat]; exact hnd
        · simp only [hflat]; exact hm
      · cases h
        refine ⟨?_, ?_, ?_, ?_⟩
        · simp only [hflat, Pc.pending, hhist]
        · simp only [hflat]
          intro t ht
          rcases List.mem_append.1 ht with h1 | h1
          · exact Or.inl (hold t h1)
          · exact Or.inr (Or.inl (mem_mark_done.2 (Or.inr ⟨t, h1, rfl⟩)))
        · simp only [hflat]; exact hnd
        · simp only [hflat]; exact hm
    | spawn ready =>
      cases ready with
      | nil =>
        simp only [control_step] at h
        cases h
        exact ⟨by simpa [Pc.pending] using hhist, hseen, hnodup, hmem⟩
      | cons v rest =>
        simp only [control_step] at h
        cases h
        exact ⟨by simpa [Pc.pending] using hhist, hseen, hnodup, hmem⟩
    | wait =>
      simp only [control_step] at h
      split at h
      · cases h
        exact ⟨by simpa [Pc.pending] using hhist, hseen, hnodup, hmem⟩
      · cases h
    | loop_exit =>
      simp only [control_step] at h
      cases h
      refine ⟨?_, hseen, hnodup, hmem⟩
      simp only [Pc.pending, List.append_nil] at hhist
      cases e <;> simpa [Pc.pending] using hhist
    | returned => simp [control_step] at h
    | thrown => simp [control_step] at h
  | finish v =>
    simp only [dagra.step] at h
    replace h := (thread_step_some h).2.2
    simp only at h
    split at h
    · split at h
      · cases h
        refine ⟨hhist, ?_, hnodup, hmem⟩
        intro t ht
        by_cases htv : t.id = v.id
        · exact Or.inl (by simp [htv])
        · rcases hseen t ht with h1 | h1 | h1
          · exact Or.inl (Finset.mem_insert_of_mem h1)
          · exact Or.inr (Or.inl (Finset.mem_erase.2 ⟨htv, h1⟩))
          · exact Or.inr (Or.inr h1)
      · cases h
        exact ⟨hhist, fun _ _ => Or.inr (Or.inr rfl), hnodup, hmem⟩
    · cases h

theorem DispatchInv.along_run {g : Dag} {system : Task → Int} (schedule : List Action) :
    ∀ {s s' : ExecState}, g.ExecInv s → g.DispatchInv s →
      run_from g.tasks_ system schedule s = some s' → g.DispatchInv s' := by
  induction schedule with
  | nil => intro s s' _ d h; cases h; exact d
  | cons a rest ih =>
    intro s s' inv d h
    unfold dagra.run_from at h
    cases hs : dagra.step g.tasks_ system a s with
    | none => rw [hs] at h; cases h
    | some s1 =>
      rw [hs] at h
      exact ih (inv.step hs) (d.preserved inv hs) h

/-- Every state execute mode can reach satisfies the invariant of the history lists. -/
theorem dispatchInv_of_run {g : Dag} {system : Task → Int} {schedule : List Action}
    {s : ExecState} (h : execute_all_run g.tasks_ system schedule = some s) :
    g.DispatchInv s :=
  DispatchInv.along_run schedule (ExecInv.init g) (DispatchInv.at_start g) h

/-- Distinct tasks of the graph have distinct ids. -/
theorem nodup_ids_of_nodup {g : Dag} {l : List Task} (hl : ∀ t ∈ l, t ∈ g.tasks_)
    (hn : l.Nodup) : (l.map Task.id).Nodup :=
  List.Nodup.map_on (fun x hx y hy hxy => task_unique (hl x hx) (hl y hy) hxy) hn

end Dag

/-! ## Execute mode: waves and deadlock -/

namespace Dag

theorem card_lt_of_undone {g : Dag} {c : Finset String} (hc : c ⊆ g.keys.toFinset)
    {t : Task} (ht : t ∈ g.tasks_) (htc : t.id ∉ c) : c.card < g.tasks_.length := by
  have hss : c ⊂ g.keys.toFinset :=
    (Finset.ssubset_iff_of_subset hc).2
      ⟨t.id, List.mem_toFinset.2 (mem_keys.2 ⟨t, ht, rfl⟩), htc⟩
  have := Finset.card_lt_card hss
  rwa [g.card_keys] at this

/-- While a task is running and no failure is recorded, the control loop stays in its
wait. -/
theorem wait_blocked {g : Dag} {s : ExecState} (inv : g.ExecInv s) (hpc : s.pc = .wait)
    (he : s.has_error = false) (hR : s.running ≠ ∅) : control_step g.tasks_ s = none := by
  have hcard : s.completed.card ≠ g.tasks_.length :=
    fun h => hR (inv.all_done (le_of_eq h.symm)).2.1
  obtain ⟨c, R, e, pc, th, disp, invk⟩ := s
  simp only at hpc he hR hcard
  subst hpc he
  simp [control_step, wait_pred, hR, hcard]

/-- With nothing running, no failure and a task that passes the test of the scan, the
control loop leaves its wait, scans and selects exactly the ready tasks. -/
theorem wake_and_scan {g : Dag} (system : Task → Int) {s : ExecState} (inv : g.ExecInv s)
    (hpc : s.pc = .wait) (he : s.has_error = false) (hR : s.running = ∅)
    {t : Task} (ht : t ∈ g.tasks_) (hsel : selectable s.completed s.running t = true) :
    ∃ s', run_from g.tasks_ system [.control, .control, .control] s = some s' ∧
      s'.pc = .spawn (dry_run_scan g.tasks_ s.completed) ∧ t ∈ s'.pc.pending ∧
      t.id ∈ s'.running := by
  obtain ⟨c, R, e, pc, th, disp, invk⟩ := s
  simp only at hpc he hR hsel
  subst hpc he hR
  simp only [selectable, Bool.and_eq_true, decide_eq_true_eq] at hsel
  have hlt : c.card < g.tasks_.length := card_lt_of_undone inv.completed_sub ht hsel.1.1
  have hready : t ∈ dry_run_scan g.tasks_ c :=
    mem_dry_run_scan.2 ⟨ht, hsel.1.1, dependencies_met_iff.1 hsel.2⟩
  have hne : (dry_run_scan g.tasks_ c).isEmpty = false := by
    cases hl : dry_run_scan g.tasks_ c with
    | nil => rw [hl] at hready; simp at hready
    | cons _ _ => rfl
  refine ⟨⟨c, mark_done (dry_run_scan g.tasks_ c) ∅, false,
    .spawn (dry_run_scan g.tasks_ c), th, disp ++ [dry_run_scan g.tasks_ c], invk⟩,
    ?_, rfl, hready, mem_mark_done.2 (Or.inr ⟨t, hready, rfl⟩)⟩
  simp [run_from, step, control_step, wait_pred, hlt,
    exec_scan_eq c g.tasks_ ∅ [] g.nodup_ids, selectable_empty, hne]

/-- The scan that finds no task to start, with none running and tasks undone, records the
error and leaves the loop. -/
theorem scan_deadlock {g : Dag} {s : ExecState} (inv : g.ExecInv s) (hpc : s.pc = .scan)
    (hnone : ∀ t ∈ g.tasks_, selectable s.completed s.running t = false) :
    ∃ s1, control_step g.tasks_ s = some s1 ∧ s1.has_error = true ∧ s1.pc = .loop_exit := by
  obtain ⟨_, _, hlt⟩ := inv.at_scan hpc
  have hR : s.running = ∅ := by
    apply Finset.eq_empty_of_forall_not_mem
    intro x hx
    obtain ⟨t, ht, _⟩ := (inv.running_eq x).1 hx
    have hth := (inv.at_scan hpc).1
    simp [live, hpc, Pc.pending, hth] at ht
  obtain ⟨c, R, e, pc, th, disp, invk⟩ := s
  simp only at hpc hnone hlt hR
  subst hpc hR
  have hnil : g.tasks_.filter (selectable c ∅) = [] := by
    rw [List.filter_eq_nil_iff]
    intro t ht
    simp [hnone t ht]
  refine ⟨⟨c, ∅, true, .loop_exit, th, disp ++ [[]], invk⟩, ?_, rfl, rfl⟩
  simp [control_step, exec_scan_eq c g.tasks_ ∅ [] g.nodup_ids, hnil, mark_done, hlt]

end Dag

/-! ## Lemmas on `execute_all` -/

theorem Runner.execute_all_exec (g : Dag) (system : Task → Int) (schedule : List Action) :
    (Runner.mk g false).execute_all system schedule =
      (execute_all_run g.tasks_ system schedule).map
        (fun s => ⟨exec_result s.pc, ⟨[], none⟩, s.invoked, g⟩) := by
  simp only [Runner.execute_all, Bool.false_eq_true, if_false, Dag.get_all_tasks]
  cases execute_all_run g.tasks_ system schedule <;> rfl

theorem Runner.execute_all_dry_ok (g : Dag) {r : DryRun}
    (hr : execute_all_dry g.tasks_ = .ok r) (system : Task → Int) (schedule : List Action) :
    (Runner.mk g true).execute_all system schedule = some ⟨some (.ok ()), r, [], g⟩ := by
  simp only [Runner.execute_all, if_true, Dag.get_all_tasks, hr]

theorem exec_result_ok {pc : Pc} : exec_result pc = some (.ok ()) ↔ pc = .returned := by
  cases pc <;> simp [exec_result]

/-! ## The claims, continued -/

/-- C13. Plan-mode deadlock report: on every graph, a round whose scan finds no ready
task while tasks remain undone ends the dry run with a deadlock report; a deadlock is
reported exactly when some task was never emitted, and the report names exactly the
tasks that were never emitted, each once; on every graph with a dependency cycle a
deadlock is reported and every task on the cycle is named, as for `t1 → t2`, `t2 → t1`. -/
theorem plan_deadlock_report (g : Dag) :
    (∀ (fuel : Nat) (completed_dry : Finset String),
      completed_dry.card < g.get_all_tasks.length →
      dry_run_scan g.get_all_tasks completed_dry = [] →
      dry_run_loop g.get_all_tasks (fuel + 1) completed_dry =
        .ok ⟨[], some ((g.tasks_.filter
          (fun t => decide (t.id ∉ completed_dry))).map Task.id)⟩) ∧
    (∃ r, execute_all_dry g.get_all_tasks = .ok r ∧
      (r.deadlock.isSome ↔ ∃ t ∈ g.tasks_, t ∉ r.batches.flatten) ∧
      (∀ names, r.deadlock = some names →
        names = (g.tasks_.filter (fun t => decide (t ∉ r.batches.flatten))).map Task.id ∧
          names.Nodup) ∧
      (∀ a, Relation.TransGen g.dep a a → ∃ names, r.deadlock = some names ∧ a ∈ names)) ∧
    execute_all_dry dag_t1_t2.get_all_tasks = .ok ⟨[], some ["t1", "t2"]⟩ := by
  refine ⟨?_, ?_, by decide⟩
  · intro fuel c hlt hscan
    change c.card < g.tasks_.length at hlt
    change dry_run_scan g.tasks_ c = [] at hscan
    change dry_run_loop g.tasks_ (fuel + 1) c = _
    rw [dry_run_loop_succ _ _ _ hlt]
    simp [hscan]
  obtain ⟨r, hr⟩ := g.execute_all_dry_total
  obtain ⟨fuel, hloop⟩ := execute_all_dry_loop hr
  obtain ⟨hsub, _, hdl⟩ := g.dry_run_loop_end fuel ∅ r (by simp) hloop
  have hmem := Dag.batches_mem hloop
  have hfilter : g.tasks_.filter (fun t => decide (t.id ∉ mark_done r.batches.flatten ∅)) =
      g.tasks_.filter (fun t => decide (t ∉ r.batches.flatten)) := by
    apply List.filter_congr
    intro t ht
    simp only [Dag.mem_iff_id_marked hmem ht]
  have hundone : (mark_done r.batches.flatten ∅).card < g.tasks_.length ↔
      ∃ t ∈ g.tasks_, t ∉ r.batches.flatten := by
    constructor
    · intro hlt
      obtain ⟨t, ht, htc⟩ := Dag.exists_undone hlt
      exact ⟨t, ht, fun h => htc ((Dag.mem_iff_id_marked hmem ht).1 h)⟩
    · rintro ⟨t, ht, hte⟩
      have hne : t.id ∉ mark_done r.batches.flatten ∅ :=
        fun h => hte ((Dag.mem_iff_id_marked hmem ht).2 h)
      have hss : mark_done r.batches.flatten ∅ ⊂ g.keys.toFinset :=
        (Finset.ssubset_iff_of_subset hsub).2
          ⟨t.id, List.mem_toFinset.2 (Dag.mem_keys.2 ⟨t, ht, rfl⟩), hne⟩
      have := Finset.card_lt_card hss
      rwa [g.card_keys] at this
  refine ⟨r, hr, ?_, ?_, ?_⟩
  · rw [hdl]
    by_cases hlt : (mark_done r.batches.flatten ∅).card < g.tasks_.length
    · simp only [hlt, if_true, Option.isSome_some, true_iff]
      exact hundone.1 hlt
    · simp only [hlt, if_false, Option.isSome_none, Bool.false_eq_true, false_iff]
      exact fun h => hlt (hundone.2 h)
  · intro names hn
    rw [hdl] at hn
    split at hn
    · cases hn
      refine ⟨by rw [hfilter], ?_⟩
      exact (List.Nodup.sublist (List.Sublist.map _ (List.filter_sublist _)) g.nodup_ids)
    · cases hn
  · intro a hcyc
    obtain ⟨t, ht, rfl⟩ := Dag.mem_keys.1 (Dag.transGen_key hcyc)
    have hfree := g.dry_run_loop_cycle_free fuel ∅ r (by simp) hloop
    have hta : t.id ∉ mark_done r.batches.flatten ∅ := fun h => hfree _ h hcyc
    have hte : t ∉ r.batches.flatten := fun h => hta ((Dag.mem_iff_id_marked hmem ht).1 h)
    have hlt := hundone.2 ⟨t, ht, hte⟩
    refine ⟨_, by rw [hdl, if_pos hlt], ?_⟩
    exact List.mem_map_of_mem _ (List.mem_filter.2 ⟨ht, by simpa using hta⟩)

/-- C15. Every plan-mode batch is the full ready set: on every graph the batch of each
round holds exactly the tasks not emitted before all of whose dependencies were emitted
in earlier rounds, so tasks that become ready together share a round; the first batch,
which exists as soon as some task has no dependency, is exactly the list of the tasks
with an empty dependency list. -/
theorem plan_batches_full (g : Dag) :
    (∃ r, execute_all_dry g.get_all_tasks = .ok r ∧
      (∀ (k : Nat) (batch : List Task), r.batches[k]? = some batch →
        ∀ t, t ∈ batch ↔
          (t ∈ g.tasks_ ∧ t ∉ (r.batches.take k).flatten ∧
            ∀ d ∈ t.dependencies, ∃ u ∈ (r.batches.take k).flatten, u.id = d)) ∧
      (∀ batch, r.batches[0]? = some batch →
        batch = g.tasks_.filter (fun t => t.dependencies.isEmpty)) ∧
      ((∃ t ∈ g.tasks_, t.dependencies = []) → r.batches ≠ [])) ∧
    execute_all_dry dag_xy.get_all_tasks = .ok ⟨[[task_x, task_y]], none⟩ := by
  refine ⟨?_, by decide⟩
  obtain ⟨r, hr⟩ := g.execute_all_dry_total
  obtain ⟨fuel, hloop⟩ := execute_all_dry_loop hr
  have hmem := Dag.batches_mem hloop
  have hbatches := dry_run_loop_batches g.tasks_ fuel ∅ r hloop
  refine ⟨r, hr, ?_, ?_, ?_⟩
  · intro k batch hb t
    have hearlier : ∀ u ∈ (r.batches.take k).flatten, u ∈ g.tasks_ := by
      intro u hu
      obtain ⟨b, hbm, hub⟩ := List.mem_flatten.1 hu
      exact hmem u (List.mem_flatten.2 ⟨b, List.mem_of_mem_take hbm, hub⟩)
    rw [(hbatches k batch hb).1, mem_dry_run_scan]
    constructor
    · rintro ⟨ht, hnot, hdeps⟩
      refine ⟨ht, fun h => hnot ((Dag.mem_iff_id_marked hearlier ht).1 h), ?_⟩
      intro d hd
      rcases mem_mark_done.1 (hdeps d hd) with h | h
      · simp at h
      · exact h
    · rintro ⟨ht, hnot, hdeps⟩
      refine ⟨ht, fun h => hnot ((Dag.mem_iff_id_marked hearlier ht).2 h), ?_⟩
      intro d hd
      exact mem_mark_done.2 (Or.inr (hdeps d hd))
  · intro batch hb
    rw [(hbatches 0 batch hb).1]
    simp only [List.take_zero, List.flatten_nil, mark_done, List.foldl_nil, dry_run_scan,
      dependencies_met]
    apply List.filter_congr
    intro t _
    cases t.dependencies <;> simp
  · rintro ⟨t, ht, htd⟩ hnil
    obtain ⟨_, hscan, _⟩ := g.dry_run_loop_end fuel ∅ r (by simp) hloop
    rw [hnil] at hscan
    simp only [List.flatten_nil, mark_done, List.foldl_nil] at hscan
    have : t ∈ dry_run_scan g.tasks_ ∅ := mem_dry_run_scan.2 ⟨ht, by simp, by simp [htd]⟩
    rw [hscan] at this
    simp at this

/-- C16. On every graph `get_task(id)` returns the task stored under `id` when `id` is a
key, and fails with the task-not-found error exactly when `id` is absent, so on the
empty graph for every `id`. -/
theorem get_task_spec (g : Dag) (id : String) :
    (id ∈ g.keys → ∃ t ∈ g.tasks_, t.id = id ∧ g.get_task id = .ok t) ∧
    (id ∉ g.keys ↔ g.get_task id = .error (.TaskNotFound id)) ∧
    ((∃ e, g.get_task id = .error e) ↔ id ∉ g.keys) ∧
    Dag.empty.get_task id = .error (.TaskNotFound id) := by
  refine ⟨?_, ?_, ?_, rfl⟩
  · intro hk
    obtain ⟨t, ht, rfl⟩ := Dag.mem_keys.1 hk
    exact ⟨t, ht, rfl, Dag.get_task_of_mem ht⟩
  · constructor
    · exact Dag.get_task_of_not_mem
    · exact fun h => (Dag.get_task_error h).2
  · constructor
    · rintro ⟨e, he⟩
      exact (Dag.get_task_error he).2
    · exact fun h => ⟨_, Dag.get_task_of_not_mem h⟩

/-- C17. `add_task` inserts or overwrites by id: for every graph and every task,
whatever its id and dependencies, after `add_task(t)` the call `get_task(t.id)` returns
`t`, `get_task` of every other id gives what it gave before, and the number of tasks
grows by one exactly when `t.id` was not a key and is unchanged otherwise. -/
theorem add_task_spec (g : Dag) (t : Task) :
    (g.add_task t).get_task t.id = .ok t ∧
    (∀ id, id ≠ t.id → (g.add_task t).get_task id = g.get_task id) ∧
    (t.id ∉ g.keys → (g.add_task t).get_all_tasks.length = g.get_all_tasks.length + 1) ∧
    (t.id ∈ g.keys → (g.add_task t).get_all_tasks.length = g.get_all_tasks.length) := by
  refine ⟨?_, ?_, ?_, ?_⟩
  · exact Dag.get_task_of_mem (Dag.mem_add_task.2 (Or.inl rfl))
  · intro id hid
    cases hg : g.get_task id with
    | ok u =>
      obtain ⟨hu, rfl⟩ := Dag.get_task_ok hg
      exact Dag.get_task_of_mem (Dag.mem_add_task.2 (Or.inr ⟨hu, hid⟩))
    | error e =>
      obtain ⟨rfl, hk⟩ := Dag.get_task_error hg
      apply Dag.get_task_of_not_mem
      intro hk'
      obtain ⟨u, hu, rfl⟩ := Dag.mem_keys.1 hk'
      rcases Dag.mem_add_task.1 hu with rfl | ⟨hu, _⟩
      · exact hid rfl
      · exact hk (Dag.mem_keys.2 ⟨u, hu, rfl⟩)
  · intro hk
    simp [Dag.get_all_tasks, Dag.length_add_task, hk]
  · intro hk
    simp [Dag.get_all_tasks, Dag.length_add_task, hk]

/-- C18. The call `validate()` is read-only and idempotent: it leaves the graph as it
was, a second call on the graph it left gives the outcome of the first, on a graph
whose dependencies all exist and that has no cycle both calls return without error, and
whether a call succeeds does not depend on the order in which the map is iterated. -/
theorem validate_idempotent (g : Dag) :
    g.validate_call.1 = g ∧
    g.validate_call.1.validate_call.2 = g.validate_call.2 ∧
    ((∀ t ∈ g.tasks_, ∀ d ∈ t.dependencies, d ∈ g.keys) →
      (∀ a, ¬ Relation.TransGen g.dep a a) →
      g.validate_call.2 = .ok () ∧ g.validate_call.1.validate_call.2 = .ok ()) ∧
    (∀ g' : Dag, g'.tasks_.Perm g.tasks_ →
      (g'.validate_call.2 = .ok () ↔ g.validate_call.2 = .ok ())) := by
  refine ⟨rfl, rfl, ?_, ?_⟩
  · intro hde hac
    have := (Dag.validate_ok_iff g).2 ⟨hde, hac⟩
    exact ⟨this, this⟩
  · intro g' hperm
    have hdep : ∀ a b, g'.dep a b ↔ g.dep a b := by
      intro a b
      simp only [Dag.dep, hperm.mem_iff]
    have hdep' : g'.dep = g.dep := by
      funext a b
      exact propext (hdep a b)
    simp only [Dag.validate_call, Dag.validate_ok_iff, Dag.DepsExist, Dag.Acyclic, Dag.keys,
      hdep', hperm.mem_iff, List.mem_map]

/-- C11. With `p` and `q` independent and `r` depending on `p` only, once `p` has
completed while `q` is still running, `r` passes the test of the scan and no failure is
recorded, yet the control loop is blocked in its wait and does not dispatch `r`; `r` is
selected only by the scan made after `q` has completed as well. -/
theorem ready_task_waits_for_wave :
    execute_all_run dag_pqr.get_all_tasks system_ok schedule_p_done = some state_p_done ∧
      selectable state_p_done.completed state_p_done.running task_r = true ∧
      state_p_done.has_error = false ∧
      control_step dag_pqr.get_all_tasks state_p_done = none ∧
      execute_all_run dag_pqr.get_all_tasks system_ok schedule_pq_done = some state_pq_done ∧
      run_from dag_pqr.get_all_tasks system_ok [.control, .control, .control] state_pq_done =
        some state_r_selected := by
  decide

/-- What the control loop does instead: in every run a scan starts with nothing
running; while the control loop waits with no failure recorded and some task
still running it stays blocked, whatever has become ready; once nothing is running, with
no failure recorded and a task ready, the control loop leaves its wait, performs a new
scan and selects exactly the ready tasks, that task among them. -/
theorem dispatch_in_waves (g : Dag) (system : Task → Int) (schedule : List Action)
    (s : ExecState) (hs : execute_all_run g.get_all_tasks system schedule = some s) :
    (s.pc = .scan → s.running = ∅ ∧ s.threads = []) ∧
    (s.pc = .wait → s.has_error = false → s.running ≠ ∅ →
      control_step g.get_all_tasks s = none) ∧
    (s.pc = .wait → s.has_error = false → s.running = ∅ →
      ∀ t ∈ g.tasks_, selectable s.completed s.running t = true →
        ∃ s', run_from g.get_all_tasks system [.control, .control, .control] s = some s' ∧
          s'.pc = .spawn (dry_run_scan g.get_all_tasks s.completed) ∧
          t ∈ s'.pc.pending ∧ t.id ∈ s'.running) := by
  have inv := Dag.execInv_of_run hs
  refine ⟨?_, ?_, ?_⟩
  · intro hpc
    have hth := (inv.at_scan hpc).1
    refine ⟨?_, hth⟩
    apply Finset.eq_empty_of_forall_not_mem
    intro x hx
    obtain ⟨t, ht, _⟩ := (inv.running_eq x).1 hx
    simp [Dag.live, hpc, Pc.pending, hth] at ht
  · exact fun hpc he hR => Dag.wait_blocked inv hpc he hR
  · exact fun hpc he hR t ht hsel => Dag.wake_and_scan system inv hpc he hR ht hsel

theorem dispatch_in_waves_witness :
    state_p_done.pc = .wait ∧ state_p_done.has_error = false ∧ state_p_done.running ≠ ∅ ∧
      control_step dag_pqr.get_all_tasks state_p_done = none :=
  ⟨rfl, rfl, by decide,
    (dispatch_in_waves dag_pqr system_ok schedule_p_done state_p_done (by decide)).2.1
      rfl rfl (by decide)⟩

/-- C12. No double dispatch in execute mode: in every run the tasks selected by the
scans so far have pairwise distinct ids, they are the tasks whose command was invoked
followed by those still to be launched, so no command was invoked twice; and a step
either leaves the list of dispatches alone or is a scan, whose selected tasks go into
`running` in that same step and were neither in `running` nor in `completed`. -/
theorem no_double_dispatch (g : Dag) (system : Task → Int) (schedule : List Action)
    (s : ExecState) (hs : execute_all_run g.get_all_tasks system schedule = some s) :
    (s.dispatched.flatten.map Task.id).Nodup ∧
    (s.invoked.map Task.id).Nodup ∧
    s.dispatched.flatten = s.invoked ++ s.pc.pending ∧
    ∀ (a : Action) (s' : ExecState), step g.get_all_tasks system a s = some s' →
      s'.dispatched = s.dispatched ∨
        ∃ ready, s.pc = .scan ∧ s'.dispatched = s.dispatched ++ [ready] ∧
          ∀ t ∈ ready, t ∈ g.tasks_ ∧ t.id ∈ s'.running ∧ t.id ∉ s.running ∧
            t.id ∉ s.completed := by
  have d := Dag.dispatchInv_of_run hs
  have hids := Dag.nodup_ids_of_nodup d.mem d.nodup
  refine ⟨hids, ?_, d.hist, fun a s' h => Dag.dispatched_step h⟩
  rw [d.hist, List.map_append] at hids
  exact (List.nodup_append.1 hids).1

theorem no_double_dispatch_witness :
    (state_chain_done.dispatched.flatten.map Task.id).Nodup ∧
      (state_chain_done.invoked.map Task.id).Nodup :=
  ⟨(no_double_dispatch dag_chain system_ok schedule_chain state_chain_done (by decide)).1,
    (no_double_dispatch dag_chain system_ok schedule_chain state_chain_done (by decide)).2.1⟩

/-- C14 (the code at the failing input). In dry-run mode, on the cyclic graph `t1 → t2`,
`t2 → t1`, `execute_all` reports the deadlock, naming `t1` and `t2`, and then returns
normally; in normal mode, on the same graph, it throws. -/
theorem dry_run_deadlock_returns :
    ((Runner.mk dag_t1_t2 true).execute_all system_ok []).map
        (fun rep => (rep.result, rep.plan.deadlock)) =
      some (some (.ok ()), some ["t1", "t2"]) ∧
    ((Runner.mk dag_t1_t2 false).execute_all system_ok [.control, .control, .control]).map
        (fun rep => rep.result) =
      some (some (.error .ExecutionHalted)) := by
  decide

/-- In normal mode `execute_all` raises an error whenever a deadlock is detected: when the
scan finds no task to start while none is running and tasks remain undone, it records
the error and leaves the loop, the next step of the control loop is the `throw`, and no
continuation of the run is a normal return.  In dry-run mode `execute_all` returns
normally on every graph, whether a deadlock was reported or not. -/
theorem deadlock_raises (g : Dag) (system : Task → Int) (schedule : List Action)
    (s : ExecState) (hs : execute_all_run g.get_all_tasks system schedule = some s)
    (hpc : s.pc = .scan)
    (hnone : ∀ t ∈ g.tasks_, selectable s.completed s.running t = false) :
    (∃ s1, control_step g.get_all_tasks s = some s1 ∧ s1.has_error = true ∧
      s1.pc = .loop_exit ∧
      (∃ s2, control_step g.get_all_tasks s1 = some s2 ∧ s2.pc = .thrown) ∧
      ∀ (later : List Action) (s' : ExecState),
        run_from g.get_all_tasks system later s1 = some s' → s'.pc ≠ .returned) ∧
    (∀ (later : List Action) (rep : Report),
      (Runner.mk g false).execute_all system (schedule ++ .control :: later) = some rep →
        rep.result ≠ some (.ok ())) ∧
    ∃ plan, (Runner.mk g true).execute_all system schedule =
      some ⟨some (.ok ()), plan, [], g⟩ := by
  have inv := Dag.execInv_of_run hs
  obtain ⟨s1, hs1, he1, hpc1⟩ := Dag.scan_deadlock inv hpc hnone
  have inv1 := inv.control hs1
  have hlater : ∀ (later : List Action) (s' : ExecState),
      run_from g.get_all_tasks system later s1 = some s' → s'.pc ≠ .returned :=
    fun later s' h => (Dag.error_sticky_run later inv1 he1 h).2.2
  refine ⟨⟨s1, hs1, he1, hpc1, ?_, hlater⟩, ?_, ?_⟩
  · obtain ⟨c, R, e, pc, th, disp, invk⟩ := s1
    simp only at he1 hpc1
    subst he1 hpc1
    exact ⟨_, rfl, rfl⟩
  · intro later rep hrep
    rw [Runner.execute_all_exec, execute_all_run, run_from_append] at hrep
    have hs' : run_from g.tasks_ system schedule (exec_init g.tasks_) = some s := hs
    have hs1' : step g.tasks_ system .control s = some s1 := hs1
    rw [hs', Option.some_bind, run_from, hs1'] at hrep
    simp only at hrep
    cases hfin : run_from g.tasks_ system later s1 with
    | none => rw [hfin] at hrep; cases hrep
    | some s' =>
      rw [hfin] at hrep
      cases hrep
      exact fun h => hlater later s' hfin (exec_result_ok.1 h)
  · obtain ⟨r, hr⟩ := g.execute_all_dry_total
    exact ⟨r, Runner.execute_all_dry_ok g hr system schedule⟩

theorem deadlock_raises_witness :
    ∃ s1, control_step dag_t1_t2.get_all_tasks state_t1_t2_scan = some s1 ∧
      s1.has_error = true ∧ s1.pc = .loop_exit ∧
      (∃ s2, control_step dag_t1_t2.get_all_tasks s1 = some s2 ∧ s2.pc = .thrown) ∧
      ∀ (later : List Action) (s' : ExecState),
        run_from dag_t1_t2.get_all_tasks system_ok later s1 = some s' → s'.pc ≠ .returned :=
  (deadlock_raises dag_t1_t2 system_ok [.control] state_t1_t2_scan (by decide) rfl
    (by decide)).1

/-- C19. For the empty graph, the only graph with zero tasks, `execute_all` returns
without error in plan mode and in execute mode alike: it emits no plan step, reports no deadlock and hands no command to
`std::system`; in execute mode no step is ever taken, so no task is dispatched. -/
theorem empty_graph_succeeds (dry_run : Bool) (system : Task → Int) :
    (∀ g : Dag, g.get_all_tasks.length = 0 → g = Dag.empty) ∧
    (Runner.mk Dag.empty dry_run).execute_all system [] =
      some ⟨some (.ok ()), ⟨[], none⟩, [], Dag.empty⟩ ∧
    (∀ (schedule : List Action) (rep : Report),
      (Runner.mk Dag.empty dry_run).execute_all system schedule = some rep →
        rep.result = some (.ok ()) ∧ rep.plan.steps = [] ∧ rep.plan.deadlock = none ∧
          rep.invoked = []) ∧
    ∀ (schedule : List Action) (s : ExecState),
      execute_all_run Dag.empty.get_all_tasks system schedule = some s →
        schedule = [] ∧ s.pc = .returned ∧ s.has_error = false ∧ s.dispatched = [] ∧
          s.invoked = [] ∧ s.threads = [] := by
  have hrun : ∀ (schedule : List Action) (s : ExecState),
      execute_all_run Dag.empty.get_all_tasks system schedule = some s →
        schedule = [] ∧ s = exec_init [] := by
    intro schedule s h
    cases schedule with
    | nil => cases h; exact ⟨rfl, rfl⟩
    | cons a rest =>
      exfalso
      cases a <;>
        simp [execute_all_run, run_from, step, control_step, thread_step, exec_init,
          Dag.get_all_tasks, Dag.empty] at h
  refine ⟨?_, ?_, ?_, ?_⟩
  · rintro ⟨ts, hts⟩ hl
    have hnil : ts = [] := List.length_eq_zero.1 hl
    subst hnil
    rfl
  · cases dry_run <;> rfl
  · intro schedule rep h
    cases dry_run with
    | true =>
      rw [@Runner.execute_all_dry_ok Dag.empty ⟨[], none⟩ rfl] at h
      cases h
      exact ⟨rfl, rfl, rfl, rfl⟩
    | false =>
      rw [Runner.execute_all_exec] at h
      cases hx : execute_all_run Dag.empty.tasks_ system schedule with
      | none => rw [hx] at h; cases h
      | some s =>
        rw [hx] at h
        cases h
        obtain ⟨_, rfl⟩ := hrun schedule s hx
        exact ⟨rfl, rfl, rfl, rfl⟩
  · intro schedule s h
    obtain ⟨h1, rfl⟩ := hrun schedule s h
    exact ⟨h1, rfl, rfl, rfl, rfl, rfl⟩

/-- C20. Plan mode is free of side effects beyond reporting: on every graph a dry run
returns normally having handed no command to `std::system`, the graph after the call is
the graph before it, and what the call does depends neither on what the commands would
return nor on any schedule. -/
theorem dry_run_no_side_effect (g : Dag) (system system' : Task → Int)
    (schedule schedule' : List Action) :
    ∃ rep, (Runner.mk g true).execute_all system schedule = some rep ∧
      rep.result = some (.ok ()) ∧ rep.invoked = [] ∧ rep.dag_ = g ∧
      (Runner.mk g true).execute_all system' schedule' = some rep := by
  obtain ⟨r, hr⟩ := g.execute_all_dry_total
  have h : ∀ (sys : Task → Int) (sch : List Action),
      (Runner.mk g true).execute_all sys sch = some ⟨some (.ok ()), r, [], g⟩ := by
    exact fun sys sch => Runner.execute_all_dry_ok g hr sys sch
  exact ⟨_, h system schedule, rfl, rfl, rfl, h system' schedule'⟩

/-! ## Lemmas on `parse_args` -/

theorem dry_run_flag_not_path : is_config_path "--dry-run" = false := by decide

/-- What the loop of `parse_args` computes: the first configuration path unless one was
found before, and whether the flag occurs. -/
theorem parse_args_loop_spec (args : List String) :
    ∀ (options : AppOptions) (config_found : Bool),
      parse_args_loop args options config_found =
        (⟨if config_found = true then options.config_filepath
            else (args.find? is_config_path).getD options.config_filepath,
          options.dry_run || decide ("--dry-run" ∈ args)⟩,
          config_found || (args.find? is_config_path).isSome) := by
  induction args with
  | nil =>
    intro options config_found
    cases config_found <;> simp [parse_args_loop]
  | cons arg rest ih =>
    intro options config_found
    unfold parse_args_loop
    by_cases hflag : arg = "--dry-run"
    · subst hflag
      simp only [if_true, ih, List.find?_cons, dry_run_flag_not_path, List.mem_cons, true_or,
        decide_True, Bool.or_true, Bool.true_or]
    · have hne : ¬ "--dry-run" = arg := fun h => hflag h.symm
      simp only [hflag, if_false]
      by_cases hcond : config_found = false ∧ arg ≠ "" ∧ starts_with_dashes arg = false
      · obtain ⟨hf, hn, hd⟩ := hcond
        subst hf
        have hp : is_config_path arg = true := by simp [is_config_path, hn, hd]
        simp [hn, hd, ih, List.find?_cons, hp, hne]
      · simp only [hcond, if_false, ih]
        cases config_found with
        | true => simp [hne]
        | false =>
          have hp : is_config_path arg = false := by
            simp only [true_and, not_and, Bool.not_eq_false] at hcond
            by_cases hn : arg = ""
            · simp [is_config_path, hn]
            · simp [is_config_path, hcond hn]
          simp [List.find?_cons, hp, hne]

theorem is_config_path_ne_empty {arg : String} (h : is_config_path arg = true) : arg ≠ "" := by
  simp only [is_config_path, Bool.and_eq_true, decide_eq_true_eq] at h
  exact h.1

/-! ## Lemmas on the deadlock report and the number of rounds -/

namespace Dag

/-- A deadlock is reported exactly when some task was never emitted. -/
theorem deadlock_iff_undone {g : Dag} {fuel : Nat} {r : DryRun}
    (hloop : dry_run_loop g.tasks_ fuel ∅ = .ok r) :
    r.deadlock.isSome ↔ ∃ t ∈ g.tasks_, t ∉ r.batches.flatten := by
  obtain ⟨hsub, _, hdl⟩ := g.dry_run_loop_end fuel ∅ r (by simp) hloop
  have hmem := batches_mem hloop
  rw [hdl]
  by_cases hlt : (mark_done r.batches.flatten ∅).card < g.tasks_.length
  · simp only [hlt, if_true, Option.isSome_some, true_iff]
    obtain ⟨t, ht, htc⟩ := exists_undone hlt
    exact ⟨t, ht, fun h => htc ((mem_iff_id_marked hmem ht).1 h)⟩
  · simp only [hlt, if_false, Option.isSome_none, Bool.false_eq_true, false_iff]
    rintro ⟨t, ht, hte⟩
    exact hlt (card_lt_of_undone hsub ht
      (fun h => hte ((mem_iff_id_marked hmem ht).2 h)))

/-- Every emitting round enlarges the set of done ids, so the rounds are bounded by what
is left to do. -/
theorem dry_run_loop_rounds (g : Dag) (fuel : Nat) :
    ∀ (c : Finset String) (r : DryRun), c ⊆ g.keys.toFinset →
      dry_run_loop g.tasks_ fuel c = .ok r →
      r.batches.length + c.card ≤ g.tasks_.length := by
  induction fuel with
  | zero =>
    intro c r hc h
    rw [dry_run_loop] at h
    split at h
    · cases h
    · cases h
      have := Finset.card_le_card hc
      rw [g.card_keys] at this
      simpa using this
  | succ fuel ih =>
    intro c r hc h
    have hcard : c.card ≤ g.tasks_.length := by
      have := Finset.card_le_card hc
      rwa [g.card_keys] at this
    by_cases hlt : c.card < g.tasks_.length
    · rw [dry_run_loop_succ _ _ _ hlt] at h
      split at h
      · cases h; simpa using hcard
      · rename_i hne
        cases hrec : dry_run_loop g.tasks_ fuel (mark_done (dry_run_scan g.tasks_ c) c) with
        | error e => rw [hrec] at h; cases h
        | ok r' =>
          rw [hrec] at h
          cases h
          have h1 := ih _ r' (mark_done_subset_keys hc) hrec
          have h2 : c.card < (mark_done (dry_run_scan g.tasks_ c) c).card :=
            card_mark_done_lt (fun hnil => hne (by simp [hnil]))
          simp only [List.length_cons]
          omega
    · rw [dry_run_loop_done _ _ _ hlt] at h
      cases h; simpa using hcard

end Dag

/-! ## Lemmas on the search with its list of entries -/

namespace Dag

/-- Dropping the list of entries gives back the loop `detect_cycle_deps`. -/
theorem detect_cycle_deps_trace_snd
    (visit_t : String → Finset String → Finset String → List String →
      List String × Except Error (Finset String × Finset String))
    (visit : String → Finset String → Finset String →
      Except Error (Finset String × Finset String))
    (h : ∀ d V S L, (visit_t d V S L).2 = visit d V S) (ds : List String) :
    ∀ (V S : Finset String) (L : List String),
      (detect_cycle_deps_trace visit_t ds V S L).2 = detect_cycle_deps visit ds V S := by
  induction ds with
  | nil => intro V S L; rfl
  | cons d rest ih =>
    intro V S L
    unfold detect_cycle_deps_trace detect_cycle_deps
    by_cases hS : d ∈ S
    · simp only [hS, if_true]
    · simp only [hS, if_false]
      by_cases hV : d ∈ V
      · simp only [hV, not_true_eq_false, if_false]
        exact ih V S L
      · simp only [hV, not_false_eq_true, if_true]
        have hd := h d V S L
        cases hv : visit_t d V S L with
        | mk L1 res =>
          rw [hv] at hd
          simp only at hd
          rw [← hd]
          cases res with
          | error e => rfl
          | ok r =>
            obtain ⟨v, s⟩ := r
            exact ih v s L1

theorem detect_cycle_util_trace_snd (g : Dag) (fuel : Nat) :
    ∀ (a : String) (V S : Finset String) (L : List String),
      (g.detect_cycle_util_trace fuel a V S L).2 = g.detect_cycle_util fuel a V S := by
  induction fuel with
  | zero => intro a V S L; rfl
  | succ fuel ih =>
    intro a V S L
    unfold detect_cycle_util_trace detect_cycle_util
    simp only
    cases g.get_task a with
    | error e => rfl
    | ok task =>
      simp only
      have hd := detect_cycle_deps_trace_snd (g.detect_cycle_util_trace fuel)
        (g.detect_cycle_util fuel) ih task.dependencies (insert a V) (insert a S) (L ++ [a])
      cases hv : detect_cycle_deps_trace (g.detect_cycle_util_trace fuel) task.dependencies
          (insert a V) (insert a S) (L ++ [a]) with
      | mk L1 res =>
        rw [hv] at hd
        simp only at hd
        rw [← hd]
        cases res with
        | error e => rfl
        | ok r =>
          obtain ⟨v, s⟩ := r
          rfl

theorem validate_loop_trace_snd (g : Dag) (ts : List Task) :
    ∀ (V S : Finset String) (L : List String),
      (g.validate_loop_trace ts V S L).2 = g.validate_loop ts V S := by
  induction ts with
  | nil => intro V S L; rfl
  | cons t rest ih =>
    intro V S L
    unfold validate_loop_trace validate_loop
    cases t.dependencies.find? (fun dep => !g.contains dep) with
    | some d => rfl
    | none =>
      simp only
      by_cases hV : t.id ∈ V
      · simp only [hV, if_true]
        exact ih V S L
      · simp only [hV, if_false]
        have hd := g.detect_cycle_util_trace_snd (g.tasks_.length + 1) t.id V S L
        cases hv : g.detect_cycle_util_trace (g.tasks_.length + 1) t.id V S L with
        | mk L1 res =>
          rw [hv] at hd
          simp only at hd
          rw [← hd]
          cases res with
          | error e => rfl
          | ok r =>
            obtain ⟨v, s⟩ := r
            exact ih v s L1

/-- The loop over the dependencies keeps the list of entries free of repetitions and
inside the visited set, which only grows. -/
theorem detect_cycle_deps_trace_nodup
    (visit_t : String → Finset String → Finset String → List String →
      List String × Except Error (Finset String × Finset String))
    (hvisit : ∀ d V S L, L.Nodup → (∀ x ∈ L, x ∈ V) → d ∉ V →
      (visit_t d V S L).1.Nodup ∧
        ∀ V' S', (visit_t d V S L).2 = .ok (V', S') →
          V ⊆ V' ∧ ∀ x ∈ (visit_t d V S L).1, x ∈ V')
    (ds : List String) :
    ∀ (V S : Finset String) (L : List String), L.Nodup → (∀ x ∈ L, x ∈ V) →
      (detect_cycle_deps_trace visit_t ds V S L).1.Nodup ∧
        ∀ V' S', (detect_cycle_deps_trace visit_t ds V S L).2 = .ok (V', S') →
          V ⊆ V' ∧ ∀ x ∈ (detect_cycle_deps_trace visit_t ds V S L).1, x ∈ V' := by
  induction ds with
  | nil =>
    intro V S L hn hL
    refine ⟨hn, ?_⟩
    intro V' S' h
    simp only [detect_cycle_deps_trace, Except.ok.injEq, Prod.mk.injEq] at h
    obtain ⟨rfl, _⟩ := h
    exact ⟨Finset.Subset.refl _, hL⟩
  | cons d rest ih =>
    intro V S L hn hL
    unfold detect_cycle_deps_trace
    by_cases hS : d ∈ S
    · simp only [hS, if_true]
      exact ⟨hn, fun V' S' h => by cases h⟩
    · simp only [hS, if_false]
      by_cases hV : d ∈ V
      · simp only [hV, not_true_eq_false, if_false]
        exact ih V S L hn hL
      · simp only [hV, not_false_eq_true, if_true]
        have hd := hvisit d V S L hn hL hV
        cases hv : visit_t d V S L with
        | mk L1 res =>
          rw [hv] at hd
          simp only at hd
          cases res with
          | error e => exact ⟨hd.1, fun V' S' h => by cases h⟩
          | ok r =>
            obtain ⟨v, s⟩ := r
            obtain ⟨hsub, hL1⟩ := hd.2 v s rfl
            have := ih v s L1 hd.1 hL1
            exact ⟨this.1, fun V' S' h => ⟨hsub.trans (this.2 V' S' h).1, (this.2 V' S' h).2⟩⟩

/-- The search is entered on an id at most once: started on an id that is not visited,
with entries that are all visited and pairwise distinct, it keeps them so. -/
theorem detect_cycle_util_trace_nodup (g : Dag) (fuel : Nat) :
    ∀ (a : String) (V S : Finset String) (L : List String), L.Nodup →
      (∀ x ∈ L, x ∈ V) → a ∉ V →
      (g.detect_cycle_util_trace fuel a V S L).1.Nodup ∧
        ∀ V' S', (g.detect_cycle_util_trace fuel a V S L).2 = .ok (V', S') →
          V ⊆ V' ∧ ∀ x ∈ (g.detect_cycle_util_trace fuel a V S L).1, x ∈ V' := by
  induction fuel with
  | zero =>
    intro a V S L hn _ _
    exact ⟨hn, fun V' S' h => by cases h⟩
  | succ fuel ih =>
    intro a V S L hn hL ha
    have hn' : (L ++ [a]).Nodup := by
      rw [List.nodup_append]
      refine ⟨hn, by simp, ?_⟩
      intro x hx hx'
      simp only [List.mem_singleton] at hx'
      subst hx'
      exact ha (hL x hx)
    have hL' : ∀ x ∈ L ++ [a], x ∈ insert a V := by
      intro x hx
      rcases List.mem_append.1 hx with h | h
      · exact Finset.mem_insert_of_mem (hL x h)
      · simp only [List.mem_singleton] at h
        subst h
        exact Finset.mem_insert_self _ _
    unfold detect_cycle_util_trace
    simp only
    cases g.get_task a with
    | error e => exact ⟨hn', fun V' S' h => by cases h⟩
    | ok task =>
      simp only
      have hd := detect_cycle_deps_trace_nodup (g.detect_cycle_util_trace fuel) ih
        task.dependencies (insert a V) (insert a S) (L ++ [a]) hn' hL'
      cases hv : detect_cycle_deps_trace (g.detect_cycle_util_trace fuel) task.dependencies
          (insert a V) (insert a S) (L ++ [a]) with
      | mk L1 res =>
        rw [hv] at hd
        simp only at hd
        cases res with
        | error e => exact ⟨hd.1, fun V' S' h => by cases h⟩
        | ok r =>
          obtain ⟨v, s⟩ := r
          refine ⟨hd.1, ?_⟩
          intro V' S' h
          simp only [Except.ok.injEq, Prod.mk.injEq] at h
          obtain ⟨rfl, _⟩ := h
          obtain ⟨hsub, hL1⟩ := hd.2 v s rfl
          exact ⟨(Finset.subset_insert a V).trans hsub, hL1⟩

theorem validate_loop_trace_nodup (g : Dag) (ts : List Task) :
    ∀ (V S : Finset String) (L : List String), L.Nodup → (∀ x ∈ L, x ∈ V) →
      (g.validate_loop_trace ts V S L).1.Nodup := by
  induction ts with
  | nil => intro V S L hn _; exact hn
  | cons t rest ih =>
    intro V S L hn hL
    unfold validate_loop_trace
    cases t.dependencies.find? (fun dep => !g.contains dep) with
    | some d => exact hn
    | none =>
      simp only
      by_cases hV : t.id ∈ V
      · simp only [hV, if_true]
        exact ih V S L hn hL
      · simp only [hV, if_false]
        have hd := g.detect_cycle_util_trace_nodup (g.tasks_.length + 1) t.id V S L hn hL hV
        cases hv : g.detect_cycle_util_trace (g.tasks_.length + 1) t.id V S L with
        | mk L1 res =>
          rw [hv] at hd
          simp only at hd
          cases res with
          | error e => exact hd.1
          | ok r =>
            obtain ⟨v, s⟩ := r
            exact ih v s L1 hd.1 (hd.2 v s rfl).2

/-- On normal return the loop over the dependencies leaves the stack as it was and the
visited set no smaller. -/
theorem detect_cycle_deps_stack
    (visit : String → Finset String → Finset String →
      Except Error (Finset String × Finset String))
    (hvisit : ∀ d V S V' S', S ⊆ V → d ∉ V → visit d V S = .ok (V', S') →
      S' = S ∧ V ⊆ V' ∧ d ∈ V')
    (ds : List String) :
    ∀ (V S V' S' : Finset String), S ⊆ V → detect_cycle_deps visit ds V S = .ok (V', S') →
      S' = S ∧ V ⊆ V' := by
  induction ds with
  | nil =>
    intro V S V' S' _ h
    simp only [detect_cycle_deps, Except.ok.injEq, Prod.mk.injEq] at h
    exact ⟨h.2.symm, h.1 ▸ Finset.Subset.refl _⟩
  | cons d rest ih =>
    intro V S V' S' hSV h
    unfold detect_cycle_deps at h
    by_cases hS : d ∈ S
    · simp only [hS, if_true] at h
      cases h
    · simp only [hS, if_false] at h
      by_cases hV : d ∈ V
      · simp only [hV, not_true_eq_false, if_false] at h
        exact ih V S V' S' hSV h
      · simp only [hV, not_false_eq_true, if_true] at h
        cases hv : visit d V S with
        | error e => rw [hv] at h; cases h
        | ok r =>
          obtain ⟨v, s⟩ := r
          rw [hv] at h
          simp only at h
          obtain ⟨rfl, hsub, _⟩ := hvisit d V S v s hSV hV hv
          obtain ⟨h1, h2⟩ := ih v s V' S' (hSV.trans hsub) h
          exact ⟨h1, hsub.trans h2⟩

/-- On normal return the search leaves the stack as it was, has kept every visited id
and has added the id it was entered on. -/
theorem detect_cycle_util_stack (g : Dag) (fuel : Nat) :
    ∀ (a : String) (V S V' S' : Finset String), S ⊆ V → a ∉ V →
      g.detect_cycle_util fuel a V S = .ok (V', S') → S' = S ∧ V ⊆ V' ∧ a ∈ V' := by
  induction fuel with
  | zero => intro a V S V' S' _ _ h; cases h
  | succ fuel ih =>
    intro a V S V' S' hSV ha h
    unfold detect_cycle_util at h
    simp only at h
    cases hg : g.get_task a with
    | error e => rw [hg] at h; cases h
    | ok task =>
      rw [hg] at h
      simp only at h
      cases hv : detect_cycle_deps (g.detect_cycle_util fuel) task.dependencies
          (insert a V) (insert a S) with
      | error e => rw [hv] at h; cases h
      | ok r =>
        obtain ⟨v, s⟩ := r
        rw [hv] at h
        simp only [Except.ok.injEq, Prod.mk.injEq] at h
        obtain ⟨rfl, rfl⟩ := h
        obtain ⟨rfl, hsub⟩ := detect_cycle_deps_stack (g.detect_cycle_util fuel) ih
          task.dependencies (insert a V) (insert a S) v s (Finset.insert_subset_insert a hSV) hv
        refine ⟨Finset.erase_insert (fun h => ha (hSV h)),
          (Finset.subset_insert a V).trans hsub, hsub (Finset.mem_insert_self _ _)⟩

end Dag

/-! ## Execute mode against the plan: lemmas -/

theorem flatten_filter_nonempty (l : List (List Task)) :
    (l.filter (fun ready => !ready.isEmpty)).flatten = l.flatten := by
  induction l with
  | nil => rfl
  | cons b rest ih =>
    cases b with
    | nil => simpa [List.filter_cons] using ih
    | cons x xs => simp [List.filter_cons, ih]

theorem getElem?_append_cons {α : Type} (l : List α) (b : α) (rest : List α) :
    (l ++ b :: rest)[l.length]? = some b := by
  induction l with
  | nil => simp
  | cons x xs ih => simpa using ih

theorem waves_flatten (s : ExecState) : (waves s).flatten = s.dispatched.flatten :=
  flatten_filter_nonempty s.dispatched

namespace Dag

theorem WaveInv.at_begin (g : Dag) (r : DryRun) : g.WaveInv r (exec_init g.tasks_) := by
  constructor
  · exact ⟨r.batches, by simp [waves, exec_init]⟩
  · intro h; cases h
  · intro t ht; simp [exec_init] at ht
  · intro x hx; simp [exec_init] at hx

/-- At a scan of a run without failure `completed` holds exactly the ids of the tasks
dispatched so far. -/
theorem completed_eq_dispatched {g : Dag} {r : DryRun} {s : ExecState} (inv : g.ExecInv s)
    (d : g.DispatchInv s) (w : g.WaveInv r s) (hpc : s.pc = .scan) :
    s.completed = mark_done (waves s).flatten ∅ := by
  obtain ⟨hth, he, _⟩ := inv.at_scan hpc
  have hR : ∀ x, x ∉ s.running := by
    intro x hx
    obtain ⟨t, ht, _⟩ := (inv.running_eq x).1 hx
    simp [live, hpc, Pc.pending, hth] at ht
  have hhist : s.dispatched.flatten = s.invoked := by
    have := d.hist
    simpa [hpc, Pc.pending] using this
  ext x
  rw [waves_flatten, mem_mark_done]
  constructor
  · intro hx
    obtain ⟨t, ht, hid⟩ := w.completed_invoked x hx
    exact Or.inr ⟨t, hhist ▸ ht, hid⟩
  · rintro (hx | ⟨t, ht, rfl⟩)
    · simp at hx
    · rcases d.seen t ht with h1 | h1 | h1
      · exact h1
      · exact absurd h1 (hR _)
      · rw [he] at h1; cases h1

/-- Every step of a run whose commands all succeed keeps the tie to the plan. -/
theorem WaveInv.step_kept {g : Dag} {r : DryRun} {fuel : Nat}
    (hloop : dry_run_loop g.tasks_ fuel ∅ = .ok r)
    {system : Task → Int} (h0 : ∀ t ∈ g.tasks_, system t = 0)
    {a : Action} {s s' : ExecState} (inv : g.ExecInv s) (d : g.DispatchInv s)
    (w : g.WaveInv r s) (h : dagra.step g.tasks_ system a s = some s') :
    g.WaveInv r s' := by
  have hcompl := fun hpc => completed_eq_dispatched inv d w hpc
  obtain ⟨c, R, e, pc, th, disp, invk⟩ := s
  have hplan := w.plan
  have hstuck := w.stuck
  have hti := w.threads_invoked
  have hci := w.completed_invoked
  simp only [waves] at hplan hstuck hcompl
  simp only at hti hci hstuck hcompl
  cases a with
  | control =>
    simp only [dagra.step] at h
    cases pc with
    | loop_test =>
      simp only [control_step] at h
      split at h <;> cases h <;> exact ⟨hplan, hstuck, hti, hci⟩
    | scan =>
      obtain ⟨hth, he, hlt⟩ := inv.at_scan rfl
      simp only at hth he hlt
      subst hth he
      have hR : R = ∅ := by
        apply Finset.eq_empty_of_forall_not_mem
        intro x hx
        obtain ⟨t, ht, _⟩ := (inv.running_eq x).1 hx
        simp [live, Pc.pending] at ht
      subst hR
      have hc := hcompl rfl
      simp only [control_step, exec_scan_eq c g.tasks_ ∅ [] g.nodup_ids, List.nil_append,
        selectable_empty] at h
      split at h
      · rename_i hdead
        cases h
        have hnil : dry_run_scan g.tasks_ c = [] := by simpa using hdead.1
        refine ⟨?_, ?_, hti, hci⟩
        · simpa [waves, List.filter_append, hnil] using hplan
        · intro _
          have hw : (disp ++ [dry_run_scan g.tasks_ c]).filter (fun ready => !ready.isEmpty) =
              disp.filter (fun ready => !ready.isEmpty) := by
            simp [List.filter_append, hnil]
          simp only [waves]
          rw [hw, ← hc]
          exact hnil
      · rename_i hnd
        cases h
        have hne : dry_run_scan g.tasks_ c ≠ [] := by
          intro hnil
          apply hnd
          refine ⟨by simp [hnil], by simp [hnil, mark_done], hlt⟩
        have hemp : (dry_run_scan g.tasks_ c).isEmpty = false := by
          cases hl : dry_run_scan g.tasks_ c with
          | nil => exact absurd hl hne
          | cons _ _ => rfl
        refine ⟨?_, ?_, hti, hci⟩
        · obtain ⟨rest, hrest⟩ := hplan
          simp only [waves, List.filter_append, List.filter_cons, hemp, Bool.not_false,
            if_true, List.filter_nil]
          cases rest with
          | nil =>
            exfalso
            have hend := (g.dry_run_loop_end fuel ∅ r (by simp) hloop).2.1
            rw [hrest, List.append_nil, ← hc] at hend
            exact hne hend
          | cons b rest' =>
            have hb := (dry_run_loop_batches g.tasks_ fuel ∅ r hloop
              (disp.filter (fun ready => !ready.isEmpty)).length b
              (by rw [hrest]; exact getElem?_append_cons _ _ _)).1
            rw [hrest, List.take_left', ← hc] at hb
            · exact ⟨rest', by rw [hrest, hb]; simp⟩
            · rfl
        · intro he
          cases he
    | spawn ready =>
      cases ready with
      | nil =>
        simp only [control_step] at h
        cases h
        exact ⟨hplan, hstuck, hti, hci⟩
      | cons v rest =>
        simp only [control_step] at h
        cases h
        refine ⟨hplan, hstuck, ?_, ?_⟩
        · intro t ht
          rcases List.mem_append.1 ht with h1 | h1
          · exact List.mem_append_left _ (hti t h1)
          · exact List.mem_append_right _ h1
        · intro x hx
          obtain ⟨t, ht, hid⟩ := hci x hx
          exact ⟨t, List.mem_append_left _ ht, hid⟩
    | wait =>
      simp only [control_step] at h
      split at h
      · cases h
        exact ⟨hplan, hstuck, hti, hci⟩
      · cases h
    | loop_exit =>
      simp only [control_step] at h
      cases h
      exact ⟨hplan, hstuck, hti, hci⟩
    | returned => simp [control_step] at h
    | thrown => simp [control_step] at h
  | finish v =>
    simp only [dagra.step] at h
    replace h := (thread_step_some h).2.2
    simp only at h
    by_cases hv : v ∈ th
    swap
    · simp [hv] at h
    have hvg : v ∈ g.tasks_ := inv.live_mem v (List.mem_append_left _ hv)
    simp only [hv, if_true, h0 v hvg] at h
    cases h
    refine ⟨hplan, hstuck, ?_, ?_⟩
    · exact fun t ht => hti t (List.mem_of_mem_erase ht)
    · intro x hx
      rcases Finset.mem_insert.1 hx with rfl | hx
      · exact ⟨v, hti v hv, rfl⟩
      · exact hci x hx

theorem WaveInv.along {g : Dag} {r : DryRun} {fuel : Nat}
    (hloop : dry_run_loop g.tasks_ fuel ∅ = .ok r)
    {system : Task → Int} (h0 : ∀ t ∈ g.tasks_, system t = 0) (schedule : List Action) :
    ∀ {s s' : ExecState}, g.ExecInv s → g.DispatchInv s → g.WaveInv r s →
      dagra.run_from g.tasks_ system schedule s = some s' → g.WaveInv r s' := by
  induction schedule with
  | nil => intro s s' _ _ w h; cases h; exact w
  | cons a rest ih =>
    intro s s' inv d w h
    unfold dagra.run_from at h
    cases hs : dagra.step g.tasks_ system a s with
    | none => rw [hs] at h; cases h
    | some s1 =>
      rw [hs] at h
      exact ih (inv.step hs) (d.preserved inv hs) (w.step_kept hloop h0 inv d hs) h

/-- When `execute_all` has ended in a run whose commands all succeed, the waves are all
the batches of the plan. -/
theorem waves_complete {g : Dag} {r : DryRun} {fuel : Nat}
    (hloop : dry_run_loop g.tasks_ fuel ∅ = .ok r) {s : ExecState} (inv : g.ExecInv s)
    (d : g.DispatchInv s) (w : g.WaveInv r s)
    (hend : s.pc = .returned ∨ s.pc = .thrown) : waves s = r.batches := by
  obtain ⟨rest, hrest⟩ := w.plan
  cases rest with
  | nil => rw [hrest, List.append_nil]
  | cons b rest' =>
    exfalso
    have hb := dry_run_loop_batches g.tasks_ fuel ∅ r hloop (waves s).length b
      (by rw [hrest]; exact getElem?_append_cons _ _ _)
    rw [hrest, List.take_left' rfl] at hb
    obtain ⟨hbeq, hbne⟩ := hb
    rcases hend with hpc | hpc
    · obtain ⟨t, ht⟩ := List.exists_mem_of_ne_nil _ hbne
      rw [hbeq] at ht
      obtain ⟨htg, hnot, _⟩ := mem_dry_run_scan.1 ht
      apply hnot
      have hall := (inv.all_done (inv.at_returned hpc).2).1
      have hc : t.id ∈ s.completed := by
        rw [hall]
        exact List.mem_toFinset.2 (mem_keys.2 ⟨t, htg, rfl⟩)
      obtain ⟨u, hu, hid⟩ := w.completed_invoked _ hc
      rw [waves_flatten, d.hist]
      exact mem_mark_done.2 (Or.inr ⟨u, List.mem_append_left _ hu, hid⟩)
    · exact hbne (hbeq.trans (w.stuck (inv.at_thrown hpc)))

end Dag

/-! ## Batches and dependency chains: lemmas -/

theorem mem_take_flatten {α : Type} (l : List (List α)) (u : α) :
    ∀ k : Nat, u ∈ (l.take k).flatten ↔ ∃ j, j < k ∧ ∃ b, l[j]? = some b ∧ u ∈ b := by
  induction l with
  | nil => intro k; simp
  | cons x xs ih =>
    intro k
    cases k with
    | zero => simp
    | succ k =>
      rw [List.take_succ_cons, List.flatten_cons, List.mem_append, ih k]
      constructor
      · rintro (h | ⟨j, hj, b, hb, hu⟩)
        · exact ⟨0, by omega, x, by simp, h⟩
        · exact ⟨j + 1, by omega, b, by simpa using hb, hu⟩
      · rintro ⟨j, hj, b, hb, hu⟩
        cases j with
        | zero =>
          simp only [List.getElem?_cons_zero, Option.some.injEq] at hb
          exact Or.inl (hb ▸ hu)
        | succ j => exact Or.inr ⟨j, by omega, b, by simpa using hb, hu⟩

namespace Dag

theorem depPath_key {g : Dag} {a : String} {k : Nat} (p : g.DepPath a k) : a ∈ g.keys := by
  cases p with
  | here h => exact h
  | next h _ => exact dep_key h

/-- A numbering of the ids that grows along every dependency edge bounds the length of
every chain from below. -/
theorem depPath_le_level {g : Dag} (level : String → Nat)
    (hl : ∀ t ∈ g.tasks_, ∀ d ∈ t.dependencies, level d < level t.id)
    {a : String} {k : Nat} (p : g.DepPath a k) : k ≤ level a := by
  induction p with
  | here _ => exact Nat.zero_le _
  | next h _ ih =>
    obtain ⟨t, ht, rfl, hd⟩ := h
    have := hl t ht _ hd
    omega

/-- A task is emitted in batch `k` exactly when the batch exists, the task was in no
earlier batch and each of its dependencies was in an earlier batch. -/
theorem inBatch_iff {g : Dag} {fuel : Nat} {r : DryRun}
    (hloop : dry_run_loop g.tasks_ fuel ∅ = .ok r) (t : Task) (k : Nat) :
    InBatch r t k ↔
      k < r.batches.length ∧ t ∈ g.tasks_ ∧ (∀ j, j < k → ¬ InBatch r t j) ∧
        ∀ d ∈ t.dependencies, ∃ u j, j < k ∧ InBatch r u j ∧ u.id = d := by
  have hmem := batches_mem hloop
  have hearlier : ∀ u ∈ (r.batches.take k).flatten, u ∈ g.tasks_ := by
    intro u hu
    obtain ⟨b, hbm, hub⟩ := List.mem_flatten.1 hu
    exact hmem u (List.mem_flatten.2 ⟨b, List.mem_of_mem_take hbm, hub⟩)
  constructor
  · rintro ⟨batch, hb, htb⟩
    have hk : k < r.batches.length := (List.getElem?_eq_some_iff.1 hb).1
    rw [(dry_run_loop_batches g.tasks_ fuel ∅ r hloop k batch hb).1, mem_dry_run_scan] at htb
    obtain ⟨ht, hnot, hdeps⟩ := htb
    refine ⟨hk, ht, ?_, ?_⟩
    · rintro j hj ⟨b, hbj, htj⟩
      exact hnot (mem_mark_done.2 (Or.inr
        ⟨t, (mem_take_flatten r.batches t k).2 ⟨j, hj, b, hbj, htj⟩, rfl⟩))
    · intro d hd
      rcases mem_mark_done.1 (hdeps d hd) with h | ⟨u, hu, hid⟩
      · simp at h
      · obtain ⟨j, hj, b, hbj, hub⟩ := (mem_take_flatten r.batches u k).1 hu
        exact ⟨u, j, hj, ⟨b, hbj, hub⟩, hid⟩
  · rintro ⟨hk, ht, hnot, hdeps⟩
    have hb : r.batches[k]? = some (r.batches[k]) := List.getElem?_eq_getElem hk
    refine ⟨_, hb, ?_⟩
    rw [(dry_run_loop_batches g.tasks_ fuel ∅ r hloop k _ hb).1, mem_dry_run_scan]
    refine ⟨ht, ?_, ?_⟩
    · intro hin
      have htk := (mem_iff_id_marked hearlier ht).2 hin
      obtain ⟨j, hj, b, hbj, htj⟩ := (mem_take_flatten r.batches t k).1 htk
      exact hnot j hj ⟨b, hbj, htj⟩
    · intro d hd
      obtain ⟨u, j, hj, ⟨b, hbj, hub⟩, hid⟩ := hdeps d hd
      exact mem_mark_done.2 (Or.inr
        ⟨u, (mem_take_flatten r.batches u k).2 ⟨j, hj, b, hbj, hub⟩, hid⟩)

/-- The batch of a task is the number of edges of the longest chain of dependencies
below it. -/
theorem inBatch_longest {g : Dag} {fuel : Nat} {r : DryRun}
    (hloop : dry_run_loop g.tasks_ fuel ∅ = .ok r) :
    ∀ (k : Nat) (t : Task), InBatch r t k → g.LongestChain t.id k := by
  intro k
  induction k using Nat.strong_induction_on with
  | _ k ih =>
    intro t hin
    obtain ⟨hk, ht, hnot, hdeps⟩ := (inBatch_iff hloop t k).1 hin
    constructor
    · cases k with
      | zero => exact DepPath.here (mem_keys.2 ⟨t, ht, rfl⟩)
      | succ k =>
        have hprev : ¬ InBatch r t k := hnot k (by omega)
        rw [inBatch_iff hloop t k] at hprev
        have hex : ∃ d ∈ t.dependencies, ¬ ∃ u j, j < k ∧ InBatch r u j ∧ u.id = d := by
          by_contra hcon
          apply hprev
          refine ⟨by omega, ht, fun j hj => hnot j (by omega), ?_⟩
          intro d hd
          by_contra hd2
          exact hcon ⟨d, hd, hd2⟩
        obtain ⟨d, hd, hnone⟩ := hex
        obtain ⟨u, j, hj, hu, hid⟩ := hdeps d hd
        have hjk : j = k := by
          by_contra hne
          exact hnone ⟨u, j, by omega, hu, hid⟩
        subst hjk
        have hpath := (ih j (by omega) u hu).1
        rw [hid] at hpath
        exact DepPath.next ⟨t, ht, rfl, hd⟩ hpath
    · intro j p
      cases p with
      | here _ => exact Nat.zero_le _
      | next h q =>
        obtain ⟨v, hv, hid, hd⟩ := h
        rw [task_unique hv ht hid] at hd
        obtain ⟨u, i, hi, hu, huid⟩ := hdeps _ hd
        have hle := (ih i hi u hu).2
        rw [huid] at hle
        have := hle _ q
        omega

/-- On a graph that passes `validate` every task is in some batch of the plan. -/
theorem inBatch_exists {g : Dag} (hv : g.validate = .ok ()) {r : DryRun}
    (hr : execute_all_dry g.tasks_ = .ok r) {t : Task} (ht : t ∈ g.tasks_) :
    ∃ k, InBatch r t k := by
  obtain ⟨hde, hac⟩ := (validate_ok_iff g).1 hv
  have hne : ¬ g.tasks_.length = 0 := by
    intro h0
    rw [List.length_eq_zero] at h0
    rw [h0] at ht
    cases ht
  unfold execute_all_dry at hr
  rw [if_neg (by simpa using hne)] at hr
  obtain ⟨r', hr', _, hperm, _⟩ :=
    dry_run_loop_valid hde hac g.tasks_.length ∅ (by simp) (by simp)
  rw [hr] at hr'
  cases hr'
  have hin : t ∈ r.batches.flatten := hperm.mem_iff.2 (by simpa using ht)
  obtain ⟨b, hb, htb⟩ := List.mem_flatten.1 hin
  obtain ⟨k, hk, hkb⟩ := List.getElem_of_mem hb
  exact ⟨k, b, by rw [← hkb, List.getElem?_eq_getElem], htb⟩

end Dag

/-! ## The claims, concluded -/

/-- C21. Validation precedes execution in `main`: whenever `validate()` fails on the
graph built from the configuration, `execute_all` is not called, no command is handed to
`std::system`, and `main` returns the exit status 1, whatever the mode, the commands and
the schedule. -/
theorem validation_precedes_execution (parse_yaml : String → Except String (List Task))
    (system : Task → Int) (schedule : List Action) (argv : List String)
    (options : AppOptions) (tasks : List Task) (e : Error)
    (hargs : parse_args argv = .ok options)
    (hyaml : parse_yaml options.config_filepath = .ok tasks)
    (hval : (tasks.foldl Dag.add_task Dag.empty).validate = .error e) :
    main parse_yaml system schedule argv = some ⟨some 1, false, []⟩ := by
  simp only [main, hargs, hyaml, hval]

theorem validation_precedes_execution_witness :
    main parse_yaml_cycle system_ok [] argv_dry_run = some ⟨some 1, false, []⟩ :=
  validation_precedes_execution parse_yaml_cycle system_ok [] argv_dry_run
    ⟨"config.yaml", true⟩ [⟨"t1", "cmd1", ["t2"]⟩, ⟨"t2", "cmd2", ["t1"]⟩]
    (.CycleDetected "t1") (by decide) rfl (by decide)

/-- C22. The result of `parse_args`: when the arguments after the program name contain a
non-empty argument that does not start with "--", `parse_args` returns the first such
argument as `config_filepath` and `dry_run` true exactly when some argument equals
"--dry-run", wherever the flag stands. -/
theorem parse_args_result (prog : String) (args : List String) (path : String)
    (h : args.find? is_config_path = some path) :
    parse_args (prog :: args) = .ok ⟨path, decide ("--dry-run" ∈ args)⟩ := by
  have hpath : is_config_path path = true := List.find?_some h
  have hlen : ¬ (prog :: args).length < 2 := by
    cases args with
    | nil => simp at h
    | cons _ _ => simp
  simp only [parse_args, hlen, if_false, List.drop_succ_cons, List.drop_zero,
    parse_args_loop_spec, h, Option.getD_some, Bool.false_or, Bool.false_eq_true,
    is_config_path_ne_empty hpath]

theorem parse_args_result_witness :
    parse_args argv_flag_first = .ok ⟨"config.yaml", true⟩ ∧
      parse_args argv_dry_run = .ok ⟨"config.yaml", true⟩ ∧
      parse_args argv_basic = .ok ⟨"config.yaml", false⟩ :=
  ⟨parse_args_result "dagra" ["--dry-run", "config.yaml"] "config.yaml" (by decide),
    parse_args_result "dagra" ["config.yaml", "--dry-run"] "config.yaml" (by decide),
    parse_args_result "dagra" ["config.yaml"] "config.yaml" (by decide)⟩

/-- C23. The call `parse_args` fails with an error exactly when no argument after the
program name is a non-empty string that does not start with "--": with no argument at
all it is the usage error, with only flags or empty arguments the missing-path error. -/
theorem parse_args_fails_iff (argv : List String) :
    ((∃ e, parse_args argv = .error e) ↔ ∀ a ∈ argv.drop 1, is_config_path a = false) ∧
    (argv.length < 2 → parse_args argv = .error .Usage) ∧
    (2 ≤ argv.length → (∀ a ∈ argv.drop 1, is_config_path a = false) →
      parse_args argv = .error .ConfigPathMissing) ∧
    parse_args argv_missing = .error .Usage ∧
    parse_args argv_only_flags = .error .ConfigPathMissing := by
  have hnone : (∀ a ∈ argv.drop 1, is_config_path a = false) →
      argv.tail.find? is_config_path = none := by
    intro h
    rw [List.find?_eq_none]
    intro a ha
    rw [← List.drop_one] at ha
    simp [h a ha]
  refine ⟨?_, ?_, ?_, by decide, by decide⟩
  · constructor
    · rintro ⟨e, he⟩ a ha
      cases hpa : is_config_path a with
      | false => rfl
      | true =>
        exfalso
        cases hfind : (argv.drop 1).find? is_config_path with
        | none =>
          have := List.find?_eq_none.1 hfind a ha
          exact this hpa
        | some path =>
          cases argv with
          | nil => simp at ha
          | cons prog args =>
            rw [List.drop_succ_cons, List.drop_zero] at hfind
            rw [parse_args_result prog args path hfind] at he
            cases he
    · intro h
      by_cases hlen : argv.length < 2
      · exact ⟨.Usage, by simp [parse_args, hlen]⟩
      · exact ⟨.ConfigPathMissing, by simp [parse_args, hlen, parse_args_loop_spec, hnone h]⟩
  · intro hlen
    simp [parse_args, hlen]
  · intro hlen h
    have hlen' : ¬ argv.length < 2 := by omega
    simp [parse_args, hlen', parse_args_loop_spec, hnone h]

/-- C24. The cycle error names a node that closes a cycle: whenever `validate()` fails
with the cycle-detected error naming `n`, `n` is a key of the graph and `n` reaches
itself by following one or more dependency edges. -/
theorem cycle_error_names_cycle (g : Dag) (n : String)
    (h : g.validate = .error (.CycleDetected n)) :
    n ∈ g.keys ∧ Relation.TransGen g.dep n n := by
  have hspec := g.validate_spec
  rw [h] at hspec
  exact ⟨Dag.transGen_key hspec, hspec⟩

theorem cycle_error_names_cycle_witness :
    "task-1" ∈ dag_cycle.keys ∧ Relation.TransGen dag_cycle.dep "task-1" "task-1" :=
  cycle_error_names_cycle dag_cycle "task-1" (by decide)

/-- C26. Plan mode terminates on every graph, valid or not: the dry run returns a
report; a round with tasks undone either reports a deadlock and stops or emits a
non-empty batch that marks at least one new task done, so with `N` tasks there are at
most `N` batches; the loop stops without a report as soon as all tasks are marked done;
and the run ends with every task emitted or else with a deadlock reported. -/
theorem plan_terminates (g : Dag) :
    (∃ r, execute_all_dry g.get_all_tasks = .ok r ∧
      r.batches.length ≤ g.get_all_tasks.length ∧
      (∀ batch ∈ r.batches, batch ≠ []) ∧
      (r.deadlock = none ↔ ∀ t ∈ g.tasks_, t ∈ r.batches.flatten) ∧
      (r.deadlock.isSome ↔ ∃ t ∈ g.tasks_, t ∉ r.batches.flatten)) ∧
    (∀ (fuel : Nat) (completed_dry : Finset String),
      completed_dry.card < g.get_all_tasks.length →
      (dry_run_scan g.get_all_tasks completed_dry = [] ∧
        ∃ names, dry_run_loop g.get_all_tasks (fuel + 1) completed_dry =
          .ok ⟨[], some names⟩) ∨
      (dry_run_scan g.get_all_tasks completed_dry ≠ [] ∧
        completed_dry.card <
          (mark_done (dry_run_scan g.get_all_tasks completed_dry) completed_dry).card)) ∧
    (∀ (fuel : Nat) (completed_dry : Finset String),
      ¬ completed_dry.card < g.get_all_tasks.length →
      dry_run_loop g.get_all_tasks fuel completed_dry = .ok ⟨[], none⟩) := by
  refine ⟨?_, ?_, ?_⟩
  · obtain ⟨r, hr⟩ := g.execute_all_dry_total
    obtain ⟨fuel, hloop⟩ := execute_all_dry_loop hr
    have hdl := Dag.deadlock_iff_undone hloop
    refine ⟨r, hr, ?_, ?_, ?_, hdl⟩
    · have := g.dry_run_loop_rounds fuel ∅ r (by simp) hloop
      change r.batches.length ≤ g.tasks_.length
      omega
    · intro batch hb
      obtain ⟨k, hk, hkb⟩ := List.getElem_of_mem hb
      exact (dry_run_loop_batches g.tasks_ fuel ∅ r hloop k batch
        (by rw [← hkb, List.getElem?_eq_getElem])).2
    · constructor
      · intro hnone t ht
        by_contra hte
        have := hdl.2 ⟨t, ht, hte⟩
        rw [hnone] at this
        simp at this
      · intro hall
        cases hd : r.deadlock with
        | none => rfl
        | some names =>
          obtain ⟨t, ht, hte⟩ := hdl.1 (by rw [hd]; rfl)
          exact absurd (hall t ht) hte
  · intro fuel c hlt
    change c.card < g.tasks_.length at hlt
    change (dry_run_scan g.tasks_ c = [] ∧
      ∃ names, dry_run_loop g.tasks_ (fuel + 1) c = .ok ⟨[], some names⟩) ∨
      (dry_run_scan g.tasks_ c ≠ [] ∧ c.card < (mark_done (dry_run_scan g.tasks_ c) c).card)
    by_cases hscan : dry_run_scan g.tasks_ c = []
    · left
      refine ⟨hscan, (g.tasks_.filter (fun t => decide (t.id ∉ c))).map Task.id, ?_⟩
      rw [dry_run_loop_succ _ _ _ hlt]
      simp only [hscan, List.isEmpty_nil, if_true]
    · exact Or.inr ⟨hscan, card_mark_done_lt hscan⟩
  · intro fuel c hlt
    exact dry_run_loop_done _ _ _ hlt

/-- C28. Run-state invariant of execute mode: in every reachable state `completed` and
`running` are disjoint, both hold only ids of tasks of the graph, and every dependency
of a task whose id is in `completed` or in `running` is in `completed`. -/
theorem run_state_invariant (g : Dag) (system : Task → Int) (schedule : List Action)
    (s : ExecState) (hs : execute_all_run g.get_all_tasks system schedule = some s) :
    Disjoint s.completed s.running ∧
    (∀ x ∈ s.completed, x ∈ g.keys) ∧
    (∀ x ∈ s.running, x ∈ g.keys) ∧
    ∀ t ∈ g.tasks_, (t.id ∈ s.completed ∨ t.id ∈ s.running) →
      ∀ d ∈ t.dependencies, d ∈ s.completed := by
  have inv := Dag.execInv_of_run hs
  refine ⟨?_, ?_, ?_, inv.deps_closed⟩
  · rw [Finset.disjoint_left]
    exact fun x hc hr => inv.disjoint x hr hc
  · exact fun x hx => List.mem_toFinset.1 (inv.completed_sub hx)
  · exact fun x hx => List.mem_toFinset.1 (inv.running_sub hx)

theorem run_state_invariant_witness :
    Disjoint state_chain_b.completed state_chain_b.running ∧
      "task-a" ∈ state_chain_b.completed :=
  ⟨(run_state_invariant dag_chain system_ok (schedule_chain_a ++ [.control]) state_chain_b
      (by decide)).1,
    (run_state_invariant dag_chain system_ok (schedule_chain_a ++ [.control]) state_chain_b
      (by decide)).2.2.2 task_b (by decide) (Or.inr (by decide)) "task-a" (by decide)⟩

/-- C25. The call `validate()` terminates on every graph, cyclic or with missing
dependencies: it returns or throws, the fuel of the search never runs out; the search
is entered at most once per id, the visited set never loses an id, and on normal return
of a top-level search the recursion stack is empty again.  The entries are listed for
a cyclic graph and for a graph with a missing dependency. -/
theorem validate_terminates (g : Dag) :
    g.validate ≠ .error .FuelExhausted ∧
    g.validate_trace.2 = g.validate ∧
    g.validate_trace.1.Nodup ∧
    (∀ (task_id : String) (visited visited' stack' : Finset String), task_id ∉ visited →
      g.detect_cycle_util (g.tasks_.length + 1) task_id visited ∅ = .ok (visited', stack') →
        stack' = ∅ ∧ visited ⊆ visited' ∧ task_id ∈ visited') ∧
    dag_cycle.validate_trace = (["task-1", "task-2"], .error (.CycleDetected "task-1")) ∧
    dag_ghost_behind.validate_trace =
      (["t1", "t2", "ghost"], .error (.TaskNotFound "ghost")) := by
  refine ⟨?_, ?_, ?_, ?_, by decide, by decide⟩
  · intro h
    have hspec := g.validate_spec
    rw [h] at hspec
    exact hspec
  · exact g.validate_loop_trace_snd g.tasks_ ∅ ∅ []
  · exact g.validate_loop_trace_nodup g.tasks_ ∅ ∅ [] List.nodup_nil (by simp)
  · intro a V V' S' ha h
    exact g.detect_cycle_util_stack _ a V ∅ V' S' (Finset.empty_subset _) ha h

/-- C29. Execute mode runs in waves that equal the plan-mode batches: every scan starts
with `running` empty, and in every run whose commands all succeed the non-empty
dispatches of the scans made so far are, in order, the first batches of the plan that
the dry run emits for the same graph, and all of its batches once `execute_all` has
ended. -/
theorem waves_equal_plan (g : Dag) (system : Task → Int)
    (h0 : ∀ t ∈ g.tasks_, system t = 0) (schedule : List Action) (s : ExecState)
    (hs : execute_all_run g.get_all_tasks system schedule = some s) :
    (s.pc = .scan → s.running = ∅) ∧
    ∃ r, execute_all_dry g.get_all_tasks = .ok r ∧
      (∃ rest, r.batches = waves s ++ rest) ∧
      (s.pc = .returned ∨ s.pc = .thrown → waves s = r.batches) := by
  have inv := Dag.execInv_of_run hs
  have d := Dag.dispatchInv_of_run hs
  refine ⟨?_, ?_⟩
  · intro hpc
    have hth := (inv.at_scan hpc).1
    apply Finset.eq_empty_of_forall_not_mem
    intro x hx
    obtain ⟨t, ht, _⟩ := (inv.running_eq x).1 hx
    simp [Dag.live, hpc, Pc.pending, hth] at ht
  · obtain ⟨r, hr⟩ := g.execute_all_dry_total
    obtain ⟨fuel, hloop⟩ := execute_all_dry_loop hr
    have w : g.WaveInv r s :=
      Dag.WaveInv.along hloop h0 schedule (Dag.ExecInv.init g) (Dag.DispatchInv.at_start g)
        (Dag.WaveInv.at_begin g r) hs
    exact ⟨r, hr, w.plan, fun hend => Dag.waves_complete hloop inv d w hend⟩

theorem waves_equal_plan_witness :
    waves state_chain_done = [[task_a], [task_b], [task_c]] := by
  obtain ⟨r, hr, _, hend⟩ :=
    (waves_equal_plan dag_chain system_ok (fun _ _ => rfl) schedule_chain state_chain_done
      (by decide)).2
  have he : execute_all_dry dag_chain.get_all_tasks =
      .ok ⟨[[task_a], [task_b], [task_c]], none⟩ := by decide
  rw [he] at hr
  cases hr
  exact hend (Or.inl rfl)

/-- C27, the case that fails. The empty graph passes `validate` and its plan has no
batch at all, so the number of batches is not one plus the length of any chain. -/
theorem plan_of_empty_graph_has_no_batch :
    Dag.empty.validate = .ok () ∧
    ∃ r, execute_all_dry Dag.empty.get_all_tasks = .ok r ∧ r.batches = [] ∧
      ∀ L : Nat, r.batches.length ≠ 1 + L := by
  refine ⟨by decide, ⟨[], none⟩, by decide, rfl, ?_⟩
  intro L h
  simp at h
  omega

/-- C27, amended. On every graph that passes `validate` a task is emitted in batch `k`
(counting from 0) exactly when the longest chain of dependencies below it has `k` edges,
and no numbering that puts every task after its dependencies puts a task earlier than
its batch; when the graph is not empty the number of batches is one plus the length of
the longest dependency chain of the graph. -/
theorem plan_batches_depth_levels (g : Dag) (hv : g.validate = .ok ()) :
    ∃ r, execute_all_dry g.get_all_tasks = .ok r ∧
      (∀ t ∈ g.tasks_, ∀ k, Dag.InBatch r t k ↔ g.LongestChain t.id k) ∧
      (∀ t k, Dag.InBatch r t k → t ∈ g.tasks_) ∧
      (g.tasks_ ≠ [] → ∃ L, r.batches.length = 1 + L ∧
        (∃ t ∈ g.tasks_, g.LongestChain t.id L) ∧ ∀ a j, g.DepPath a j → j ≤ L) ∧
      (∀ level : String → Nat,
        (∀ t ∈ g.tasks_, ∀ d ∈ t.dependencies, level d < level t.id) →
          ∀ t k, Dag.InBatch r t k → k ≤ level t.id) := by
  obtain ⟨r, hr⟩ := g.execute_all_dry_total
  obtain ⟨fuel, hloop⟩ := execute_all_dry_loop hr
  have hfwd := Dag.inBatch_longest hloop
  have hlen : ∀ t k, Dag.InBatch r t k → k < r.batches.length :=
    fun t k h => ((Dag.inBatch_iff hloop t k).1 h).1
  refine ⟨r, hr, ?_, ?_, ?_, ?_⟩
  · intro t ht k
    constructor
    · exact hfwd k t
    · intro hlong
      obtain ⟨k', hk'⟩ := Dag.inBatch_exists hv hr ht
      have hlong' := hfwd k' t hk'
      have h1 := hlong'.2 k hlong.1
      have h2 := hlong.2 k' hlong'.1
      have : k = k' := by omega
      rw [this]
      exact hk'
  · exact fun t k h => ((Dag.inBatch_iff hloop t k).1 h).2.1
  · intro hne
    obtain ⟨t0, ht0⟩ := List.exists_mem_of_ne_nil _ hne
    obtain ⟨k0, hk0⟩ := Dag.inBatch_exists hv hr ht0
    have hpos := hlen t0 k0 hk0
    refine ⟨r.batches.length - 1, by omega, ?_, ?_⟩
    · have hb : r.batches[r.batches.length - 1]? =
          some (r.batches.get ⟨r.batches.length - 1, by omega⟩) :=
        List.getElem?_eq_getElem (by omega)
      have hbne := (dry_run_loop_batches g.tasks_ fuel ∅ r hloop _ _ hb).2
      obtain ⟨t, ht⟩ := List.exists_mem_of_ne_nil _ hbne
      have hin : Dag.InBatch r t (r.batches.length - 1) := ⟨_, hb, ht⟩
      exact ⟨t, ((Dag.inBatch_iff hloop t _).1 hin).2.1, hfwd _ t hin⟩
    · intro a j p
      obtain ⟨t, ht, rfl⟩ := Dag.mem_keys.1 (Dag.depPath_key p)
      obtain ⟨k, hk⟩ := Dag.inBatch_exists hv hr ht
      have h1 := (hfwd k t hk).2 j p
      have h2 := hlen t k hk
      omega
  · intro level hl t k hin
    exact Dag.depPath_le_level level hl (hfwd k t hin).1

theorem plan_batches_depth_levels_witness :
    dag_diamond.validate = .ok () ∧ dag_diamond.LongestChain "d" 2 := by
  refine ⟨by decide, ?_⟩
  obtain ⟨r, hr, hiff, _⟩ := plan_batches_depth_levels dag_diamond (by decide)
  have he : execute_all_dry dag_diamond.get_all_tasks =
      .ok ⟨[[⟨"a", "cmd", []⟩, ⟨"e", "cmd", []⟩],
        [⟨"b", "cmd", ["a"]⟩, ⟨"c", "cmd", ["a"]⟩], [⟨"d", "cmd", ["b", "c"]⟩]], none⟩ := by
    decide
  rw [he] at hr
  cases hr
  exact (hiff ⟨"d", "cmd", ["b", "c"]⟩ (by decide) 2).1 ⟨_, rfl, by decide⟩

end dagra
